import Mathlib

/-!
# Verification of the order-statistics B+Tree set (`core/bptree_set`)

This development embeds the order-statistics B-tree set of this repository
and its test-suite structural checker (`core/bptree_set_test.cc`) in Lean,
and settles the specification claims against it.

The node/tree implementation (`core/bptree_set.h`) is not part of the
source snapshot, only its test file is; following the specification
(sections 3, 4.1-4.5), the tree is modelled from the spec: nodes hold a
strictly increasing key run, internal nodes own `keys+1` children and cache
an aggregate subtree count, mutations split on overflow and borrow/merge on
underflow, and every node allocation/release is charged to an external
memory-resource byte counter.  The structural checker `Validate` is
embedded from the test source itself.

Keys are modelled as `Nat` values from the `uint64` domain (the test
instantiates `BPTree<uint64_t>`); keys are only compared, never overflowed,
so no modular arithmetic arises.
-/

set_option maxHeartbeats 3200000

namespace BPTreeSpec

/-- `UINT64_MAX`, the upper bound the test checker starts from. -/
def UINT64MAX : Nat := 2 ^ 64 - 1

/-- Modelled from the spec: node capacity bounds (section 3: key run length
lies in `[minKeys, maxKeys]`).  The spec fixes no numeric capacity; the
model instantiates the smallest legal B-tree arity, `minItems = 1`,
`maxItems = 3` (so splits of an overflowing 4-key node promote the median
and leave both halves legal, and a merge of two minimal nodes plus a
separator fits). -/
def maxItems : Nat := 3

/-- Modelled from the spec: minimal number of keys of a non-root node. -/
def minItems : Nat := 1

/-- Modelled from the spec: bytes charged to the memory resource per node
(`BPTreeNode` is a fixed-size array node; the exact byte size is a constant
of the missing header, any positive constant models the used-bytes
accounting). -/
def nodeSize : Nat := 64

/-- Modelled from the spec (section 3, `detail::BPTreeNode<uint64_t>`): a
node is a leaf holding only keys, or an internal node holding separator
keys, its owned children, and a cached subtree element count `tcnt`
(`subtreeCount`). -/
inductive BPTreeNode : Type where
  | leaf (keys : List Nat) : BPTreeNode
  | inner (keys : List Nat) (children : List BPTreeNode) (tcnt : Nat) : BPTreeNode
deriving Repr

namespace BPTreeNode

/-- `Node::Keys()` of the model. -/
def keys : BPTreeNode → List Nat
  | .leaf ks => ks
  | .inner ks _ _ => ks

/-- `Node::NumItems()`: number of keys stored in the node. -/
def NumItems (n : BPTreeNode) : Nat := n.keys.length

/-- `Node::IsLeaf()`. -/
def IsLeaf : BPTreeNode → Bool
  | .leaf _ => true
  | .inner _ _ _ => false

/-- `Node::Key(i)` (reads the key array at index `i`). -/
def KeyAt (n : BPTreeNode) (i : Nat) : Nat := n.keys.getD i 0

/-- `Node::Child(i)` (reads the child array at index `i`). -/
def Child : BPTreeNode → Nat → BPTreeNode
  | .leaf _, _ => .leaf []
  | .inner _ cs _, i => cs.getD i (.leaf [])

/-- `Node::TreeCount()`: O(1) cached subtree element count (a leaf stores
exactly its keys). -/
def TreeCount : BPTreeNode → Nat
  | .leaf ks => ks.length
  | .inner _ _ t => t

mutual
/-- In-order key sequence of a subtree (the abstraction function). -/
def elems : BPTreeNode → List Nat
  | .leaf ks => ks
  | .inner ks cs _ => interleave cs ks

/-- In-order interleaving of a child run `c0..cn` with the separator run
`k0..k(n-1)`: `elems c0 ++ k0 :: elems c1 ++ k1 :: ... ++ elems cn`. -/
def interleave : List BPTreeNode → List Nat → List Nat
  | [], _ => []
  | [c], _ => elems c
  | c :: cs, [] => elems c ++ interleave cs []
  | c :: cs, k :: ks => elems c ++ k :: interleave cs ks
end

mutual
/-- `Node::DEBUG_TreeCount()`: recursive independent recomputation of the
subtree element count. -/
def DEBUG_TreeCount : BPTreeNode → Nat
  | .leaf ks => ks.length
  | .inner ks cs _ => ks.length + debugCountL cs

/-- Sum of recomputed subtree counts of a child run. -/
def debugCountL : List BPTreeNode → Nat
  | [] => 0
  | c :: cs => DEBUG_TreeCount c + debugCountL cs
end

mutual
/-- Number of allocated nodes of a subtree. -/
def numNodes : BPTreeNode → Nat
  | .leaf _ => 1
  | .inner _ cs _ => 1 + numNodesL cs

/-- Number of allocated nodes of a child run. -/
def numNodesL : List BPTreeNode → Nat
  | [] => 0
  | c :: cs => numNodes c + numNodesL cs
end

mutual
/-- Height of a subtree (a single leaf has height 1); internal nodes
measure through their first child, which under uniform depth represents
every path. -/
def heightOf : BPTreeNode → Nat
  | .leaf _ => 1
  | .inner _ cs _ => 1 + headHeight cs

/-- Height of the first node of a child run. -/
def headHeight : List BPTreeNode → Nat
  | [] => 0
  | c :: _ => heightOf c
end

/-- Sum of the cached subtree counts of a child run (`TreeCount` reads). -/
def sumTC (cs : List BPTreeNode) : Nat := (cs.map TreeCount).sum

/-- Strictly-increasing check of a key run, mirroring the leading loop of
`BPTreeSetTest::Validate(node, ubound)`:
`for i in [1, NumItems): Key(i-1) < Key(i)`. -/
def ascL : List Nat → Bool
  | [] => true
  | [_] => true
  | a :: b :: t => decide (a < b) && ascL (b :: t)

/-- Per-node structural check, embedded from
`BPTreeSetTest::Validate(const Node* node, uint64_t ubound)`
(`bptree_set_test.cc:42-66`): keys strictly increasing; for an internal
node all children of equal leaf-ness (`mask == 3` rejection) and the cached
`TreeCount` equal to `NumItems` plus the children's cached counts; finally
the largest key is strictly below the inherited upper bound.  The C++ loop
walks child indices `0..NumItems()`, which is exactly the child array. -/
def validateNode : BPTreeNode → Nat → Bool
  | .leaf ks, ubound => ascL ks && decide (ks.getD (ks.length - 1) 0 < ubound)
  | .inner ks cs tcnt, ubound =>
      ascL ks
      && !(cs.any IsLeaf && cs.any fun c => !IsLeaf c)
      && (ks.length + sumTC cs == tcnt)
      && decide (ks.getD (ks.length - 1) 0 < ubound)

mutual
/-- Whole-tree structural check, embedded from `BPTreeSetTest::Validate()`
(`bptree_set_test.cc:68-94`): every node is checked against its inherited
upper bound; child `i` of an internal node inherits separator `Key(i)`,
the last child inherits the node's own bound.  The C++ drives this with an
explicit stack; the traversal order does not affect the conjunction, so it
is embedded as the equivalent structural recursion. -/
def validate : BPTreeNode → Nat → Bool
  | .leaf ks, ubound => validateNode (.leaf ks) ubound
  | .inner ks cs tcnt, ubound =>
      validateNode (.inner ks cs tcnt) ubound && validateKids cs ks ubound

/-- Checks child `i` against separator `Key(i)`, the last child against the
inherited bound. -/
def validateKids : List BPTreeNode → List Nat → Nat → Bool
  | [], _, _ => true
  | [c], _, ubound => validate c ubound
  | c :: cs, [], ubound => validate c ubound && validateKids cs [] ubound
  | c :: cs, k :: ks, ubound => validate c k && validateKids cs ks ubound
end

/-- Modelled from the spec (section 4.1, `locate(key) → (index, found)`):
binary search over the node's key run; `found = true` on an exact match
(then the index points at the match), otherwise the index is the insertion
point.  Modelled as the equivalent linear computation of the same
`(index, found)` result. -/
def locate (k : Nat) : List Nat → Nat × Bool
  | [] => (0, false)
  | x :: xs =>
    if k < x then (0, false)
    else if x < k then
      let r := locate k xs
      (r.1 + 1, r.2)
    else (0, true)

/-- `Node::InsertItem(index, key)`: shift the tail right and write the key
at `index`. -/
def insertAt (i : Nat) (k : Nat) (l : List Nat) : List Nat :=
  l.take i ++ k :: l.drop i

/-- Removing the key at `index` (the shift-left of node deletion). -/
def removeAt (i : Nat) (l : List Nat) : List Nat :=
  l.take i ++ l.drop (i + 1)

/-- Number of keys strictly below `k` (the abstract rank). -/
def countLt (k : Nat) (l : List Nat) : Nat :=
  l.countP fun x => decide (x < k)

/-! ### Structural well-formedness (the spec's data-model invariants) -/

/-- All nodes of a child run have the height of the first one (uniform
depth, spec invariant 3). -/
def heightsEq (cs : List BPTreeNode) : Bool :=
  cs.all fun c => heightOf c == headHeight cs

mutual
/-- Modelled from the spec (section 3 invariants): structural
well-formedness of a subtree, with the occupancy of the top node left to
the caller (a tree root, or a node in mid-rebalance, may hold fewer keys).
Requires: strictly sorted in-order key sequence, key run within capacity,
`children = keys + 1`, correct cached `subtreeCount`, uniform child height,
and recursively well-formed, properly occupied children. -/
def WBa : BPTreeNode → Bool
  | .leaf ks => ascL ks && decide (ks.length ≤ maxItems)
  | .inner ks cs tcnt =>
      ascL (interleave cs ks)
      && decide (ks.length ≤ maxItems)
      && (cs.length == ks.length + 1)
      && (tcnt == ks.length + sumTC cs)
      && heightsEq cs
      && WBL cs

/-- Each node of a child run is well-formed and holds at least `minItems`
keys. -/
def WBL : List BPTreeNode → Bool
  | [] => true
  | c :: cs => WBa c && decide (minItems ≤ NumItems c) && WBL cs
end

/-- Full well-formedness of a subtree: `WBa` plus occupied top node. -/
def WB (n : BPTreeNode) : Bool := WBa n && decide (minItems ≤ NumItems n)

/-- Insertion into a sorted key sequence (the list-level model of
`insert`): before the first larger key; an equal key leaves the sequence
unchanged. -/
def sIns (k : Nat) : List Nat → List Nat
  | [] => [k]
  | x :: xs => if k < x then k :: x :: xs else if x < k then x :: sIns k xs else x :: xs

/-- Like `WBa`, but for a node in mid-insertion: the top key run may
overflow to `maxItems + 1` keys (its caller splits it), and is never
empty. -/
def WBx : BPTreeNode → Bool
  | .leaf ks =>
      ascL ks && decide (1 ≤ ks.length) && decide (ks.length ≤ maxItems + 1)
  | .inner ks cs tcnt =>
      ascL (interleave cs ks)
      && decide (1 ≤ ks.length)
      && decide (ks.length ≤ maxItems + 1)
      && (cs.length == ks.length + 1)
      && (tcnt == ks.length + sumTC cs)
      && heightsEq cs
      && WBL cs

/-! ### Insertion (spec section 4.2) -/

/-- Modelled from the spec (section 4.1 `split`): split an overflowing node
at its median; the median key moves up (it is duplicated into neither
half), and the `subtreeCount` of both halves is recomputed from their new
contents. -/
def splitNode : BPTreeNode → BPTreeNode × Nat × BPTreeNode
  | .leaf ks =>
    let m := ks.length / 2
    (.leaf (ks.take m), ks.getD m 0, .leaf (ks.drop (m + 1)))
  | .inner ks cs _ =>
    let m := ks.length / 2
    (.inner (ks.take m) (cs.take (m + 1)) (m + sumTC (cs.take (m + 1))),
     ks.getD m 0,
     .inner (ks.drop (m + 1)) (cs.drop (m + 1))
       (ks.length - (m + 1) + sumTC (cs.drop (m + 1))))

mutual
/-- Modelled from the spec (section 4.2): recursive insertion descent.
Returns `none` when an equal key exists (no mutation), otherwise the
updated subtree — whose top node may temporarily hold `maxItems + 1` keys,
the caller splits it — and the number of nodes allocated below.  Every node
on the path has its cached count incremented exactly once. -/
def insGo : BPTreeNode → Nat → Option (BPTreeNode × Nat)
  | .leaf ks, k =>
    let r := locate k ks
    if r.2 then none
    else some (.leaf (insertAt r.1 k ks), 0)
  | .inner ks cs cnt, k =>
    match insWalk k cs ks with
    | none => none
    | some (cs2, ks2, a) => some (.inner ks2 cs2 (cnt + 1), a)

/-- Walk the separator/child runs of an internal node to the child `locate`
would select, descend, and absorb a child split (allocating the new right
sibling) into the runs. -/
def insWalk (k : Nat) : List BPTreeNode → List Nat →
    Option (List BPTreeNode × List Nat × Nat)
  | [c], _ =>
    match insGo c k with
    | none => none
    | some (c2, a) =>
      if maxItems < NumItems c2 then
        let s := splitNode c2
        some ([s.1, s.2.2], [s.2.1], a + 1)
      else some ([c2], [], a)
  | c :: cs, k0 :: ks =>
    if k < k0 then
      match insGo c k with
      | none => none
      | some (c2, a) =>
        if maxItems < NumItems c2 then
          let s := splitNode c2
          some (s.1 :: s.2.2 :: cs, s.2.1 :: k0 :: ks, a + 1)
        else some (c2 :: cs, k0 :: ks, a)
    else if k0 < k then
      match insWalk k cs ks with
      | none => none
      | some (cs2, ks2, a) => some (c :: cs2, k0 :: ks2, a)
    else none
  | _, _ => none
end

/-! ### Deletion (spec section 4.3) -/

mutual
/-- Largest key of a subtree (descends into the last child): the in-order
predecessor pulled up on an internal-node delete. -/
def subtreeMax : BPTreeNode → Nat
  | .leaf ks => ks.getD (ks.length - 1) 0
  | .inner _ cs _ => lastMax cs

/-- `subtreeMax` of the last node of a child run. -/
def lastMax : List BPTreeNode → Nat
  | [] => 0
  | [c] => subtreeMax c
  | _ :: cs => lastMax cs
end

/-- Modelled from the spec (section 4.1 `mergeWith`): absorb the right
sibling's keys and children plus the separator into one node. -/
def mergeNodes : BPTreeNode → Nat → BPTreeNode → BPTreeNode
  | .leaf ks1, k0, .leaf ks2 => .leaf (ks1 ++ k0 :: ks2)
  | .inner ks1 cs1 t1, k0, .inner ks2 cs2 t2 =>
      .inner (ks1 ++ k0 :: ks2) (cs1 ++ cs2) (t1 + t2 + 1)
  | n1, _, _ => n1

/-- Modelled from the spec (section 4.1 `borrowFrom`): rotate the right
sibling's first key (and, if internal, first child) across the separator
into the underflowing left node.  Returns the fixed node, the new
separator, and the shrunk sibling. -/
def borrowR : BPTreeNode → Nat → BPTreeNode → BPTreeNode × Nat × BPTreeNode
  | .leaf ks1, k0, .leaf ks2 =>
      (.leaf (ks1 ++ [k0]), ks2.headD 0, .leaf ks2.tail)
  | .inner ks1 cs1 t1, k0, .inner ks2 cs2 t2 =>
      let m := cs2.headD (.leaf [])
      (.inner (ks1 ++ [k0]) (cs1 ++ [m]) (t1 + 1 + TreeCount m),
       ks2.headD 0,
       .inner ks2.tail cs2.tail (t2 - 1 - TreeCount m))
  | n1, k0, n2 => (n1, k0, n2)

/-- Mirror image of `borrowR`: rotate the left sibling's last key (and, if
internal, last child) across the separator into the underflowing right
node.  Returns the shrunk sibling, the new separator, and the fixed
node. -/
def borrowL : BPTreeNode → Nat → BPTreeNode → BPTreeNode × Nat × BPTreeNode
  | .leaf ks1, k0, .leaf ks2 =>
      (.leaf ks1.dropLast, ks1.getD (ks1.length - 1) 0, .leaf (k0 :: ks2))
  | .inner ks1 cs1 t1, k0, .inner ks2 cs2 t2 =>
      let m := cs1.getLastD (.leaf [])
      (.inner ks1.dropLast cs1.dropLast (t1 - 1 - TreeCount m),
       ks1.getD (ks1.length - 1) 0,
       .inner (k0 :: ks2) (m :: cs2) (t2 + 1 + TreeCount m))
  | n1, k0, n2 => (n1, k0, n2)

/-- Fix an underflowing first child of a run against its right sibling:
borrow if the sibling has a spare key, merge (freeing one node) otherwise.
The run is left untouched when its first node is properly occupied or has
no sibling. -/
def fixHead : List BPTreeNode → List Nat → List BPTreeNode × List Nat × Nat
  | c :: s :: rest, k0 :: ks =>
    if minItems ≤ NumItems c then (c :: s :: rest, k0 :: ks, 0)
    else if minItems < NumItems s then
      let b := borrowR c k0 s
      (b.1 :: b.2.2 :: rest, b.2.1 :: ks, 0)
    else (mergeNodes c k0 s :: rest, ks, 1)
  | cs, ks => (cs, ks, 0)

/-- Fix a possibly-underflowing node (the head of the returned run of a
recursive deletion step) against its left sibling `c` across separator
`k0`: borrow from `c` if it has a spare key, merge otherwise. -/
def fixMid (c : BPTreeNode) (k0 : Nat) :
    List BPTreeNode → List Nat → List BPTreeNode × List Nat × Nat
  | h :: rest, ks =>
    if minItems ≤ NumItems h then (c :: h :: rest, k0 :: ks, 0)
    else if minItems < NumItems c then
      let b := borrowL c k0 h
      (b.1 :: b.2.2 :: rest, b.2.1 :: ks, 0)
    else (mergeNodes c k0 h :: rest, ks, 1)
  | [], ks => ([c], k0 :: ks, 0)

mutual
/-- Modelled from the spec (section 4.3): recursive deletion descent.
`none` when the key is absent (no mutation); otherwise the updated subtree
— whose top node may be left underfull, the caller rebalances — and the
number of nodes freed below.  A key found in an internal node is replaced
by its in-order predecessor, which is deleted from its leaf instead; every
node on the path has its cached count decremented exactly once. -/
def delGo : BPTreeNode → Nat → Option (BPTreeNode × Nat)
  | .leaf ks, k =>
    let r := locate k ks
    if r.2 then some (.leaf (removeAt r.1 ks), 0) else none
  | .inner ks cs cnt, k =>
    match delWalk k cs ks with
    | none => none
    | some (cs2, ks2, f) =>
      let fx := fixHead cs2 ks2
      some (.inner fx.2.1 fx.1 (cnt - 1), f + fx.2.2)

/-- Walk the separator/child runs to the affected child, descend (or, on an
exact separator match, pull up the in-order predecessor), and repair a
resulting underflow against the left sibling; an underflow of the run's
first node is left for the caller. -/
def delWalk (k : Nat) : List BPTreeNode → List Nat →
    Option (List BPTreeNode × List Nat × Nat)
  | [c], ks =>
    match delGo c k with
    | none => none
    | some (c2, f) => some ([c2], ks, f)
  | c :: cs, k0 :: ks =>
    if k < k0 then
      match delGo c k with
      | none => none
      | some (c2, f) => some (c2 :: cs, k0 :: ks, f)
    else if k0 < k then
      match delWalk k cs ks with
      | none => none
      | some (cs2, ks2, f) =>
        let fx := fixMid c k0 cs2 ks2
        some (fx.1, fx.2.1, f + fx.2.2)
    else
      let p := subtreeMax c
      let r := (delGo c p).getD (c, 0)
      some (r.1 :: cs, p :: ks, r.2)
  | _, _ => none
end

/-! ### Order statistics (spec section 4.4) -/

mutual
/-- Modelled from the spec (section 4.4 `rank`): number of elements
strictly below `k`, computed by descending with `locate` and accumulating
`1 + subtreeCount` for every skipped separator/child pair. -/
def rankGo : BPTreeNode → Nat → Nat
  | .leaf ks, k => (locate k ks).1
  | .inner ks cs _, k => rankWalk k cs ks

/-- Separator/child walk of the rank descent. -/
def rankWalk (k : Nat) : List BPTreeNode → List Nat → Nat
  | [c], _ => rankGo c k
  | c :: cs, k0 :: ks =>
    if k < k0 then rankGo c k
    else if k0 < k then TreeCount c + 1 + rankWalk k cs ks
    else TreeCount c
  | _, _ => 0
end

mutual
/-- Modelled from the spec (section 4.4 `iterateRange`): ascending
traversal producing the elements at ranks `lo, lo+1, ..., lo+cnt-1` of the
subtree (the arguments of the successive `visit` calls); resolves the
position at `lo` by an `elementAtRank`-style descent over the cached
subtree counts, then walks in order. -/
def iterGo : BPTreeNode → Nat → Nat → List Nat
  | .leaf ks, lo, cnt => (ks.drop lo).take cnt
  | .inner ks cs _, lo, cnt => iterWalk lo cnt cs ks

/-- Separator/child walk of the ascending range traversal. -/
def iterWalk (lo cnt : Nat) : List BPTreeNode → List Nat → List Nat
  | [c], _ => iterGo c lo cnt
  | c :: cs, k0 :: ks =>
    let tc := TreeCount c
    if lo < tc then
      let t1 := iterGo c lo cnt
      if cnt ≤ tc - lo then t1
      else t1 ++ k0 :: iterWalk 0 (cnt - (tc - lo) - 1) cs ks
    else if lo = tc then
      if cnt = 0 then [] else k0 :: iterWalk 0 (cnt - 1) cs ks
    else iterWalk (lo - tc - 1) cnt cs ks
  | _, _ => []
end

mutual
/-- Modelled from the spec (section 4.4 `iterateRangeReverse`): descending
traversal producing the elements at ranks `hi, hi-1, ..., hi-cnt+1` of the
subtree, in that order. -/
def riterGo : BPTreeNode → Nat → Nat → List Nat
  | .leaf ks, hi, cnt => (ks.take (hi + 1)).reverse.take cnt
  | .inner ks cs _, hi, cnt => riterWalk hi cnt cs ks

/-- Separator/child walk of the descending range traversal. -/
def riterWalk (hi cnt : Nat) : List BPTreeNode → List Nat → List Nat
  | [c], _ => riterGo c hi cnt
  | c :: cs, k0 :: ks =>
    let tc := TreeCount c
    if hi < tc then riterGo c hi cnt
    else if hi = tc then
      if cnt = 0 then [] else k0 :: riterGo c (tc - 1) (cnt - 1)
    else
      let t1 := riterWalk (hi - tc - 1) cnt cs ks
      if cnt ≤ hi - tc then t1
      else t1 ++ k0 :: riterGo c (tc - 1) (cnt - (hi - tc) - 1)
  | _, _ => []
end

end BPTreeNode

open BPTreeNode in
/-- Modelled from the spec (sections 3 and 6): the tree object.  `root` is
the owned root node (or none when empty); `size_`, `height_` and `count_`
are the incrementally maintained element, height and node-count
diagnostics; `used_` is the used-bytes counter of the borrowed memory
resource (`MiMemoryResource::used()`), charged `nodeSize` per node
acquired and credited `nodeSize` per node released. -/
structure BPTree : Type where
  root : Option BPTreeNode
  size_ : Nat
  height_ : Nat
  count_ : Nat
  used_ : Nat

namespace BPTree

open BPTreeNode

/-- A freshly constructed tree over a fresh memory resource. -/
def empty : BPTree := ⟨none, 0, 0, 0, 0⟩

/-- `BPTree::Size()`. -/
def Size (t : BPTree) : Nat := t.size_

/-- `BPTree::Height()`. -/
def Height (t : BPTree) : Nat := t.height_

/-- `BPTree::NodeCount()`. -/
def NodeCount (t : BPTree) : Nat := t.count_

/-- The memory resource's used-bytes counter. -/
def used (t : BPTree) : Nat := t.used_

/-- Modelled from the spec (section 4.2, `insert(key) → bool`): descend,
reject an equal key, otherwise insert at the leaf, splitting overflowing
nodes upward; a root split allocates a fresh root and grows the height. -/
def Insert (t : BPTree) (k : Nat) : Bool × BPTree :=
  match t.root with
  | none =>
    (true, ⟨some (.leaf [k]), t.size_ + 1, 1, t.count_ + 1, t.used_ + nodeSize⟩)
  | some r =>
    match insGo r k with
    | none => (false, t)
    | some (r2, a) =>
      if maxItems < NumItems r2 then
        let s := splitNode r2
        (true, ⟨some (.inner [s.2.1] [s.1, s.2.2] (TreeCount s.1 + TreeCount s.2.2 + 1)),
          t.size_ + 1, t.height_ + 1, t.count_ + (a + 2), t.used_ + nodeSize * (a + 2)⟩)
      else
        (true, ⟨some r2, t.size_ + 1, t.height_, t.count_ + a, t.used_ + nodeSize * a⟩)

/-- Modelled from the spec (section 4.3, `delete(key) → bool`): descend,
report an absent key, otherwise remove and rebalance; an emptied root leaf
is released, a root left with zero separators hands its sole child up
(shrinking the height). -/
def Delete (t : BPTree) (k : Nat) : Bool × BPTree :=
  match t.root with
  | none => (false, t)
  | some r =>
    match delGo r k with
    | none => (false, t)
    | some (r2, f) =>
      match r2 with
      | .leaf [] =>
        (true, ⟨none, t.size_ - 1, 0, t.count_ - (f + 1), t.used_ - nodeSize * (f + 1)⟩)
      | .leaf ks =>
        (true, ⟨some (.leaf ks), t.size_ - 1, t.height_, t.count_ - f, t.used_ - nodeSize * f⟩)
      | .inner [] cs _ =>
        (true, ⟨some (cs.headD (.leaf [])), t.size_ - 1, t.height_ - 1,
          t.count_ - (f + 1), t.used_ - nodeSize * (f + 1)⟩)
      | .inner ks cs cnt =>
        (true, ⟨some (.inner ks cs cnt), t.size_ - 1, t.height_,
          t.count_ - f, t.used_ - nodeSize * f⟩)

/-- Modelled from the spec (section 6, `clear()`): release every node back
to the memory resource and reset to the empty state. -/
def Clear (t : BPTree) : BPTree :=
  ⟨none, 0, 0, 0,
   t.used_ - nodeSize * (match t.root with | none => 0 | some r => numNodes r)⟩

/-- `BPTree::GetRank(key)` (spec section 4.4): number of elements strictly
below `key`. -/
def GetRank (t : BPTree) (k : Nat) : Nat :=
  match t.root with
  | none => 0
  | some r => rankGo r k

/-- `BPTree::Iterate(lo, hi, visit)` (spec section 4.4): the list of
arguments of the successive `visit` calls, ascending over ranks
`lo..hi`. -/
def Iterate (t : BPTree) (lo hi : Nat) : List Nat :=
  match t.root with
  | none => []
  | some r => iterGo r lo (hi + 1 - lo)

/-- `BPTree::IterateReverse(lo, hi, visit)` (spec section 4.4): the list of
arguments of the successive `visit` calls, descending over ranks
`hi..lo`. -/
def IterateReverse (t : BPTree) (lo hi : Nat) : List Nat :=
  match t.root with
  | none => []
  | some r => riterGo r hi (hi + 1 - lo)

/-- `BPTreeSetTest::Validate()` at the tree level, embedded from
`bptree_set_test.cc:68-94`: an empty tree passes; otherwise every node is
checked against its inherited upper bound, starting from `UINT64_MAX` at
the root. -/
def ValidateTree (t : BPTree) : Bool :=
  match t.root with
  | none => true
  | some r => validate r UINT64MAX

/-- In-order element sequence of the whole tree (abstraction function). -/
def elemsT (t : BPTree) : List Nat :=
  match t.root with
  | none => []
  | some r => elems r

/-- Tree-level well-formedness: a well-formed root and accurate cached
diagnostics (size, height, node count, and resource bytes at `nodeSize`
per live node). -/
def WFT (t : BPTree) : Bool :=
  match t.root with
  | none =>
      t.size_ == 0 && t.height_ == 0 && t.count_ == 0 && t.used_ == 0
  | some r =>
      WB r && (t.size_ == TreeCount r) && (t.height_ == heightOf r)
      && (t.count_ == numNodes r) && (t.used_ == nodeSize * numNodes r)

end BPTree

/-- A public mutation of the test driver: one `Insert` or `Delete` call. -/
inductive TreeOp : Type where
  | ins (k : Nat) : TreeOp
  | del (k : Nat) : TreeOp

/-- The key an operation carries. -/
def TreeOp.key : TreeOp → Nat
  | .ins k => k
  | .del k => k

/-- Apply one mutation. -/
def applyOp (t : BPTree) : TreeOp → BPTree
  | .ins k => (BPTree.Insert t k).2
  | .del k => (BPTree.Delete t k).2

/-- Apply a mutation sequence left to right. -/
def applyOps (t : BPTree) (ops : List TreeOp) : BPTree :=
  ops.foldl applyOp t

/-- Number of successful inserts along a run. -/
def succIns : BPTree → List TreeOp → Nat
  | _, [] => 0
  | t, op :: ops =>
    (match op with
     | .ins k => if (BPTree.Insert t k).1 then 1 else 0
     | .del _ => 0) + succIns (applyOp t op) ops

/-- Number of successful deletes along a run. -/
def succDel : BPTree → List TreeOp → Nat
  | _, [] => 0
  | t, op :: ops =>
    (match op with
     | .ins _ => 0
     | .del k => if (BPTree.Delete t k).1 then 1 else 0) + succDel (applyOp t op) ops

open BPTreeNode in
/-- Number of nodes a successful `Insert` acquires from the memory
resource (`insGo` counts the split allocations along the path; a root
split allocates the new sibling and the new root, a first insertion
allocates the root leaf). -/
def insertAllocs (t : BPTree) (k : Nat) : Nat :=
  match t.root with
  | none => 1
  | some r =>
    match insGo r k with
    | none => 0
    | some (r2, a) => if maxItems < NumItems r2 then a + 2 else a

open BPTreeNode in
/-- Modelled from the spec (section 5, allocation failure): `insert`
against a memory resource that can still serve `budget` node allocations.
Every node needed by the operation (each split sibling, a fresh root) is
requested before the tree is mutated, so a failing allocation propagates
`bad_alloc` unchanged — no retry — and leaves the tree exactly as it was:
the last consistent state. -/
def InsertF (t : BPTree) (budget : Nat) (k : Nat) :
    Except String (Bool × BPTree) :=
  if budget < insertAllocs t k then .error "bad_alloc"
  else .ok (BPTree.Insert t k)

end BPTreeSpec

namespace BPTreeSpec

namespace BPTreeNode

/-! ### Sorted-list toolkit -/

theorem ascL_iff_chain : ∀ {l : List Nat}, ascL l = true ↔ List.Chain' (· < ·) l
  | [] => by simp [ascL]
  | [a] => by simp [ascL]
  | a :: b :: t => by
    rw [ascL, Bool.and_eq_true, ascL_iff_chain]
    simp [List.chain'_cons]

theorem ascL_iff_pairwise {l : List Nat} :
    ascL l = true ↔ List.Pairwise (· < ·) l := by
  rw [ascL_iff_chain]
  exact List.chain'_iff_pairwise

theorem countLt_nil (k : Nat) : countLt k [] = 0 := rfl

theorem countLt_cons (k x : Nat) (l : List Nat) :
    countLt k (x :: l) = (if x < k then 1 else 0) + countLt k l := by
  by_cases h : x < k <;> simp [countLt, List.countP_cons, h] <;> omega

theorem countLt_append (k : Nat) (l1 l2 : List Nat) :
    countLt k (l1 ++ l2) = countLt k l1 + countLt k l2 := by
  simp [countLt, List.countP_append]

theorem countLt_eq_zero {k : Nat} {l : List Nat} (h : ∀ x ∈ l, ¬x < k) :
    countLt k l = 0 := by
  simp only [countLt, List.countP_eq_zero]
  intro x hx
  simpa using h x hx

theorem countLt_eq_length {k : Nat} {l : List Nat} (h : ∀ x ∈ l, x < k) :
    countLt k l = l.length := by
  simp only [countLt, List.countP_eq_length]
  intro x hx
  simpa using h x hx

theorem countLt_le_length (k : Nat) (l : List Nat) : countLt k l ≤ l.length :=
  List.countP_le_length _

/-- On a strictly sorted run, `locate` finds exactly the present keys. -/
theorem locate_found : ∀ {l : List Nat}, List.Pairwise (· < ·) l →
    ∀ k, (locate k l).2 = (decide (k ∈ l))
  | [], _, k => by simp [locate]
  | x :: xs, h, k => by
    rcases List.pairwise_cons.mp h with ⟨hx, hxs⟩
    by_cases h1 : k < x
    · have : k ∉ x :: xs := by
        intro hm
        rcases List.mem_cons.mp hm with rfl | hm
        · omega
        · exact absurd (hx k hm) (by omega)
      simp [locate, h1, this]
    · by_cases h2 : x < k
      · have hne : ¬k = x := by omega
        rw [locate]
        simp only [if_neg h1, if_pos h2]
        rw [locate_found hxs k]
        simp [List.mem_cons, hne]
      · have : k = x := by omega
        subst this
        simp [locate, h1, h2]

/-- On a strictly sorted run, the `locate` index is the number of smaller
keys (the insertion point; for a present key, its position). -/
theorem locate_idx : ∀ {l : List Nat}, List.Pairwise (· < ·) l →
    ∀ k, (locate k l).1 = countLt k l
  | [], _, k => by simp [locate, countLt]
  | x :: xs, h, k => by
    rcases List.pairwise_cons.mp h with ⟨hx, hxs⟩
    by_cases h1 : k < x
    · have : countLt k (x :: xs) = 0 := by
        apply countLt_eq_zero
        intro y hy
        rcases List.mem_cons.mp hy with rfl | hy
        · omega
        · have := hx y hy; omega
      simp [locate, h1, this]
    · by_cases h2 : x < k
      · rw [locate]
        simp only [if_neg h1, if_pos h2]
        rw [countLt_cons, locate_idx hxs k, if_pos h2]
        omega
      · have : k = x := by omega
        subst this
        have : countLt k (k :: xs) = 0 := by
          apply countLt_eq_zero
          intro y hy
          rcases List.mem_cons.mp hy with rfl | hy
          · omega
          · have := hx y hy; omega
        simp [locate, h1, h2] at this ⊢
        omega

theorem takeWhile_lt_eq_take {k : Nat} : ∀ {l : List Nat},
    List.Pairwise (· < ·) l →
    l.takeWhile (fun x => decide (x < k)) = l.take (countLt k l)
  | [], _ => by simp
  | x :: xs, h => by
    rcases List.pairwise_cons.mp h with ⟨hx, hxs⟩
    by_cases h1 : x < k
    · rw [countLt_cons, if_pos h1, List.takeWhile_cons]
      simp only [decide_eq_true_eq, h1, if_pos, Nat.add_comm 1, List.take_succ_cons]
      rw [takeWhile_lt_eq_take hxs]
    · have h0 : countLt k (x :: xs) = 0 := by
        apply countLt_eq_zero
        intro y hy
        rcases List.mem_cons.mp hy with rfl | hy
        · omega
        · have := hx y hy; omega
      rw [h0, List.takeWhile_cons]
      simp [h1]

theorem dropWhile_lt_eq_drop {k : Nat} : ∀ {l : List Nat},
    List.Pairwise (· < ·) l →
    l.dropWhile (fun x => decide (x < k)) = l.drop (countLt k l)
  | [], _ => by simp
  | x :: xs, h => by
    rcases List.pairwise_cons.mp h with ⟨hx, hxs⟩
    by_cases h1 : x < k
    · rw [countLt_cons, if_pos h1, List.dropWhile_cons]
      simp only [decide_eq_true_eq, h1, if_pos, Nat.add_comm 1, List.drop_succ_cons]
      rw [dropWhile_lt_eq_drop hxs]
    · have h0 : countLt k (x :: xs) = 0 := by
        apply countLt_eq_zero
        intro y hy
        rcases List.mem_cons.mp hy with rfl | hy
        · omega
        · have := hx y hy; omega
      rw [h0, List.dropWhile_cons]
      simp [h1]

/-- On a strictly sorted run containing `k`, the drop at `k`'s position
starts with `k`. -/
theorem drop_countLt_of_mem : ∀ {l : List Nat}, List.Pairwise (· < ·) l →
    ∀ {k}, k ∈ l → l.drop (countLt k l) = k :: (l.drop (countLt k l)).tail
  | [], _, k, hm => by simp at hm
  | x :: xs, h, k, hm => by
    rcases List.pairwise_cons.mp h with ⟨hx, hxs⟩
    rcases List.mem_cons.mp hm with rfl | hm
    · have h0 : countLt k (k :: xs) = 0 := by
        apply countLt_eq_zero
        intro y hy
        rcases List.mem_cons.mp hy with rfl | hy
        · omega
        · have := hx y hy; omega
      simp [h0]
    · have h1 : x < k := hx k hm
      rw [countLt_cons, if_pos h1, Nat.add_comm 1, List.drop_succ_cons]
      exact drop_countLt_of_mem hxs hm

theorem mem_take_countLt_lt {k : Nat} : ∀ {l : List Nat},
    List.Pairwise (· < ·) l → ∀ x ∈ l.take (countLt k l), x < k := by
  intro l h x hx
  rw [← takeWhile_lt_eq_take h] at hx
  have := List.mem_takeWhile_imp hx
  simpa using this

theorem mem_drop_countLt_ge {k : Nat} : ∀ {l : List Nat},
    List.Pairwise (· < ·) l → ∀ x ∈ l.drop (countLt k l), k ≤ x
  | [], _ => by simp
  | y :: ys, h => by
    rcases List.pairwise_cons.mp h with ⟨hy, hys⟩
    intro x hx
    by_cases h1 : y < k
    · rw [countLt_cons, if_pos h1, Nat.add_comm 1, List.drop_succ_cons] at hx
      exact mem_drop_countLt_ge hys x hx
    · have h0 : countLt k (y :: ys) = 0 := by
        apply countLt_eq_zero
        intro z hz
        rcases List.mem_cons.mp hz with rfl | hz
        · omega
        · have := hy z hz; omega
      rw [h0, List.drop_zero] at hx
      rcases List.mem_cons.mp hx with rfl | hx
      · omega
      · have := hy x hx; omega

theorem insertAt_countLt {k : Nat} {l : List Nat} :
    insertAt (countLt k l) k l = l.take (countLt k l) ++ k :: l.drop (countLt k l) := rfl

theorem insertAt_countLt_sorted {k : Nat} {l : List Nat}
    (h : List.Pairwise (· < ·) l) (hk : k ∉ l) :
    List.Pairwise (· < ·) (insertAt (countLt k l) k l) := by
  rw [insertAt_countLt]
  rw [List.pairwise_append]
  refine ⟨h.sublist (List.take_sublist _ _), ?_, ?_⟩
  · rw [List.pairwise_cons]
    refine ⟨?_, h.sublist (List.drop_sublist _ _)⟩
    intro x hx
    have := mem_drop_countLt_ge h x hx
    have : x ≠ k := by
      intro hxe
      subst hxe
      exact hk (List.mem_of_mem_drop hx)
    omega
  · intro a ha b hb
    have h1 := mem_take_countLt_lt h a ha
    rcases List.mem_cons.mp hb with rfl | hb
    · exact h1
    · have := mem_drop_countLt_ge h b hb
      omega

theorem length_insertAt_countLt {k : Nat} {l : List Nat} :
    (insertAt (countLt k l) k l).length = l.length + 1 := by
  rw [insertAt_countLt]
  have h1 := countLt_le_length k l
  simp [List.length_take, List.length_drop]
  omega

theorem removeAt_countLt {k : Nat} {l : List Nat} (h : List.Pairwise (· < ·) l)
    (hk : k ∈ l) : removeAt (countLt k l) l = l.erase k := by
  have hsplit : l = l.take (countLt k l) ++ l.drop (countLt k l) := by
    rw [List.take_append_drop]
  have hdrop := drop_countLt_of_mem h hk
  have hknot : k ∉ l.take (countLt k l) := by
    intro hmem
    have := mem_take_countLt_lt h k hmem
    omega
  rw [removeAt]
  conv_rhs => rw [hsplit]
  rw [List.erase_append_right _ hknot, hdrop, List.erase_cons_head]
  have : l.drop (countLt k l + 1) = (l.drop (countLt k l)).tail := by
    rw [← List.drop_drop]
    simp
  rw [this]

theorem erase_append_of_mem_left {k : Nat} {l1 l2 : List Nat} (h : k ∈ l1) :
    (l1 ++ l2).erase k = l1.erase k ++ l2 :=
  List.erase_append_left _ h

/-! ### `interleave` decomposition lemmas -/

theorem interleave_single (c : BPTreeNode) (ks : List Nat) :
    interleave [c] ks = elems c := by
  cases ks <;> rfl

theorem interleave_cons2 (c c2 : BPTreeNode) (cs : List BPTreeNode)
    (k : Nat) (ks : List Nat) :
    interleave (c :: c2 :: cs) (k :: ks) = elems c ++ k :: interleave (c2 :: cs) ks := by
  rfl

theorem interleave_cons_of_ne (c : BPTreeNode) (cs : List BPTreeNode)
    (k : Nat) (ks : List Nat) (h : cs ≠ []) :
    interleave (c :: cs) (k :: ks) = elems c ++ k :: interleave cs ks := by
  cases cs with
  | nil => exact absurd rfl h
  | cons c2 cs' => rfl

theorem interleave_append : ∀ (ks1 : List Nat) (cs1 cs2 : List BPTreeNode)
    (k0 : Nat) (ks2 : List Nat), cs1.length = ks1.length + 1 → cs2 ≠ [] →
    interleave (cs1 ++ cs2) (ks1 ++ k0 :: ks2) =
      interleave cs1 ks1 ++ k0 :: interleave cs2 ks2
  | [], cs1, cs2, k0, ks2, hlen, hne => by
    match cs1, hlen with
    | [c], _ =>
      rw [interleave_single]
      exact interleave_cons_of_ne c cs2 k0 ks2 hne
  | k1 :: ks1, cs1, cs2, k0, ks2, hlen, hne => by
    match cs1, hlen with
    | c :: cs1', hlen =>
      have hlen' : cs1'.length = ks1.length + 1 := by
        simpa using hlen
      have hne1 : cs1' ≠ [] := by
        intro hh
        subst hh
        simp at hlen'
      have hne2 : cs1' ++ cs2 ≠ [] := by
        simp [hne1]
      rw [List.cons_append, List.cons_append,
        interleave_cons_of_ne c (cs1' ++ cs2) k1 (ks1 ++ k0 :: ks2) hne2,
        interleave_cons_of_ne c cs1' k1 ks1 hne1,
        interleave_append ks1 cs1' cs2 k0 ks2 hlen' hne]
      simp

/-- Structural induction over nodes, with the inductive hypothesis on every
child. -/
theorem nodeInd (motive : BPTreeNode → Prop)
    (hleaf : ∀ ks, motive (.leaf ks))
    (hinner : ∀ ks cs c, (∀ n ∈ cs, motive n) → motive (.inner ks cs c)) :
    ∀ n, motive n
  | .leaf ks => hleaf ks
  | .inner ks cs c =>
    hinner ks cs c fun m _ => nodeInd motive hleaf hinner m
termination_by n => sizeOf n
decreasing_by
  rename_i hm
  have := List.sizeOf_lt_of_mem hm
  simp only [BPTreeNode.inner.sizeOf_spec]
  omega

theorem WBL_iff {cs : List BPTreeNode} :
    WBL cs = true ↔ ∀ c ∈ cs, WB c = true := by
  induction cs with
  | nil => simp [WBL]
  | cons c cs ih =>
    rw [WBL, Bool.and_eq_true, Bool.and_eq_true, ih]
    constructor
    · rintro ⟨⟨h1, h2⟩, h3⟩ d hd
      rcases List.mem_cons.mp hd with rfl | hd
      · simp [WB, h1, h2]
      · exact h3 d hd
    · intro h
      have hc := h c (List.mem_cons_self c cs)
      rw [WB, Bool.and_eq_true] at hc
      exact ⟨⟨hc.1, hc.2⟩, fun d hd => h d (List.mem_cons_of_mem _ hd)⟩

theorem WBa_inner_iff {ks : List Nat} {cs : List BPTreeNode} {t : Nat} :
    WBa (.inner ks cs t) = true ↔
      List.Pairwise (· < ·) (interleave cs ks) ∧
      ks.length ≤ maxItems ∧
      cs.length = ks.length + 1 ∧
      t = ks.length + sumTC cs ∧
      heightsEq cs = true ∧
      ∀ c ∈ cs, WB c = true := by
  rw [WBa]
  simp only [Bool.and_eq_true, decide_eq_true_eq, beq_iff_eq, WBL_iff,
    ascL_iff_pairwise]
  tauto

theorem WBa_leaf_iff {ks : List Nat} :
    WBa (.leaf ks) = true ↔
      List.Pairwise (· < ·) ks ∧ ks.length ≤ maxItems := by
  rw [WBa]
  simp [ascL_iff_pairwise]

theorem WBa_sorted {n : BPTreeNode} (h : WBa n = true) :
    List.Pairwise (· < ·) (elems n) := by
  cases n with
  | leaf ks => rw [elems]; exact (WBa_leaf_iff.mp h).1
  | inner ks cs t => rw [elems]; exact (WBa_inner_iff.mp h).1

theorem length_interleave : ∀ (ks : List Nat) (cs : List BPTreeNode),
    cs.length = ks.length + 1 →
    (interleave cs ks).length = (cs.map fun c => (elems c).length).sum + ks.length
  | [], cs, hlen => by
    match cs, hlen with
    | [c], _ => simp [interleave_single]
  | k :: ks, cs, hlen => by
    match cs, hlen with
    | c :: cs', hlen =>
      have hlen' : cs'.length = ks.length + 1 := by simpa using hlen
      have hne : cs' ≠ [] := by
        intro hh; subst hh; simp at hlen'
      rw [interleave_cons_of_ne c cs' k ks hne]
      simp only [List.length_append, List.length_cons,
        length_interleave ks cs' hlen', List.map_cons, List.sum_cons]
      omega

/-- Under well-formedness the cached `subtreeCount` is the number of
elements of the subtree. -/
theorem TreeCount_eq_length_elems {n : BPTreeNode} (h : WBa n = true) :
    TreeCount n = (elems n).length := by
  induction n using nodeInd with
  | hleaf ks => rw [TreeCount, elems]
  | hinner ks cs t ih =>
    rcases WBa_inner_iff.mp h with ⟨_, _, hlen, hcnt, _, hkids⟩
    rw [TreeCount, elems, length_interleave ks cs hlen, hcnt]
    have : ∀ c ∈ cs, TreeCount c = (elems c).length := by
      intro c hc
      have hw := hkids c hc
      rw [WB, Bool.and_eq_true] at hw
      exact ih c hc hw.1
    have hmap : cs.map TreeCount = cs.map fun c => (elems c).length :=
      List.map_congr_left this
    rw [sumTC, hmap]
    omega

theorem heightOf_pos (n : BPTreeNode) : 1 ≤ heightOf n := by
  cases n <;> simp [heightOf]

theorem heightsEq_iff {cs : List BPTreeNode} :
    heightsEq cs = true ↔ ∀ c ∈ cs, heightOf c = headHeight cs := by
  simp [heightsEq, List.all_eq_true]

theorem headHeight_cons (c : BPTreeNode) (cs : List BPTreeNode) :
    headHeight (c :: cs) = heightOf c := rfl

/-- A well-formed internal node has height at least 2, so equal heights
force equal leaf-ness. -/
theorem heightOf_inner_ge_two {ks : List Nat} {cs : List BPTreeNode} {t : Nat}
    (h : WBa (.inner ks cs t) = true) : 2 ≤ heightOf (.inner ks cs t) := by
  rcases WBa_inner_iff.mp h with ⟨_, _, hlen, _, _, _⟩
  match cs, hlen with
  | c :: cs', _ =>
    rw [heightOf, headHeight_cons]
    have := heightOf_pos c
    omega

theorem isLeaf_iff_heightOf_eq_one {n : BPTreeNode} (h : WBa n = true) :
    IsLeaf n = true ↔ heightOf n = 1 := by
  cases n with
  | leaf ks => simp [IsLeaf, heightOf]
  | inner ks cs t =>
    have := heightOf_inner_ge_two h
    simp only [IsLeaf, Bool.false_eq_true, false_iff]
    omega

theorem sumTC_append (cs1 cs2 : List BPTreeNode) :
    sumTC (cs1 ++ cs2) = sumTC cs1 + sumTC cs2 := by
  simp [sumTC]

theorem sumTC_cons (c : BPTreeNode) (cs : List BPTreeNode) :
    sumTC (c :: cs) = TreeCount c + sumTC cs := by
  simp [sumTC]

theorem numNodesL_append (cs1 cs2 : List BPTreeNode) :
    numNodesL (cs1 ++ cs2) = numNodesL cs1 + numNodesL cs2 := by
  induction cs1 with
  | nil => simp [numNodesL]
  | cons c cs ih => rw [List.cons_append, numNodesL, numNodesL, ih]; omega

theorem numNodes_pos (n : BPTreeNode) : 1 ≤ numNodes n := by
  cases n <;> rw [numNodes] <;> omega

theorem heightsEq_of_all {cs : List BPTreeNode} {h : Nat}
    (hall : ∀ c ∈ cs, heightOf c = h) : heightsEq cs = true := by
  rw [heightsEq_iff]
  intro c hc
  cases cs with
  | nil => cases hc
  | cons c0 cs' =>
    rw [headHeight_cons, hall c0 (List.mem_cons_self c0 cs'), hall c hc]

theorem all_of_heightsEq {cs : List BPTreeNode} (h : heightsEq cs = true) :
    ∀ c ∈ cs, heightOf c = headHeight cs :=
  heightsEq_iff.mp h

/-! ### `sIns`: the list-level insertion model -/

theorem mem_sIns : ∀ {l : List Nat} {k}, k ∉ l →
    ∀ {x}, x ∈ sIns k l ↔ x = k ∨ x ∈ l
  | [], k, _, x => by simp [sIns]
  | y :: ys, k, hk, x => by
    have hky : ¬k = y := fun he => hk (he ▸ List.mem_cons_self y ys)
    have hkys : k ∉ ys := fun hm => hk (List.mem_cons_of_mem _ hm)
    rw [sIns]
    by_cases h1 : k < y
    · rw [if_pos h1]
      simp only [List.mem_cons]
    · have h2 : y < k := by omega
      rw [if_neg h1, if_pos h2]
      simp only [List.mem_cons, mem_sIns hkys]
      tauto

theorem sIns_sorted : ∀ {l : List Nat}, List.Pairwise (· < ·) l → ∀ {k}, k ∉ l →
    List.Pairwise (· < ·) (sIns k l)
  | [], _, k, _ => by simp [sIns]
  | x :: xs, h, k, hk => by
    rcases List.pairwise_cons.mp h with ⟨hx, hxs⟩
    have hkx : ¬k = x := fun he => hk (he ▸ List.mem_cons_self x xs)
    have hkxs : k ∉ xs := fun hm => hk (List.mem_cons_of_mem _ hm)
    rw [sIns]
    by_cases h1 : k < x
    · rw [if_pos h1, List.pairwise_cons]
      refine ⟨?_, h⟩
      intro b hb
      rcases List.mem_cons.mp hb with rfl | hb
      · omega
      · have := hx b hb; omega
    · have h2 : x < k := by omega
      rw [if_neg h1, if_pos h2, List.pairwise_cons]
      refine ⟨?_, sIns_sorted hxs hkxs⟩
      intro b hb
      rcases (mem_sIns hkxs).mp hb with rfl | hb
      · omega
      · exact hx b hb

theorem length_sIns : ∀ {l : List Nat} {k}, k ∉ l →
    (sIns k l).length = l.length + 1
  | [], k, _ => by simp [sIns]
  | y :: ys, k, hk => by
    have hky : ¬k = y := fun he => hk (he ▸ List.mem_cons_self y ys)
    have hkys : k ∉ ys := fun hm => hk (List.mem_cons_of_mem _ hm)
    rw [sIns]
    by_cases h1 : k < y
    · rw [if_pos h1]; simp
    · have h2 : y < k := by omega
      rw [if_neg h1, if_pos h2]
      simp [length_sIns hkys]

theorem sIns_append_lt {k k0 : Nat} {R : List Nat} : ∀ {E : List Nat}, k ∉ E → k < k0 →
    sIns k (E ++ k0 :: R) = sIns k E ++ k0 :: R
  | [], _, hlt => by simp [sIns, hlt]
  | e :: E, hk, hlt => by
    have hke : ¬k = e := fun he => hk (he ▸ List.mem_cons_self e E)
    have hkE : k ∉ E := fun hm => hk (List.mem_cons_of_mem _ hm)
    rw [List.cons_append, sIns, sIns]
    by_cases h1 : k < e
    · rw [if_pos h1, if_pos h1]
      simp
    · have h2 : e < k := by omega
      rw [if_neg h1, if_pos h2, if_neg h1, if_pos h2,
        sIns_append_lt hkE hlt]
      simp

theorem sIns_append_gt {k : Nat} {R : List Nat} : ∀ {E : List Nat},
    (∀ e ∈ E, e < k) → sIns k (E ++ R) = E ++ sIns k R
  | [], _ => by simp
  | e :: E, hE => by
    have h2 : e < k := hE e (List.mem_cons_self e E)
    have h1 : ¬k < e := by omega
    rw [List.cons_append, sIns, if_neg h1, if_pos h2,
      sIns_append_gt fun x hx => hE x (List.mem_cons_of_mem _ hx)]
    simp

theorem sIns_cons_gt {k k0 : Nat} {R : List Nat} (h : k0 < k) :
    sIns k (k0 :: R) = k0 :: sIns k R := by
  rw [sIns, if_neg (by omega), if_pos h]

theorem sIns_cons_lt {k k0 : Nat} {R : List Nat} (h : k < k0) :
    sIns k (k0 :: R) = k :: k0 :: R := by
  rw [sIns, if_pos h]

/-- At a leaf, inserting at the `locate` position is the list-level sorted
insertion. -/
theorem insertAt_locate_eq_sIns : ∀ {l : List Nat}, List.Pairwise (· < ·) l →
    ∀ {k}, k ∉ l → insertAt (locate k l).1 k l = sIns k l
  | [], _, k, _ => by simp [insertAt, locate, sIns]
  | x :: xs, h, k, hk => by
    rcases List.pairwise_cons.mp h with ⟨hx, hxs⟩
    have hkx : ¬k = x := fun he => hk (he ▸ List.mem_cons_self x xs)
    have hkxs : k ∉ xs := fun hm => hk (List.mem_cons_of_mem _ hm)
    rw [locate, sIns]
    by_cases h1 : k < x
    · rw [if_pos h1, if_pos h1]
      simp [insertAt]
    · have h2 : x < k := by omega
      rw [if_neg h1, if_pos h2, if_neg h1, if_pos h2]
      have ih := insertAt_locate_eq_sIns hxs hkxs
      simp only [insertAt] at ih ⊢
      rw [List.take_succ_cons, List.drop_succ_cons, List.cons_append, ih]

/-- Decomposition of strict sortedness around one separator. -/
theorem sorted_seg {E R : List Nat} {k0 : Nat}
    (h : List.Pairwise (· < ·) (E ++ k0 :: R)) :
    List.Pairwise (· < ·) E ∧ List.Pairwise (· < ·) R ∧
    (∀ e ∈ E, e < k0) ∧ (∀ r ∈ R, k0 < r) ∧
    (∀ e ∈ E, ∀ r ∈ R, e < r) := by
  rcases List.pairwise_append.mp h with ⟨h1, h2, h3⟩
  rcases List.pairwise_cons.mp h2 with ⟨h4, h5⟩
  refine ⟨h1, h5, ?_, h4, ?_⟩
  · intro e he
    exact h3 e he k0 (List.mem_cons_self k0 R)
  · intro e he r hr
    exact h3 e he r (List.mem_cons_of_mem _ hr)

theorem mem_append_cons_of_lt {E R : List Nat} {k0 k : Nat}
    (h : List.Pairwise (· < ·) (E ++ k0 :: R)) (hlt : k < k0) :
    k ∈ E ++ k0 :: R ↔ k ∈ E := by
  rcases sorted_seg h with ⟨_, _, _, hR, _⟩
  simp only [List.mem_append, List.mem_cons]
  constructor
  · rintro (he | rfl | hr)
    · exact he
    · omega
    · have := hR k hr; omega
  · exact fun he => Or.inl he

theorem mem_append_cons_of_gt {E R : List Nat} {k0 k : Nat}
    (h : List.Pairwise (· < ·) (E ++ k0 :: R)) (hgt : k0 < k) :
    k ∈ E ++ k0 :: R ↔ k ∈ R := by
  rcases sorted_seg h with ⟨_, _, hE, _, _⟩
  simp only [List.mem_append, List.mem_cons]
  constructor
  · rintro (he | rfl | hr)
    · have := hE k he; omega
    · omega
    · exact hr
  · exact fun hr => Or.inr (Or.inr hr)

/-! ### The split primitive -/

theorem NumItems_leaf (ks : List Nat) : NumItems (.leaf ks) = ks.length := rfl

theorem NumItems_inner (ks : List Nat) (cs : List BPTreeNode) (t : Nat) :
    NumItems (.inner ks cs t) = ks.length := rfl

theorem WB_leaf_iff {ks : List Nat} :
    WB (.leaf ks) = true ↔
      List.Pairwise (· < ·) ks ∧ minItems ≤ ks.length ∧ ks.length ≤ maxItems := by
  rw [WB, Bool.and_eq_true, WBa_leaf_iff]
  simp [NumItems_leaf]
  tauto

theorem WB_inner_iff {ks : List Nat} {cs : List BPTreeNode} {t : Nat} :
    WB (.inner ks cs t) = true ↔
      List.Pairwise (· < ·) (interleave cs ks) ∧
      minItems ≤ ks.length ∧ ks.length ≤ maxItems ∧
      cs.length = ks.length + 1 ∧
      t = ks.length + sumTC cs ∧
      heightsEq cs = true ∧
      ∀ c ∈ cs, WB c = true := by
  rw [WB, Bool.and_eq_true, WBa_inner_iff]
  simp only [NumItems_inner, decide_eq_true_eq]
  tauto

theorem WBx_leaf_iff {ks : List Nat} :
    WBx (.leaf ks) = true ↔
      List.Pairwise (· < ·) ks ∧ 1 ≤ ks.length ∧ ks.length ≤ maxItems + 1 := by
  rw [WBx]
  simp only [Bool.and_eq_true, decide_eq_true_eq, ascL_iff_pairwise]
  tauto

theorem WBx_inner_iff {ks : List Nat} {cs : List BPTreeNode} {t : Nat} :
    WBx (.inner ks cs t) = true ↔
      List.Pairwise (· < ·) (interleave cs ks) ∧
      1 ≤ ks.length ∧ ks.length ≤ maxItems + 1 ∧
      cs.length = ks.length + 1 ∧
      t = ks.length + sumTC cs ∧
      heightsEq cs = true ∧
      ∀ c ∈ cs, WB c = true := by
  rw [WBx]
  simp only [Bool.and_eq_true, decide_eq_true_eq, beq_iff_eq, WBL_iff,
    ascL_iff_pairwise]
  tauto

theorem WB_of_WBx {n : BPTreeNode} (h : WBx n = true)
    (hcap : NumItems n ≤ maxItems) : WB n = true := by
  cases n with
  | leaf ks =>
    rcases WBx_leaf_iff.mp h with ⟨h1, h2, _⟩
    rw [NumItems_leaf] at hcap
    exact WB_leaf_iff.mpr ⟨h1, by rw [minItems]; omega, hcap⟩
  | inner ks cs t =>
    rcases WBx_inner_iff.mp h with ⟨h1, h2, _, h4, h5, h6, h7⟩
    rw [NumItems_inner] at hcap
    exact WB_inner_iff.mpr ⟨h1, by rw [minItems]; omega, hcap, h4, h5, h6, h7⟩

theorem WBa_of_WB {n : BPTreeNode} (h : WB n = true) : WBa n = true := by
  rw [WB, Bool.and_eq_true] at h
  exact h.1

theorem WBx_of_WB {n : BPTreeNode} (h : WB n = true) : WBx n = true := by
  cases n with
  | leaf ks =>
    rcases WB_leaf_iff.mp h with ⟨h1, h2, h3⟩
    rw [minItems] at h2
    exact WBx_leaf_iff.mpr ⟨h1, h2, by omega⟩
  | inner ks cs t =>
    rcases WB_inner_iff.mp h with ⟨h1, h2, h3, h4, h5, h6, h7⟩
    rw [minItems] at h2
    exact WBx_inner_iff.mpr ⟨h1, h2, by omega, h4, h5, h6, h7⟩

/-- Splitting an overflowing node yields two legal halves that partition
its elements around the promoted median, preserve height and leaf-ness,
add up in cached count, and cost one fresh node. -/
theorem splitNode_spec {n : BPTreeNode} (h : WBx n = true)
    (hfull : NumItems n = maxItems + 1) :
    WB (splitNode n).1 = true ∧ WB (splitNode n).2.2 = true ∧
    elems (splitNode n).1 ++ (splitNode n).2.1 :: elems (splitNode n).2.2 = elems n ∧
    TreeCount (splitNode n).1 + TreeCount (splitNode n).2.2 + 1 = TreeCount n ∧
    heightOf (splitNode n).1 = heightOf n ∧
    heightOf (splitNode n).2.2 = heightOf n ∧
    IsLeaf (splitNode n).1 = IsLeaf n ∧
    IsLeaf (splitNode n).2.2 = IsLeaf n ∧
    numNodes (splitNode n).1 + numNodes (splitNode n).2.2 = numNodes n + 1 := by
  cases n with
  | leaf ks =>
    rw [NumItems_leaf, maxItems] at hfull
    rcases WBx_leaf_iff.mp h with ⟨hs, _, _⟩
    have hm : (2 : Nat) < ks.length := by omega
    have hmv : ks.length / 2 = 2 := by omega
    have heq : splitNode (.leaf ks) =
        (.leaf (ks.take 2), ks.getD 2 0, .leaf (ks.drop 3)) := by
      rw [splitNode]
      simp only [hmv]
    have hdec : ks.take 2 ++ ks.getD 2 0 :: ks.drop 3 = ks := by
      rw [List.getD_eq_getElem _ _ hm, ← List.drop_eq_getElem_cons hm,
        List.take_append_drop]
    have hlt : (ks.take 2).length = 2 := by
      simp only [List.length_take]; omega
    have hld : (ks.drop 3).length = 1 := by
      simp only [List.length_drop]; omega
    rw [heq]
    refine ⟨?_, ?_, ?_, ?_, ?_, ?_, ?_, ?_, ?_⟩
    · refine WB_leaf_iff.mpr ⟨hs.sublist (List.take_sublist _ _), ?_, ?_⟩ <;>
        simp only [hlt, minItems, maxItems] <;> omega
    · refine WB_leaf_iff.mpr ⟨hs.sublist (List.drop_sublist _ _), ?_, ?_⟩ <;>
        simp only [hld, minItems, maxItems] <;> omega
    · exact hdec
    · rw [TreeCount, TreeCount, TreeCount, hlt, hld]; omega
    · rfl
    · rfl
    · rfl
    · rfl
    · rfl
  | inner ks cs t =>
    rw [NumItems_inner, maxItems] at hfull
    rcases WBx_inner_iff.mp h with ⟨hs, _, _, hlen, hcnt, hh, hkids⟩
    have hm : (2 : Nat) < ks.length := by omega
    have hmv : ks.length / 2 = 2 := by omega
    have hlc : cs.length = 5 := by omega
    have heq : splitNode (.inner ks cs t) =
        (.inner (ks.take 2) (cs.take 3) (2 + sumTC (cs.take 3)), ks.getD 2 0,
         .inner (ks.drop 3) (cs.drop 3) (1 + sumTC (cs.drop 3))) := by
      rw [splitNode]
      simp only [hmv]
      norm_num
      omega
    have hksdec : ks = ks.take 2 ++ ks.getD 2 0 :: ks.drop 3 := by
      rw [List.getD_eq_getElem _ _ hm, ← List.drop_eq_getElem_cons hm,
        List.take_append_drop]
    have hcsdec : cs = cs.take 3 ++ cs.drop 3 := (List.take_append_drop 3 cs).symm
    have hlA : (cs.take 3).length = 3 := by simp only [List.length_take]; omega
    have hlB : (cs.drop 3).length = 2 := by simp only [List.length_drop]; omega
    have hlK1 : (ks.take 2).length = 2 := by simp only [List.length_take]; omega
    have hlK2 : (ks.drop 3).length = 1 := by simp only [List.length_drop]; omega
    have hBne : cs.drop 3 ≠ [] := by
      intro hc
      rw [hc] at hlB
      simp at hlB
    have hidec : interleave cs ks =
        interleave (cs.take 3) (ks.take 2) ++
          ks.getD 2 0 :: interleave (cs.drop 3) (ks.drop 3) := by
      conv_lhs => rw [hcsdec, hksdec]
      exact interleave_append (ks.take 2) (cs.take 3) (cs.drop 3) _ _
        (by omega) hBne
    have hsortA : List.Pairwise (· < ·) (interleave (cs.take 3) (ks.take 2)) := by
      rw [hidec] at hs
      exact (List.pairwise_append.mp hs).1
    have hsortB : List.Pairwise (· < ·) (interleave (cs.drop 3) (ks.drop 3)) := by
      rw [hidec] at hs
      exact (List.pairwise_cons.mp (List.pairwise_append.mp hs).2.1).2
    have hallh := all_of_heightsEq hh
    obtain ⟨c0, cs', rfl⟩ : ∃ c0 cs', cs = c0 :: cs' := by
      cases cs with
      | nil => simp at hlc
      | cons a b => exact ⟨a, b, rfl⟩
    have hheadA : headHeight ((c0 :: cs').take 3) = headHeight (c0 :: cs') := by
      rw [show (3 : Nat) = 2 + 1 from rfl, List.take_succ_cons,
        headHeight_cons, headHeight_cons]
    have hheadB : headHeight ((c0 :: cs').drop 3) = headHeight (c0 :: cs') := by
      have h3 : (3 : Nat) < (c0 :: cs').length := by omega
      rw [List.drop_eq_getElem_cons h3, headHeight_cons]
      exact hallh _ (List.getElem_mem h3)
    have hWBA : ∀ c ∈ (c0 :: cs').take 3, WB c = true :=
      fun c hc => hkids c (List.take_subset _ _ hc)
    have hWBB : ∀ c ∈ (c0 :: cs').drop 3, WB c = true :=
      fun c hc => hkids c (List.drop_subset _ _ hc)
    have hhA : heightsEq ((c0 :: cs').take 3) = true := by
      apply heightsEq_of_all (h := headHeight (c0 :: cs'))
      intro c hc
      exact hallh c (List.take_subset _ _ hc)
    have hhB : heightsEq ((c0 :: cs').drop 3) = true := by
      apply heightsEq_of_all (h := headHeight (c0 :: cs'))
      intro c hc
      exact hallh c (List.drop_subset _ _ hc)
    rw [heq]
    refine ⟨?_, ?_, ?_, ?_, ?_, ?_, rfl, rfl, ?_⟩
    · refine WB_inner_iff.mpr ⟨hsortA, ?_, ?_, by omega, by omega, hhA, hWBA⟩ <;>
        simp only [hlK1, minItems, maxItems] <;> omega
    · refine WB_inner_iff.mpr ⟨hsortB, ?_, ?_, by omega, by omega, hhB, hWBB⟩ <;>
        simp only [hlK2, minItems, maxItems] <;> omega
    · rw [elems, elems, elems]
      exact hidec.symm
    · have hsum : sumTC ((c0 :: cs').take 3) + sumTC ((c0 :: cs').drop 3) =
          sumTC (c0 :: cs') := by
        conv_rhs => rw [hcsdec]
        rw [sumTC_append]
      rw [TreeCount, TreeCount, TreeCount]
      omega
    · rw [heightOf, heightOf, hheadA]
    · rw [heightOf, heightOf, hheadB]
    · have hnn : numNodesL ((c0 :: cs').take 3) + numNodesL ((c0 :: cs').drop 3) =
          numNodesL (c0 :: cs') := by
        conv_rhs => rw [hcsdec]
        rw [numNodesL_append]
      rw [numNodes, numNodes, numNodes]
      omega

theorem heightsEq_cons_iff {c : BPTreeNode} {cs : List BPTreeNode} :
    heightsEq (c :: cs) = true ↔ ∀ d ∈ cs, heightOf d = heightOf c := by
  rw [heightsEq_iff, headHeight_cons]
  constructor
  · intro h d hd
    exact h d (List.mem_cons_of_mem _ hd)
  · intro h d hd
    rcases List.mem_cons.mp hd with rfl | hd
    · rfl
    · exact h d hd

theorem WB_NumItems {n : BPTreeNode} (h : WB n = true) :
    minItems ≤ NumItems n ∧ NumItems n ≤ maxItems := by
  cases n with
  | leaf ks =>
    rcases WB_leaf_iff.mp h with ⟨_, h2, h3⟩
    exact ⟨h2, h3⟩
  | inner ks cs t =>
    rcases WB_inner_iff.mp h with ⟨_, h2, h3, _⟩
    exact ⟨h2, h3⟩

theorem elems_ne_nil {n : BPTreeNode} (h : WB n = true) : elems n ≠ [] := by
  intro he
  have h2 := (WB_NumItems h).1
  rw [minItems] at h2
  cases n with
  | leaf ks =>
    rw [elems] at he
    rw [NumItems_leaf] at h2
    rw [he] at h2
    simp at h2
  | inner ks cs t =>
    rcases WB_inner_iff.mp h with ⟨_, _, _, hlen, hcnt, _, _⟩
    rw [elems] at he
    have := length_interleave ks cs hlen
    rw [he] at this
    simp at this
    rw [NumItems_inner] at h2
    omega

mutual
/-- Correctness of the insertion descent at a node: `none` exactly on a
present key; on success the subtree's elements gain `k` in order, the
cached count grows by one, height and leaf-ness are preserved, the
well-formedness (with a possibly overflowing top run) is maintained, and
the allocation count is exact. -/
theorem insGo_spec : ∀ (n : BPTreeNode) (k : Nat), WB n = true →
    (insGo n k = none ↔ k ∈ elems n) ∧
    (∀ n2 a, insGo n k = some (n2, a) →
      elems n2 = sIns k (elems n) ∧ WBx n2 = true ∧
      TreeCount n2 = TreeCount n + 1 ∧ heightOf n2 = heightOf n ∧
      IsLeaf n2 = IsLeaf n ∧ numNodes n2 = numNodes n + a ∧
      NumItems n2 ≤ NumItems n + 1)
  | .leaf ks, k, h => by
    rcases WB_leaf_iff.mp h with ⟨hs, h1, h2⟩
    constructor
    · rw [insGo]
      simp only [locate_found hs k, elems]
      by_cases hm : k ∈ ks <;> simp [hm]
    · intro n2 a hsome
      rw [insGo] at hsome
      simp only [locate_found hs k] at hsome
      by_cases hm : k ∈ ks
      · simp [hm] at hsome
      · simp only [hm, decide_eq_true_eq, if_neg,
          Option.some.injEq, Prod.mk.injEq] at hsome
        rcases hsome with ⟨rfl, rfl⟩
        have hins : insertAt (locate k ks).1 k ks = sIns k ks :=
          insertAt_locate_eq_sIns hs hm
        have hlen : (sIns k ks).length = ks.length + 1 := length_sIns hm
        refine ⟨by rw [elems, elems, hins], ?_, ?_, rfl, rfl, ?_, ?_⟩
        · rw [hins]
          refine WBx_leaf_iff.mpr ⟨sIns_sorted hs hm, ?_, ?_⟩ <;> omega
        · rw [TreeCount, TreeCount, hins, hlen]
        · rw [numNodes, numNodes]
        · rw [NumItems_leaf, NumItems_leaf, hins, hlen]
  | .inner ks cs cnt, k, h => by
    rcases WB_inner_iff.mp h with ⟨hs, h1, h2, hlen, hcnt, hh, hkids⟩
    rw [minItems] at h1
    have hw := insWalk_spec k cs ks hlen hs hkids hh
    constructor
    · rw [insGo]
      rw [elems]
      rcases hq : insWalk k cs ks with _ | ⟨cs2, ks2, a⟩
      · simpa [hq] using hw.1
      · simp only [hq]
        simp only [hq] at hw
        constructor
        · intro hc
          exact Option.noConfusion hc
        · intro hmem
          exact Option.noConfusion (hw.1.mpr hmem)
    · intro n2 a2 hsome
      rw [insGo] at hsome
      rcases hq : insWalk k cs ks with _ | ⟨cs2, ks2, a⟩
      · simp [hq] at hsome
      · simp only [hq, Option.some.injEq, Prod.mk.injEq] at hsome
        rcases hsome with ⟨rfl, rfl⟩
        rcases hw.2 cs2 ks2 a hq with
          ⟨hel, hlen2, hkl, hwb2, hh2, hhead2, hsum2, hnn2⟩
        have hknotin : k ∉ interleave cs ks := by
          intro hm
          have hcon := hw.1.mpr hm
          rw [hq] at hcon
          exact Option.noConfusion hcon
        refine ⟨?_, ?_, ?_, ?_, rfl, ?_, ?_⟩
        · rw [elems, elems, hel]
        · refine WBx_inner_iff.mpr ⟨?_, ?_, ?_, hlen2, ?_, hh2, hwb2⟩
          · rw [hel]
            exact sIns_sorted hs hknotin
          · rcases hkl with h3 | h3 <;> omega
          · rw [maxItems] at h2 ⊢
            rcases hkl with h3 | h3 <;> omega
          · omega
        · rw [TreeCount, TreeCount]
        · rw [heightOf, heightOf, hhead2]
        · rw [numNodes, numNodes, hnn2]
          omega
        · rw [NumItems_inner, NumItems_inner]
          omega
termination_by n k h => sizeOf n

/-- Correctness of the insertion walk over the separator/child runs of a
well-formed internal node. -/
theorem insWalk_spec : ∀ (k : Nat) (cs : List BPTreeNode) (ks : List Nat),
    cs.length = ks.length + 1 →
    List.Pairwise (· < ·) (interleave cs ks) →
    (∀ c ∈ cs, WB c = true) →
    heightsEq cs = true →
    (insWalk k cs ks = none ↔ k ∈ interleave cs ks) ∧
    (∀ cs2 ks2 a, insWalk k cs ks = some (cs2, ks2, a) →
      interleave cs2 ks2 = sIns k (interleave cs ks) ∧
      cs2.length = ks2.length + 1 ∧
      (ks2.length = ks.length ∨ ks2.length = ks.length + 1) ∧
      (∀ c ∈ cs2, WB c = true) ∧
      heightsEq cs2 = true ∧ headHeight cs2 = headHeight cs ∧
      ks2.length + sumTC cs2 = ks.length + sumTC cs + 1 ∧
      numNodesL cs2 = numNodesL cs + a)
  | k, [c], ks, hlen, hs, hkids, hh => by
    have hks : ks = [] := by
      cases ks with
      | nil => rfl
      | cons a b => simp at hlen
    subst hks
    have hwc : WB c = true := hkids c (List.mem_cons_self c [])
    have hone := insGo_spec c k hwc
    rw [interleave_single] at hs ⊢
    constructor
    · rw [insWalk]
      rcases hq : insGo c k with _ | ⟨c2, a0⟩
      · simpa [hq] using hone.1
      · have hknot : ¬k ∈ elems c := by
          intro hm
          have hcon := hone.1.mpr hm
          rw [hq] at hcon
          exact Option.noConfusion hcon
        simp only [hq]
        by_cases hov : maxItems < NumItems c2 <;> simp [hov, hknot]
    · intro cs2 ks2 a hsome
      rw [insWalk] at hsome
      rcases hq : insGo c k with _ | ⟨c2, a0⟩
      · simp [hq] at hsome
      · simp only [hq] at hsome
        rcases hone.2 c2 a0 hq with ⟨hel, hwbx, hct, hht, hlf, hnn, hni⟩
        by_cases hov : maxItems < NumItems c2
        · rw [if_pos hov] at hsome
          simp only [Option.some.injEq, Prod.mk.injEq] at hsome
          rcases hsome with ⟨rfl, rfl, rfl⟩
          have hfull : NumItems c2 = maxItems + 1 := by
            have := (WB_NumItems hwc).2
            omega
          rcases splitNode_spec hwbx hfull with
            ⟨hwl, hwr, hdec, hcs, hhl, hhr, _, _, hn2⟩
          refine ⟨?_, rfl, by simp, ?_, ?_, ?_, ?_, ?_⟩
          · rw [interleave_cons2, interleave_single, hdec, hel]
          · intro d hd
            rcases List.mem_cons.mp hd with rfl | hd
            · exact hwl
            · rcases List.mem_cons.mp hd with rfl | hd
              · exact hwr
              · cases hd
          · apply heightsEq_of_all (h := heightOf c)
            intro d hd
            rcases List.mem_cons.mp hd with rfl | hd
            · rw [hhl, hht]
            · rcases List.mem_cons.mp hd with rfl | hd
              · rw [hhr, hht]
              · cases hd
          · rw [headHeight_cons, headHeight_cons, hhl, hht]
          · simp only [sumTC, List.map_cons, List.map_nil, List.sum_cons,
              List.sum_nil, List.length_cons, List.length_nil]
            omega
          · simp only [numNodesL]
            omega
        · rw [if_neg hov] at hsome
          simp only [Option.some.injEq, Prod.mk.injEq] at hsome
          rcases hsome with ⟨rfl, rfl, rfl⟩
          have hwb2 : WB c2 = true := WB_of_WBx hwbx (by omega)
          refine ⟨?_, rfl, by simp, ?_, ?_, ?_, ?_, ?_⟩
          · rw [interleave_single, hel]
          · intro d hd
            rcases List.mem_cons.mp hd with rfl | hd
            · exact hwb2
            · cases hd
          · apply heightsEq_of_all (h := heightOf c)
            intro d hd
            rcases List.mem_cons.mp hd with rfl | hd
            · exact hht
            · cases hd
          · rw [headHeight_cons, headHeight_cons, hht]
          · simp only [sumTC, List.map_cons, List.map_nil, List.sum_cons,
              List.sum_nil, List.length_cons, List.length_nil]
            omega
          · simp only [numNodesL]
            omega
  | k, c :: c1 :: cs, k0 :: ks, hlen, hs, hkids, hh => by
    have hlen' : (c1 :: cs).length = ks.length + 1 := by simpa using hlen
    have hil : interleave (c :: c1 :: cs) (k0 :: ks) =
        elems c ++ k0 :: interleave (c1 :: cs) ks := interleave_cons2 _ _ _ _ _
    rw [hil] at hs ⊢
    rcases sorted_seg hs with ⟨hsE, hsI, hEk0, hk0I, hEI⟩
    have hwc : WB c = true := hkids c (List.mem_cons_self _ _)
    have hone := insGo_spec c k hwc
    have hhcons := heightsEq_cons_iff.mp hh
    constructor
    · simp only [insWalk]
      by_cases h1 : k < k0
      · rw [if_pos h1]
        rw [mem_append_cons_of_lt hs h1]
        rcases hq : insGo c k with _ | ⟨c2, a0⟩
        · simpa [hq] using hone.1
        · have hknot : ¬k ∈ elems c := by
            intro hm
            have hcon := hone.1.mpr hm
            rw [hq] at hcon
            exact Option.noConfusion hcon
          simp only [hq]
          by_cases hov : maxItems < NumItems c2 <;> simp [hov, hknot]
      · by_cases h2 : k0 < k
        · rw [if_neg h1, if_pos h2]
          rw [mem_append_cons_of_gt hs h2]
          have ihw := insWalk_spec k (c1 :: cs) ks hlen' hsI
            (fun d hd => hkids d (List.mem_cons_of_mem _ hd))
            (by
              apply heightsEq_of_all (h := heightOf c1)
              intro d hd
              rw [hhcons d hd, hhcons c1 (List.mem_cons_self _ _)])
          rcases hq : insWalk k (c1 :: cs) ks with _ | ⟨cs2, ks2, a⟩
          · simpa [hq] using ihw.1
          · simp only [hq]
            constructor
            · intro hcon
              exact Option.noConfusion hcon
            · intro hmem
              have hcon := ihw.1.mpr hmem
              rw [hq] at hcon
              exact Option.noConfusion hcon
        · have hk0 : k = k0 := by omega
          rw [if_neg h1, if_neg h2]
          subst hk0
          simp
    · intro cs2 ks2 a hsome
      simp only [insWalk] at hsome
      by_cases h1 : k < k0
      · rw [if_pos h1] at hsome
        rcases hq : insGo c k with _ | ⟨c2, a0⟩
        · simp [hq] at hsome
        · simp only [hq] at hsome
          rcases hone.2 c2 a0 hq with ⟨hel, hwbx, hct, hht, hlf, hnn, hni⟩
          have hknot : ¬k ∈ elems c := by
            intro hm
            have hcon := hone.1.mpr hm
            rw [hq] at hcon
            exact Option.noConfusion hcon
          by_cases hov : maxItems < NumItems c2
          · rw [if_pos hov] at hsome
            simp only [Option.some.injEq, Prod.mk.injEq] at hsome
            rcases hsome with ⟨rfl, rfl, rfl⟩
            have hfull : NumItems c2 = maxItems + 1 := by
              have := (WB_NumItems hwc).2
              omega
            rcases splitNode_spec hwbx hfull with
              ⟨hwl, hwr, hdec, hcs, hhl, hhr, _, _, hn2⟩
            refine ⟨?_, ?_, by simp, ?_, ?_, ?_, ?_, ?_⟩
            · rw [interleave_cons2, interleave_cons_of_ne _ _ _ _ (List.cons_ne_nil _ _),
                sIns_append_lt hknot h1, ← hel, ← hdec]
              simp
            · simp [hlen']
            · intro d hd
              rcases List.mem_cons.mp hd with rfl | hd
              · exact hwl
              · rcases List.mem_cons.mp hd with rfl | hd
                · exact hwr
                · exact hkids d (List.mem_cons_of_mem _ hd)
            · apply heightsEq_of_all (h := heightOf c)
              intro d hd
              rcases List.mem_cons.mp hd with rfl | hd
              · rw [hhl, hht]
              · rcases List.mem_cons.mp hd with rfl | hd
                · rw [hhr, hht]
                · exact hhcons d hd
            · rw [headHeight_cons, headHeight_cons, hhl, hht]
            · simp only [sumTC, List.map_cons, List.sum_cons, List.length_cons]
              omega
            · simp only [numNodesL]
              omega
          · rw [if_neg hov] at hsome
            simp only [Option.some.injEq, Prod.mk.injEq] at hsome
            rcases hsome with ⟨rfl, rfl, rfl⟩
            have hwb2 : WB c2 = true := WB_of_WBx hwbx (by omega)
            refine ⟨?_, by simpa using hlen, by simp, ?_, ?_, ?_, ?_, ?_⟩
            · rw [interleave_cons_of_ne _ _ _ _ (List.cons_ne_nil _ _),
                sIns_append_lt hknot h1, hel]
            · intro d hd
              rcases List.mem_cons.mp hd with rfl | hd
              · exact hwb2
              · exact hkids d (List.mem_cons_of_mem _ hd)
            · apply heightsEq_of_all (h := heightOf c)
              intro d hd
              rcases List.mem_cons.mp hd with rfl | hd
              · exact hht
              · exact hhcons d hd
            · rw [headHeight_cons, headHeight_cons, hht]
            · simp only [sumTC, List.map_cons, List.sum_cons, List.length_cons]
              omega
            · simp only [numNodesL]
              omega
      · by_cases h2 : k0 < k
        · rw [if_neg h1, if_pos h2] at hsome
          have ihw := insWalk_spec k (c1 :: cs) ks hlen' hsI
            (fun d hd => hkids d (List.mem_cons_of_mem _ hd))
            (by
              apply heightsEq_of_all (h := heightOf c1)
              intro d hd
              rw [hhcons d hd, hhcons c1 (List.mem_cons_self _ _)])
          rcases hq : insWalk k (c1 :: cs) ks with _ | ⟨cs2', ks2', a'⟩
          · simp [hq] at hsome
          · simp only [hq, Option.some.injEq, Prod.mk.injEq] at hsome
            rcases hsome with ⟨rfl, rfl, rfl⟩
            rcases ihw.2 cs2' ks2' a' hq with
              ⟨hel, hlen2, hkl, hwb2, hh2, hhead2, hsum2, hnn2⟩
            have hcs2ne : cs2' ≠ [] := by
              intro hc
              rw [hc] at hlen2
              simp at hlen2
            refine ⟨?_, by simpa using hlen2, ?_, ?_, ?_, ?_, ?_, ?_⟩
            · rw [interleave_cons_of_ne _ _ _ _ hcs2ne, hel]
              have hgt : ∀ e ∈ elems c ++ [k0], e < k := by
                intro e he
                rcases List.mem_append.mp he with he | he
                · have h3 := hEk0 e he
                  omega
                · rcases List.mem_singleton.mp he with rfl
                  exact h2
              have h4 := sIns_append_gt (R := interleave (c1 :: cs) ks) hgt
              rw [List.append_assoc] at h4
              simp only [List.cons_append, List.nil_append] at h4
              rw [h4]
              simp
            · simp only [List.length_cons]
              omega
            · intro d hd
              rcases List.mem_cons.mp hd with rfl | hd
              · exact hwc
              · exact hwb2 d hd
            · apply heightsEq_of_all (h := heightOf c)
              intro d hd
              rcases List.mem_cons.mp hd with rfl | hd
              · rfl
              · have hd2 := all_of_heightsEq hh2 d hd
                rw [hd2, hhead2, headHeight_cons,
                  hhcons c1 (List.mem_cons_self _ _)]
            · rw [headHeight_cons, headHeight_cons]
            · rw [sumTC_cons, sumTC_cons]
              simp only [List.length_cons]
              omega
            · rw [numNodesL, numNodesL]
              omega
        · rw [if_neg h1, if_neg h2] at hsome
          cases hsome
  | k, [], ks, hlen, _, _, _ => by
    simp at hlen
  | k, c :: c1 :: cs, [], hlen, _, _, _ => by
    simp at hlen
termination_by k cs ks h1 h2 h3 h4 => sizeOf cs
end

end BPTreeNode

namespace BPTree

open BPTreeNode

/-- Tree-level insertion contract (spec section 4.2): success exactly on a
fresh key; failure mutates nothing; success adds the key in order and grows
the size by one; well-formedness of the tree and of all cached diagnostics
is preserved. -/
theorem Insert_spec {t : BPTree} (h : WFT t = true) (k : Nat) :
    ((Insert t k).1 = true ↔ k ∉ elemsT t) ∧
    ((Insert t k).1 = false → (Insert t k).2 = t) ∧
    ((Insert t k).1 = true →
      elemsT (Insert t k).2 = sIns k (elemsT t) ∧
      Size (Insert t k).2 = Size t + 1) ∧
    WFT (Insert t k).2 = true := by
  obtain ⟨root, size_, height_, count_, used_⟩ := t
  cases root with
  | none =>
    rw [WFT] at h
    simp only [Bool.and_eq_true, beq_iff_eq] at h
    rcases h with ⟨⟨⟨h1, h2⟩, h3⟩, h4⟩
    subst h1 h2 h3 h4
    refine ⟨?_, ?_, ?_, ?_⟩
    · simp [Insert, elemsT]
    · intro hc
      simp [Insert] at hc
    · intro _
      constructor
      · simp [Insert, elemsT, elems, sIns]
      · simp [Insert, Size]
    · rw [Insert, WFT]
      simp only [Bool.and_eq_true, beq_iff_eq]
      refine ⟨⟨⟨⟨?_, rfl⟩, ?_⟩, ?_⟩, ?_⟩
      · rw [WB_leaf_iff]
        refine ⟨?_, ?_, ?_⟩ <;> simp [minItems, maxItems]
      · rw [heightOf]
      · rw [numNodes]
      · rw [numNodes]
        omega
  | some r =>
    rw [WFT] at h
    simp only [Bool.and_eq_true, beq_iff_eq] at h
    rcases h with ⟨⟨⟨⟨hwb, hsz⟩, hht⟩, hct⟩, hus⟩
    have hspec := insGo_spec r k hwb
    rcases hq : insGo r k with _ | ⟨r2, a⟩
    · have hmem : k ∈ elems r := hspec.1.mp hq
      have hins : Insert ⟨some r, size_, height_, count_, used_⟩ k =
          (false, ⟨some r, size_, height_, count_, used_⟩) := by
        simp only [Insert, hq]
      rw [hins]
      refine ⟨?_, fun _ => rfl, ?_, ?_⟩
      · simp only [elemsT]
        constructor
        · intro hc; cases hc
        · intro hc; exact absurd hmem hc
      · intro hc; cases hc
      · rw [WFT]
        simp only [Bool.and_eq_true, beq_iff_eq]
        exact ⟨⟨⟨⟨hwb, hsz⟩, hht⟩, hct⟩, hus⟩
    · rcases hspec.2 r2 a hq with ⟨hel, hwbx, hcnt, hhgt, _, hnn, _⟩
      have hknot : k ∉ elems r := by
        intro hm
        have hcon := hspec.1.mpr hm
        rw [hq] at hcon
        exact Option.noConfusion hcon
      by_cases hov : maxItems < NumItems r2
      · have hins : Insert ⟨some r, size_, height_, count_, used_⟩ k =
            (true, ⟨some (.inner [(splitNode r2).2.1]
                [(splitNode r2).1, (splitNode r2).2.2]
                (TreeCount (splitNode r2).1 + TreeCount (splitNode r2).2.2 + 1)),
              size_ + 1, height_ + 1, count_ + (a + 2),
              used_ + nodeSize * (a + 2)⟩) := by
          simp only [Insert, hq]
          rw [if_pos hov]
        have hfull : NumItems r2 = maxItems + 1 := by
          have := (WB_NumItems hwb).2
          have h2 := hspec.2 r2 a hq
          omega
        rcases splitNode_spec hwbx hfull with
          ⟨hwl, hwr, hdec, hcs, hhl, hhr, _, _, hn2⟩
        rw [hins]
        refine ⟨?_, ?_, ?_, ?_⟩
        · simpa [elemsT] using hknot
        · intro hc
          simp at hc
        · intro _
          constructor
          · simp only [elemsT, elems]
            rw [interleave_cons2, interleave_single, hdec, hel]
          · simp [Size]
        · rw [WFT]
          simp only [Bool.and_eq_true, beq_iff_eq]
          refine ⟨⟨⟨⟨?_, ?_⟩, ?_⟩, ?_⟩, ?_⟩
          · rw [WB_inner_iff]
            refine ⟨?_, ?_, ?_, rfl, ?_, ?_, ?_⟩
            · rw [interleave_cons2, interleave_single, hdec, hel]
              exact sIns_sorted (WBa_sorted (WBa_of_WB hwb)) hknot
            · simp [minItems]
            · simp [maxItems]
            · simp only [sumTC, List.map_cons, List.map_nil, List.sum_cons,
                List.sum_nil, List.length_cons, List.length_nil]
              omega
            · apply heightsEq_of_all (h := heightOf r2)
              intro d hd
              rcases List.mem_cons.mp hd with rfl | hd
              · exact hhl
              · rcases List.mem_cons.mp hd with rfl | hd
                · exact hhr
                · cases hd
            · intro d hd
              rcases List.mem_cons.mp hd with rfl | hd
              · exact hwl
              · rcases List.mem_cons.mp hd with rfl | hd
                · exact hwr
                · cases hd
          · rw [TreeCount]
            omega
          · rw [heightOf, headHeight_cons, hhl, hhgt]
            omega
          · rw [numNodes, numNodesL, numNodesL, numNodesL]
            omega
          · rw [numNodes, numNodesL, numNodesL, numNodesL]
            simp only [nodeSize] at hus ⊢
            omega
      · have hins : Insert ⟨some r, size_, height_, count_, used_⟩ k =
            (true, ⟨some r2, size_ + 1, height_, count_ + a,
              used_ + nodeSize * a⟩) := by
          simp only [Insert, hq]
          rw [if_neg hov]
        rw [hins]
        refine ⟨?_, ?_, ?_, ?_⟩
        · simpa [elemsT] using hknot
        · intro hc
          simp at hc
        · intro _
          exact ⟨by simpa [elemsT] using hel, by simp [Size]⟩
        · rw [WFT]
          simp only [Bool.and_eq_true, beq_iff_eq]
          refine ⟨⟨⟨⟨WB_of_WBx hwbx (by omega), by omega⟩, by omega⟩, ?_⟩, ?_⟩
          · omega
          · rw [hnn]
            simp only [nodeSize] at hus ⊢
            omega

end BPTree

namespace BPTreeNode

/-! ### Deletion: list helpers, the in-order predecessor, and the
rebalancing primitives -/

theorem getLastD_eq_getLast {α : Type} (d : α) : ∀ {l : List α} (h : l ≠ []),
    l.getLastD d = l.getLast h
  | [], h => absurd rfl h
  | [a], _ => rfl
  | a :: b :: t, _ => by
    rw [List.getLastD_cons, List.getLast_cons (List.cons_ne_nil b t)]
    exact getLastD_eq_getLast d (List.cons_ne_nil b t)

theorem getD_last_eq_getLast {l : List Nat} (h : l ≠ []) :
    l.getD (l.length - 1) 0 = l.getLast h := by
  have hl : 0 < l.length := List.length_pos.mpr h
  have h1 : l.length - 1 < l.length := by omega
  rw [List.getD_eq_getElem _ _ h1, List.getLast_eq_getElem]

theorem nodup_of_sorted {l : List Nat} (h : List.Pairwise (· < ·) l) :
    l.Nodup :=
  h.imp fun hlt => Nat.ne_of_lt hlt

theorem mem_erase_sorted {l : List Nat} (h : List.Pairwise (· < ·) l)
    {k x : Nat} : x ∈ l.erase k ↔ x ≠ k ∧ x ∈ l :=
  (nodup_of_sorted h).mem_erase_iff

theorem erase_append_cons_lt {E R : List Nat} {k0 k : Nat} (hk : k ∈ E) :
    (E ++ k0 :: R).erase k = E.erase k ++ k0 :: R :=
  List.erase_append_left _ hk

theorem erase_append_cons_gt {E R : List Nat} {k0 k : Nat}
    (hs : List.Pairwise (· < ·) (E ++ k0 :: R)) (hgt : k0 < k) :
    (E ++ k0 :: R).erase k = E ++ k0 :: R.erase k := by
  rcases sorted_seg hs with ⟨_, _, hE, _, _⟩
  have hkE : k ∉ E := by
    intro hm
    have := hE k hm
    omega
  rw [List.erase_append_right _ hkE, List.erase_cons_tail]
  simp only [beq_iff_eq]
  omega

theorem erase_append_cons_self {E R : List Nat} {k : Nat}
    (hs : List.Pairwise (· < ·) (E ++ k :: R)) :
    (E ++ k :: R).erase k = E ++ R := by
  rcases sorted_seg hs with ⟨_, _, hE, _, _⟩
  have hkE : k ∉ E := by
    intro hm
    have := hE k hm
    omega
  rw [List.erase_append_right _ hkE, List.erase_cons_head]

/-- Erasing the maximum (last) element of a strictly sorted run. -/
theorem erase_last {E : List Nat} {p : Nat}
    (hs : List.Pairwise (· < ·) (E ++ [p])) :
    (E ++ [p]).erase p = E := by
  rcases List.pairwise_append.mp hs with ⟨_, _, h3⟩
  have hkE : p ∉ E := by
    intro hm
    have := h3 p hm p (List.mem_singleton_self p)
    omega
  rw [List.erase_append_right _ hkE, List.erase_cons_head, List.append_nil]

mutual
/-- The in-order predecessor descent really returns the last (largest)
element of a well-formed subtree. -/
theorem subtreeMax_spec : ∀ (n : BPTreeNode), WB n = true →
    ∃ E, elems n = E ++ [subtreeMax n]
  | .leaf ks, h => by
    rcases WB_leaf_iff.mp h with ⟨_, h1, _⟩
    rw [minItems] at h1
    have hne : ks ≠ [] := by
      intro hc; rw [hc] at h1; simp at h1
    refine ⟨ks.dropLast, ?_⟩
    rw [elems, subtreeMax, getD_last_eq_getLast hne,
      List.dropLast_append_getLast hne]
  | .inner ks cs t, h => by
    rcases WB_inner_iff.mp h with ⟨_, _, _, hlen, _, _, hkids⟩
    rw [elems, subtreeMax]
    exact lastMax_spec cs ks (by omega) hkids
termination_by n h => sizeOf n

/-- List version of `subtreeMax_spec` over a separator/child run. -/
theorem lastMax_spec : ∀ (cs : List BPTreeNode) (ks : List Nat),
    1 ≤ cs.length → (∀ c ∈ cs, WB c = true) →
    ∃ E, interleave cs ks = E ++ [lastMax cs]
  | [c], ks, _, hkids => by
    rw [interleave_single, lastMax]
    exact subtreeMax_spec c (hkids c (List.mem_cons_self _ _))
  | c :: c1 :: cs, ks, _, hkids => by
    have htail := lastMax_spec (c1 :: cs) (ks.tail) (by simp)
      fun d hd => hkids d (List.mem_cons_of_mem _ hd)
    rcases htail with ⟨E, hE⟩
    cases ks with
    | nil =>
      simp only [lastMax, interleave]
      refine ⟨elems c ++ E, ?_⟩
      simp only [List.tail] at hE
      rw [hE, List.append_assoc]
    | cons k0 ks' =>
      simp only [lastMax]
      rw [interleave_cons2]
      refine ⟨elems c ++ k0 :: E, ?_⟩
      simp only [List.tail] at hE
      rw [hE]
      simp
termination_by cs ks h1 h2 => sizeOf cs
end

/-- Right-edge decomposition of an internal node's elements: the separator
run ends with `ks.getLast`, the child run with its last child. -/
theorem interleave_dropLast {cs : List BPTreeNode} {ks : List Nat}
    (hlen : cs.length = ks.length + 1) (hne : ks ≠ []) :
    interleave cs ks =
      interleave cs.dropLast ks.dropLast ++
        ks.getD (ks.length - 1) 0 :: elems (cs.getLastD (.leaf [])) := by
  have hcs : cs ≠ [] := by
    intro hc; rw [hc] at hlen; simp at hlen
  have h1 : cs.dropLast ++ [cs.getLast hcs] = cs := List.dropLast_append_getLast hcs
  have h2 : ks.dropLast ++ [ks.getLast hne] = ks := List.dropLast_append_getLast hne
  have hlc : cs.dropLast.length = ks.dropLast.length + 1 := by
    rw [List.length_dropLast, List.length_dropLast]
    have := List.length_pos.mpr hne
    omega
  conv_lhs => rw [← h1, ← h2]
  rw [interleave_append ks.dropLast cs.dropLast [cs.getLast hcs] _ [] hlc
    (List.cons_ne_nil _ _), interleave_single]
  rw [getD_last_eq_getLast hne, getLastD_eq_getLast _ hcs]

theorem headHeight_append_left {cs1 cs2 : List BPTreeNode} (h : cs1 ≠ []) :
    headHeight (cs1 ++ cs2) = headHeight cs1 := by
  cases cs1 with
  | nil => exact absurd rfl h
  | cons c cs => rfl

/-- Merging two adjacent siblings through their separator: the combined
node is well-formed (given the capacity room), keeps the elements, adds the
counts, preserves the height, and releases one node. -/
theorem mergeNodes_spec {c s : BPTreeNode} {k0 : Nat}
    (hc : WBa c = true) (hs : WBa s = true)
    (hh : heightOf c = heightOf s)
    (hcap : NumItems c + NumItems s + 1 ≤ maxItems)
    (hsort : List.Pairwise (· < ·) (elems c ++ k0 :: elems s)) :
    WB (mergeNodes c k0 s) = true ∧
    elems (mergeNodes c k0 s) = elems c ++ k0 :: elems s ∧
    TreeCount (mergeNodes c k0 s) = TreeCount c + TreeCount s + 1 ∧
    heightOf (mergeNodes c k0 s) = heightOf c ∧
    numNodes (mergeNodes c k0 s) + 1 = numNodes c + numNodes s := by
  cases c with
  | leaf ks1 =>
    cases s with
    | leaf ks2 =>
      rw [NumItems_leaf, NumItems_leaf] at hcap
      rw [mergeNodes]
      refine ⟨?_, rfl, ?_, rfl, rfl⟩
      · refine WB_leaf_iff.mpr ⟨?_, ?_, ?_⟩
        · simpa [elems] using hsort
        · rw [minItems]
          simp
          omega
        · simp
          omega
      · rw [TreeCount, TreeCount, TreeCount]
        simp
        omega
    | inner ks2 cs2 t2 =>
      exfalso
      have h2 := heightOf_inner_ge_two hs
      simp only [heightOf] at hh h2
      omega
  | inner ks1 cs1 t1 =>
    cases s with
    | leaf ks2 =>
      exfalso
      have h2 := heightOf_inner_ge_two hc
      simp only [heightOf] at hh h2
      omega
    | inner ks2 cs2 t2 =>
      rcases WBa_inner_iff.mp hc with ⟨hso1, hcap1, hlen1, hcnt1, hh1, hkids1⟩
      rcases WBa_inner_iff.mp hs with ⟨hso2, hcap2, hlen2, hcnt2, hh2, hkids2⟩
      have hcs2ne : cs2 ≠ [] := by
        intro hc2
        rw [hc2] at hlen2
        simp at hlen2
      have hcs1ne : cs1 ≠ [] := by
        intro hc1
        rw [hc1] at hlen1
        simp at hlen1
      have hidec : interleave (cs1 ++ cs2) (ks1 ++ k0 :: ks2) =
          interleave cs1 ks1 ++ k0 :: interleave cs2 ks2 :=
        interleave_append ks1 cs1 cs2 k0 ks2 hlen1 hcs2ne
      rw [heightOf, heightOf] at hh
      rw [NumItems_inner, NumItems_inner] at hcap
      rw [mergeNodes]
      refine ⟨?_, ?_, ?_, ?_, ?_⟩
      · refine WB_inner_iff.mpr ⟨?_, ?_, ?_, ?_, ?_, ?_, ?_⟩
        · rw [hidec]
          simpa [elems] using hsort
        · rw [minItems]
          simp only [List.length_append, List.length_cons]
          omega
        · simp only [List.length_append, List.length_cons]
          omega
        · simp only [List.length_append, List.length_cons]
          omega
        · rw [sumTC_append]
          simp only [List.length_append, List.length_cons]
          omega
        · apply heightsEq_of_all (h := headHeight cs1)
          intro d hd
          rcases List.mem_append.mp hd with hd | hd
          · exact all_of_heightsEq hh1 d hd
          · rw [all_of_heightsEq hh2 d hd]
            omega
        · intro d hd
          rcases List.mem_append.mp hd with hd | hd
          · exact hkids1 d hd
          · exact hkids2 d hd
      · rw [elems, hidec, elems, elems]
      · rw [TreeCount, TreeCount, TreeCount]
      · rw [heightOf, heightOf, headHeight_append_left hcs1ne]
      · rw [numNodes, numNodes, numNodes, numNodesL_append]
        omega

/-- Borrowing the right sibling's first key (and child) across the
separator repairs the underflowing left node: both results are
well-formed, the element sequence is unchanged, counts and node totals are
redistributed, heights are preserved. -/
theorem borrowR_spec {c s : BPTreeNode} {k0 : Nat}
    (hc : WBa c = true) (hcund : NumItems c < minItems)
    (hs : WB s = true) (hspare : minItems < NumItems s)
    (hh : heightOf c = heightOf s)
    (hsort : List.Pairwise (· < ·) (elems c ++ k0 :: elems s)) :
    WB (borrowR c k0 s).1 = true ∧ WB (borrowR c k0 s).2.2 = true ∧
    elems (borrowR c k0 s).1 ++ (borrowR c k0 s).2.1 :: elems (borrowR c k0 s).2.2 =
      elems c ++ k0 :: elems s ∧
    TreeCount (borrowR c k0 s).1 + TreeCount (borrowR c k0 s).2.2 =
      TreeCount c + TreeCount s ∧
    heightOf (borrowR c k0 s).1 = heightOf c ∧
    heightOf (borrowR c k0 s).2.2 = heightOf c ∧
    numNodes (borrowR c k0 s).1 + numNodes (borrowR c k0 s).2.2 =
      numNodes c + numNodes s := by
  cases c with
  | leaf ks1 =>
    cases s with
    | inner ks2 cs2 t2 =>
      exfalso
      have h2 := heightOf_inner_ge_two (WBa_of_WB hs)
      simp only [heightOf] at hh h2
      omega
    | leaf ks2 =>
      rcases WBa_leaf_iff.mp hc with ⟨hso1, hcap1⟩
      rcases WB_leaf_iff.mp hs with ⟨hso2, hmin2, hcap2⟩
      rw [NumItems_leaf] at hcund hspare
      rw [minItems] at hcund hspare
      obtain ⟨k2, tl, rfl⟩ : ∃ k2 tl, ks2 = k2 :: tl := by
        cases ks2 with
        | nil => simp at hspare
        | cons a b => exact ⟨a, b, rfl⟩
      rw [borrowR]
      simp only [elems, List.headD, List.tail] at hsort ⊢
      refine ⟨?_, ?_, ?_, ?_, rfl, rfl, rfl⟩
      · refine WB_leaf_iff.mpr ⟨?_, ?_, ?_⟩
        · refine hsort.sublist ?_
          refine List.Sublist.append_left ?_ ks1
          exact List.cons_sublist_cons.mpr (List.nil_sublist _)
        · rw [minItems]
          simp
        · rw [maxItems] at hcap1 ⊢
          simp
          omega
      · refine WB_leaf_iff.mpr ⟨?_, ?_, ?_⟩
        · rcases sorted_seg hsort with ⟨_, hso2', _⟩
          exact (List.pairwise_cons.mp hso2').2
        · rw [minItems]
          simp at hspare
          omega
        · simp at hcap2
          omega
      · simp
      · simp only [TreeCount]
        simp
        omega
  | inner ks1 cs1 t1 =>
    cases s with
    | leaf ks2 =>
      exfalso
      have h2 := heightOf_inner_ge_two hc
      simp only [heightOf] at hh h2
      omega
    | inner ks2 cs2 t2 =>
      rcases WBa_inner_iff.mp hc with ⟨hso1, hcap1, hlen1, hcnt1, hh1, hkids1⟩
      rcases WB_inner_iff.mp hs with ⟨hso2, hmin2, hcap2, hlen2, hcnt2, hh2, hkids2⟩
      rw [NumItems_inner] at hcund hspare
      rw [minItems] at hcund hspare
      obtain ⟨k2, ks2', rfl⟩ : ∃ k2 ks2', ks2 = k2 :: ks2' := by
        cases ks2 with
        | nil => simp at hspare
        | cons a b => exact ⟨a, b, rfl⟩
      obtain ⟨m, cs2', rfl⟩ : ∃ m cs2', cs2 = m :: cs2' := by
        cases cs2 with
        | nil => simp at hlen2
        | cons a b => exact ⟨a, b, rfl⟩
      have hlen2' : cs2'.length = ks2'.length + 1 := by simpa using hlen2
      have hcs2'ne : cs2' ≠ [] := by
        intro hc2
        rw [hc2] at hlen2'
        simp at hlen2'
      have hcs1ne : cs1 ≠ [] := by
        intro hc1
        rw [hc1] at hlen1
        simp at hlen1
      have hmWB : WB m = true := hkids2 m (List.mem_cons_self _ _)
      have hsdec : interleave (m :: cs2') (k2 :: ks2') =
          elems m ++ k2 :: interleave cs2' ks2' :=
        interleave_cons_of_ne _ _ _ _ hcs2'ne
      have hldec : interleave (cs1 ++ [m]) (ks1 ++ [k0]) =
          interleave cs1 ks1 ++ k0 :: elems m := by
        rw [interleave_append ks1 cs1 [m] k0 [] hlen1 (List.cons_ne_nil _ _),
          interleave_single]
      have hwhole : elems (.inner ks1 cs1 t1) ++ k0 :: elems (.inner (k2 :: ks2') (m :: cs2') t2) =
          (interleave cs1 ks1 ++ k0 :: elems m) ++ k2 :: interleave cs2' ks2' := by
        rw [elems, elems, hsdec]
        simp
      have hbr : borrowR (BPTreeNode.inner ks1 cs1 t1) k0
          (BPTreeNode.inner (k2 :: ks2') (m :: cs2') t2) =
          (BPTreeNode.inner (ks1 ++ [k0]) (cs1 ++ [m]) (t1 + 1 + TreeCount m), k2,
           BPTreeNode.inner ks2' cs2' (t2 - 1 - TreeCount m)) := rfl
      rw [hbr]
      rw [hwhole] at hsort
      rcases List.pairwise_append.mp hsort with ⟨hsoL, hsoR, _⟩
      rcases List.pairwise_cons.mp hsoR with ⟨_, hsoR'⟩
      have hhm : heightOf m = headHeight cs1 := by
        simp only [heightOf, headHeight_cons] at hh
        omega
      have hcnt2' : t2 = ks2'.length + 1 + (TreeCount m + sumTC cs2') := by
        simp only [List.length_cons, sumTC_cons] at hcnt2
        omega
      refine ⟨?_, ?_, ?_, ?_, ?_, ?_, ?_⟩
      · refine WB_inner_iff.mpr ⟨?_, ?_, ?_, ?_, ?_, ?_, ?_⟩
        · rw [hldec]
          exact hsoL
        · rw [minItems]
          simp
        · rw [maxItems] at hcap1 ⊢
          simp
          omega
        · simp
          omega
        · simp only [sumTC, List.map_append, List.map_cons, List.map_nil,
            List.sum_append, List.sum_cons, List.sum_nil, List.length_append,
            List.length_cons, List.length_nil]
          simp only [sumTC] at hcnt1
          omega
        · apply heightsEq_of_all (h := headHeight cs1)
          intro d hd
          rcases List.mem_append.mp hd with hd | hd
          · exact all_of_heightsEq hh1 d hd
          · rcases List.mem_singleton.mp hd with rfl
            exact hhm
        · intro d hd
          rcases List.mem_append.mp hd with hd | hd
          · exact hkids1 d hd
          · rcases List.mem_singleton.mp hd with rfl
            exact hmWB
      · refine WB_inner_iff.mpr ⟨hsoR', ?_, ?_, hlen2', ?_, ?_, ?_⟩
        · rw [minItems]
          simp only [List.length_cons] at hspare
          omega
        · simp only [List.length_cons] at hcap2
          omega
        · cases m <;> simp only [TreeCount] at hcnt2' ⊢ <;> omega
        · apply heightsEq_of_all (h := heightOf m)
          intro d hd
          have hd2 := all_of_heightsEq hh2 d (List.mem_cons_of_mem _ hd)
          rwa [headHeight_cons] at hd2
        · intro d hd
          exact hkids2 d (List.mem_cons_of_mem _ hd)
      · simp only [elems]
        rw [hldec, hsdec]
        simp
      · cases m <;> simp only [TreeCount] at hcnt2' ⊢ <;> omega
      · simp only [heightOf]
        rw [headHeight_append_left hcs1ne]
      · obtain ⟨m2, rest, rfl⟩ : ∃ m2 rest, cs2' = m2 :: rest := by
          cases cs2' with
          | nil => exact absurd rfl hcs2'ne
          | cons a b => exact ⟨a, b, rfl⟩
        simp only [heightOf, headHeight_cons]
        have hd2 := all_of_heightsEq hh2 m2
          (List.mem_cons_of_mem _ (List.mem_cons_self _ _))
        rw [headHeight_cons] at hd2
        rw [hd2, hhm]
      · simp only [numNodes, numNodesL_append, numNodesL]
        omega

theorem headHeight_dropLast : ∀ {cs : List BPTreeNode}, 2 ≤ cs.length →
    headHeight cs.dropLast = headHeight cs
  | a :: b :: t, _ => rfl

/-- Borrowing the left sibling's last key (and child) across the separator
repairs the underflowing right node. -/
theorem borrowL_spec {c h0 : BPTreeNode} {k0 : Nat}
    (hc : WB c = true) (hspare : minItems < NumItems c)
    (hu : WBa h0 = true) (hund : NumItems h0 < minItems)
    (hh : heightOf c = heightOf h0)
    (hsort : List.Pairwise (· < ·) (elems c ++ k0 :: elems h0)) :
    WB (borrowL c k0 h0).1 = true ∧ WB (borrowL c k0 h0).2.2 = true ∧
    elems (borrowL c k0 h0).1 ++ (borrowL c k0 h0).2.1 :: elems (borrowL c k0 h0).2.2 =
      elems c ++ k0 :: elems h0 ∧
    TreeCount (borrowL c k0 h0).1 + TreeCount (borrowL c k0 h0).2.2 =
      TreeCount c + TreeCount h0 ∧
    heightOf (borrowL c k0 h0).1 = heightOf c ∧
    heightOf (borrowL c k0 h0).2.2 = heightOf c ∧
    numNodes (borrowL c k0 h0).1 + numNodes (borrowL c k0 h0).2.2 =
      numNodes c + numNodes h0 := by
  cases c with
  | leaf ks1 =>
    cases h0 with
    | inner ks2 cs2 t2 =>
      exfalso
      have h2 := heightOf_inner_ge_two hu
      simp only [heightOf] at hh h2
      omega
    | leaf ks2 =>
      rcases WB_leaf_iff.mp hc with ⟨hso1, hmin1, hcap1⟩
      rcases WBa_leaf_iff.mp hu with ⟨hso2, hcap2⟩
      rw [NumItems_leaf] at hund hspare
      rw [minItems] at hund hspare
      have hne1 : ks1 ≠ [] := by
        intro hc1
        rw [hc1] at hspare
        simp at hspare
      have hddec : ks1.dropLast ++ [ks1.getD (ks1.length - 1) 0] = ks1 := by
        rw [getD_last_eq_getLast hne1, List.dropLast_append_getLast hne1]
      rw [borrowL]
      simp only [elems] at hsort ⊢
      refine ⟨?_, ?_, ?_, ?_, rfl, rfl, rfl⟩
      · refine WB_leaf_iff.mpr ⟨?_, ?_, ?_⟩
        · exact hso1.sublist (List.dropLast_sublist ks1)
        · rw [minItems]
          rw [List.length_dropLast]
          omega
        · rw [List.length_dropLast]
          have := List.length_pos.mpr hne1
          rw [maxItems] at hcap1 ⊢
          omega
      · refine WB_leaf_iff.mpr ⟨?_, ?_, ?_⟩
        · exact (List.pairwise_append.mp hsort).2.1
        · rw [minItems]
          simp
        · rw [maxItems] at hcap2 ⊢
          simp
          omega
      · conv_rhs => rw [← hddec]
        simp
      · simp only [TreeCount]
        rw [List.length_dropLast]
        simp
        omega
  | inner ks1 cs1 t1 =>
    cases h0 with
    | leaf ks2 =>
      exfalso
      have h2 := heightOf_inner_ge_two (WBa_of_WB hc)
      simp only [heightOf] at hh h2
      omega
    | inner ks2 cs2 t2 =>
      rcases WB_inner_iff.mp hc with ⟨hso1, hmin1, hcap1, hlen1, hcnt1, hh1, hkids1⟩
      rcases WBa_inner_iff.mp hu with ⟨hso2, hcap2, hlen2, hcnt2, hh2, hkids2⟩
      rw [NumItems_inner] at hund hspare
      rw [minItems] at hund hspare
      have hne1 : ks1 ≠ [] := by
        intro hc1
        rw [hc1] at hspare
        simp at hspare
      have hcs1ne : cs1 ≠ [] := by
        intro hc1
        rw [hc1] at hlen1
        simp at hlen1
      have hcs2ne : cs2 ≠ [] := by
        intro hc2
        rw [hc2] at hlen2
        simp at hlen2
      have hcs1dec : cs1.dropLast ++ [cs1.getLastD (.leaf [])] = cs1 := by
        rw [getLastD_eq_getLast _ hcs1ne, List.dropLast_append_getLast hcs1ne]
      have hcdec : interleave cs1 ks1 =
          interleave cs1.dropLast ks1.dropLast ++
            ks1.getD (ks1.length - 1) 0 :: elems (cs1.getLastD (.leaf [])) :=
        interleave_dropLast hlen1 hne1
      have hbl : borrowL (BPTreeNode.inner ks1 cs1 t1) k0
          (BPTreeNode.inner ks2 cs2 t2) =
          (BPTreeNode.inner ks1.dropLast cs1.dropLast
             (t1 - 1 - TreeCount (cs1.getLastD (.leaf []))),
           ks1.getD (ks1.length - 1) 0,
           BPTreeNode.inner (k0 :: ks2) (cs1.getLastD (.leaf []) :: cs2)
             (t2 + 1 + TreeCount (cs1.getLastD (.leaf [])))) := rfl
      set m := cs1.getLastD (.leaf []) with hm
      have hmWB : WB m = true := by
        apply hkids1
        rw [← hcs1dec]
        simp
      have hmh : heightOf m = headHeight cs1 := by
        apply all_of_heightsEq hh1
        rw [← hcs1dec]
        simp
      have hsum1 : sumTC cs1 = sumTC cs1.dropLast + TreeCount m := by
        conv_lhs => rw [← hcs1dec]
        rw [sumTC_append, sumTC_cons]
        simp [sumTC]
      have hnn1 : numNodesL cs1 = numNodesL cs1.dropLast + numNodes m := by
        conv_lhs => rw [← hcs1dec]
        rw [numNodesL_append, numNodesL, numNodesL]
        omega
      have hrdec : interleave (m :: cs2) (k0 :: ks2) =
          elems m ++ k0 :: interleave cs2 ks2 :=
        interleave_cons_of_ne _ _ _ _ hcs2ne
      have hwhole : elems (BPTreeNode.inner ks1 cs1 t1) ++
          k0 :: elems (BPTreeNode.inner ks2 cs2 t2) =
          interleave cs1.dropLast ks1.dropLast ++
            ks1.getD (ks1.length - 1) 0 ::
              (elems m ++ k0 :: interleave cs2 ks2) := by
        rw [elems, elems, hcdec]
        simp
      rw [hbl]
      rw [hwhole] at hsort
      rcases List.pairwise_append.mp hsort with ⟨hsoL, hsoR, _⟩
      rcases List.pairwise_cons.mp hsoR with ⟨_, hsoR'⟩
      have hlen1' : (2 : Nat) ≤ cs1.length := by omega
      refine ⟨?_, ?_, ?_, ?_, ?_, ?_, ?_⟩
      · refine WB_inner_iff.mpr ⟨hsoL, ?_, ?_, ?_, ?_, ?_, ?_⟩
        · rw [minItems]
          rw [List.length_dropLast]
          omega
        · rw [List.length_dropLast]
          have := List.length_pos.mpr hne1
          omega
        · rw [List.length_dropLast, List.length_dropLast]
          have := List.length_pos.mpr hne1
          omega
        · rw [List.length_dropLast]
          omega
        · apply heightsEq_of_all (h := headHeight cs1)
          intro d hd
          exact all_of_heightsEq hh1 d ((List.dropLast_sublist cs1).subset hd)
        · intro d hd
          exact hkids1 d ((List.dropLast_sublist cs1).subset hd)
      · refine WB_inner_iff.mpr ⟨?_, ?_, ?_, ?_, ?_, ?_, ?_⟩
        · rw [hrdec]
          exact hsoR'
        · rw [minItems]
          simp
        · rw [maxItems] at hcap2 ⊢
          simp
          omega
        · simp
          omega
        · simp only [List.length_cons, sumTC_cons]
          omega
        · apply heightsEq_of_all (h := heightOf m)
          intro d hd
          rcases List.mem_cons.mp hd with rfl | hd
          · rfl
          · rw [all_of_heightsEq hh2 d hd]
            simp only [heightOf] at hh
            omega
        · intro d hd
          rcases List.mem_cons.mp hd with rfl | hd
          · exact hmWB
          · exact hkids2 d hd
      · simp only [elems]
        rw [hrdec, hcdec]
        simp
      · simp only [TreeCount] at hsum1 ⊢
        omega
      · simp only [heightOf]
        rw [headHeight_dropLast hlen1']
      · simp only [heightOf, headHeight_cons]
        omega
      · simp only [numNodes, numNodesL]
        omega

/-- The part of a separator/child run following its first child depends
only on the tail runs: swapping the first child rewrites the interleave
head-locally. -/
theorem interleave_head {rest : List BPTreeNode} {ks : List Nat}
    (h : rest.length = ks.length) :
    ∃ T, ∀ x, interleave (x :: rest) ks = elems x ++ T := by
  cases rest with
  | nil =>
    refine ⟨[], ?_⟩
    intro x
    rw [interleave_single, List.append_nil]
  | cons r1 rest' =>
    cases ks with
    | nil => simp at h
    | cons k1 ks' =>
      refine ⟨k1 :: interleave (r1 :: rest') ks', ?_⟩
      intro x
      exact interleave_cons_of_ne _ _ _ _ (List.cons_ne_nil _ _)

/-- Repairing an underflowing first child against its right sibling: the
run keeps its elements, all its nodes become well-formed, totals balance,
heights are untouched, and a merge frees exactly one node. -/
theorem fixHead_spec {c s : BPTreeNode} {rest cs2 : List BPTreeNode}
    {k0 : Nat} {ks ks2 : List Nat} {f2 : Nat}
    (hc : WBa c = true) (hcund : NumItems c < minItems)
    (hs : WB s = true) (hrest : ∀ d ∈ rest, WB d = true)
    (hhall : ∀ d ∈ s :: rest, heightOf d = heightOf c)
    (hsort : List.Pairwise (· < ·) (interleave (c :: s :: rest) (k0 :: ks)))
    (hlen : rest.length = ks.length)
    (heq : fixHead (c :: s :: rest) (k0 :: ks) = (cs2, ks2, f2)) :
    interleave cs2 ks2 = interleave (c :: s :: rest) (k0 :: ks) ∧
    (∀ d ∈ cs2, WB d = true) ∧
    cs2.length = ks2.length + 1 ∧
    (ks2.length = ks.length + 1 ∨ ks2.length = ks.length) ∧
    ks2.length + sumTC cs2 = (ks.length + 1) + sumTC (c :: s :: rest) ∧
    (∀ d ∈ cs2, heightOf d = heightOf c) ∧
    cs2 ≠ [] ∧
    numNodesL cs2 + f2 = numNodesL (c :: s :: rest) := by
  obtain ⟨T, hT⟩ := @interleave_head (s :: rest) (k0 :: ks) (by simpa using hlen)
  obtain ⟨T2, hT2⟩ := @interleave_head rest ks hlen
  have hwhole : interleave (c :: s :: rest) (k0 :: ks) =
      elems c ++ k0 :: (elems s ++ T2) := by
    rw [interleave_cons_of_ne _ _ _ _ (List.cons_ne_nil _ _), hT2 s]
  have hsort2 : List.Pairwise (· < ·) ((elems c ++ k0 :: elems s) ++ T2) := by
    rw [hwhole] at hsort
    simpa using hsort
  have hsortCS : List.Pairwise (· < ·) (elems c ++ k0 :: elems s) :=
    (List.pairwise_append.mp hsort2).1
  have hhs : heightOf c = heightOf s :=
    (hhall s (List.mem_cons_self _ _)).symm
  rw [fixHead, if_neg (by omega)] at heq
  by_cases hspare : minItems < NumItems s
  · rw [if_pos hspare] at heq
    rcases borrowR_spec hc hcund hs hspare hhs hsortCS with
      ⟨hw1, hw2, hel, hct, hh1, hh2, hnn⟩
    simp only [Prod.mk.injEq] at heq
    rcases heq with ⟨h1, h2, h3⟩
    subst h1 h2 h3
    refine ⟨?_, ?_, ?_, ?_, ?_, ?_, ?_, ?_⟩
    · rw [interleave_cons_of_ne _ _ _ _ (List.cons_ne_nil _ _), hT2 _, hwhole]
      have hx : elems (borrowR c k0 s).1 ++ (borrowR c k0 s).2.1 ::
          (elems (borrowR c k0 s).2.2 ++ T2) =
          (elems (borrowR c k0 s).1 ++ (borrowR c k0 s).2.1 ::
            elems (borrowR c k0 s).2.2) ++ T2 := by
        simp
      rw [hx, hel]
      simp
    · intro d hd
      rcases List.mem_cons.mp hd with rfl | hd
      · exact hw1
      · rcases List.mem_cons.mp hd with rfl | hd
        · exact hw2
        · exact hrest d hd
    · simp
      omega
    · simp
    · simp only [List.length_cons, sumTC_cons]
      omega
    · intro d hd
      rcases List.mem_cons.mp hd with rfl | hd
      · exact hh1
      · rcases List.mem_cons.mp hd with rfl | hd
        · exact hh2
        · exact hhall d (List.mem_cons_of_mem _ hd)
    · exact List.cons_ne_nil _ _
    · simp only [numNodesL]
      omega
  · rw [if_neg hspare] at heq
    have hcap : NumItems c + NumItems s + 1 ≤ maxItems := by
      have h1 := (WB_NumItems hs).2
      rw [minItems] at hcund hspare
      rw [maxItems] at h1 ⊢
      omega
    rcases mergeNodes_spec hc (WBa_of_WB hs) hhs hcap hsortCS with
      ⟨hw1, hel, hct, hh1, hnn⟩
    simp only [Prod.mk.injEq] at heq
    rcases heq with ⟨h1, h2, h3⟩
    subst h1 h2 h3
    refine ⟨?_, ?_, ?_, ?_, ?_, ?_, ?_, ?_⟩
    · rw [hT2 _, hwhole, hel]
      simp
    · intro d hd
      rcases List.mem_cons.mp hd with rfl | hd
      · exact hw1
      · exact hrest d hd
    · simp
      omega
    · simp
    · simp only [List.length_cons, sumTC_cons]
      omega
    · intro d hd
      rcases List.mem_cons.mp hd with rfl | hd
      · exact hh1
      · exact hhall d (List.mem_cons_of_mem _ hd)
    · exact List.cons_ne_nil _ _
    · simp only [numNodesL]
      omega

/-- Repairing a possibly-underflowing node against its left sibling `c`
across separator `k0` (the mid-run rebalance step of the deletion
walk). -/
theorem fixMid_spec {c h1 : BPTreeNode} {rest csF : List BPTreeNode}
    {k0 : Nat} {ks ksF : List Nat} {f2 : Nat}
    (hc : WB c = true) (hu : WBa h1 = true)
    (hrest : ∀ d ∈ rest, WB d = true)
    (hhall : ∀ d ∈ h1 :: rest, heightOf d = heightOf c)
    (hsort : List.Pairwise (· < ·) (elems c ++ k0 :: interleave (h1 :: rest) ks))
    (hlen : rest.length = ks.length)
    (heq : fixMid c k0 (h1 :: rest) ks = (csF, ksF, f2)) :
    interleave csF ksF = elems c ++ k0 :: interleave (h1 :: rest) ks ∧
    (∀ d ∈ csF, WB d = true) ∧
    csF.length = ksF.length + 1 ∧
    (ksF.length = ks.length + 1 ∨
      (ksF.length = ks.length ∧ NumItems h1 < minItems)) ∧
    ksF.length + sumTC csF = (ks.length + 1) + (TreeCount c + sumTC (h1 :: rest)) ∧
    (∀ d ∈ csF, heightOf d = heightOf c) ∧
    csF ≠ [] ∧
    numNodesL csF + f2 = numNodes c + numNodesL (h1 :: rest) := by
  obtain ⟨T2, hT2⟩ := @interleave_head rest ks hlen
  have hwhole : elems c ++ k0 :: interleave (h1 :: rest) ks =
      elems c ++ k0 :: (elems h1 ++ T2) := by
    rw [hT2 h1]
  have hsort2 : List.Pairwise (· < ·) ((elems c ++ k0 :: elems h1) ++ T2) := by
    rw [hwhole] at hsort
    simpa using hsort
  have hsortCS : List.Pairwise (· < ·) (elems c ++ k0 :: elems h1) :=
    (List.pairwise_append.mp hsort2).1
  have hhs : heightOf c = heightOf h1 :=
    (hhall h1 (List.mem_cons_self _ _)).symm
  rw [fixMid] at heq
  by_cases hok : minItems ≤ NumItems h1
  · rw [if_pos hok] at heq
    simp only [Prod.mk.injEq] at heq
    rcases heq with ⟨h1', h2', h3'⟩
    subst h1' h2' h3'
    refine ⟨?_, ?_, ?_, ?_, ?_, ?_, ?_, ?_⟩
    · rw [interleave_cons_of_ne _ _ _ _ (List.cons_ne_nil _ _)]
    · intro d hd
      rcases List.mem_cons.mp hd with rfl | hd
      · exact hc
      · rcases List.mem_cons.mp hd with rfl | hd
        · rw [WB, Bool.and_eq_true]
          exact ⟨hu, by simpa using hok⟩
        · exact hrest d hd
    · simp
      omega
    · simp
    · simp only [List.length_cons, sumTC_cons]
      try omega
    · intro d hd
      rcases List.mem_cons.mp hd with rfl | hd
      · rfl
      · exact hhall d hd
    · exact List.cons_ne_nil _ _
    · simp only [numNodesL]
      omega
  · rw [if_neg hok] at heq
    have hund : NumItems h1 < minItems := by omega
    by_cases hspare : minItems < NumItems c
    · rw [if_pos hspare] at heq
      rcases borrowL_spec hc hspare hu hund hhs hsortCS with
        ⟨hw1, hw2, hel, hct, hh1, hh2, hnn⟩
      simp only [Prod.mk.injEq] at heq
      rcases heq with ⟨h1', h2', h3'⟩
      subst h1' h2' h3'
      refine ⟨?_, ?_, ?_, ?_, ?_, ?_, ?_, ?_⟩
      · rw [interleave_cons_of_ne _ _ _ _ (List.cons_ne_nil _ _), hT2 _, hwhole]
        have hx : elems (borrowL c k0 h1).1 ++ (borrowL c k0 h1).2.1 ::
            (elems (borrowL c k0 h1).2.2 ++ T2) =
            (elems (borrowL c k0 h1).1 ++ (borrowL c k0 h1).2.1 ::
              elems (borrowL c k0 h1).2.2) ++ T2 := by
          simp
        rw [hx, hel]
        simp
      · intro d hd
        rcases List.mem_cons.mp hd with rfl | hd
        · exact hw1
        · rcases List.mem_cons.mp hd with rfl | hd
          · exact hw2
          · exact hrest d hd
      · simp
        omega
      · simp
      · simp only [List.length_cons, sumTC_cons]
        omega
      · intro d hd
        rcases List.mem_cons.mp hd with rfl | hd
        · exact hh1
        · rcases List.mem_cons.mp hd with rfl | hd
          · exact hh2
          · exact hhall d (List.mem_cons_of_mem _ hd)
      · exact List.cons_ne_nil _ _
      · simp only [numNodesL]
        omega
    · rw [if_neg hspare] at heq
      have hcap : NumItems c + NumItems h1 + 1 ≤ maxItems := by
        have h2 := (WB_NumItems hc).2
        rw [minItems] at hund hspare
        rw [maxItems] at h2 ⊢
        omega
      rcases mergeNodes_spec (WBa_of_WB hc) hu hhs hcap hsortCS with
        ⟨hw1, hel, hct, hh1, hnn⟩
      simp only [Prod.mk.injEq] at heq
      rcases heq with ⟨h1', h2', h3'⟩
      subst h1' h2' h3'
      refine ⟨?_, ?_, ?_, ?_, ?_, ?_, ?_, ?_⟩
      · rw [hT2 _, hwhole, hel]
        simp
      · intro d hd
        rcases List.mem_cons.mp hd with rfl | hd
        · exact hw1
        · exact hrest d hd
      · simp
        omega
      · exact Or.inr ⟨rfl, hund⟩
      · simp only [List.length_cons, sumTC_cons]
        omega
      · intro d hd
        rcases List.mem_cons.mp hd with rfl | hd
        · exact hh1
        · exact hhall d (List.mem_cons_of_mem _ hd)
      · exact List.cons_ne_nil _ _
      · simp only [numNodesL]
        omega

theorem headHeight_of_all {cs : List BPTreeNode} (hne : cs ≠ []) {h : Nat}
    (hall : ∀ d ∈ cs, heightOf d = h) : headHeight cs = h := by
  cases cs with
  | nil => exact absurd rfl hne
  | cons c cs' => exact hall c (List.mem_cons_self _ _)

theorem sorted_erase {l : List Nat} (h : List.Pairwise (· < ·) l) (k : Nat) :
    List.Pairwise (· < ·) (l.erase k) :=
  h.sublist (l.erase_sublist k)

mutual
/-- Correctness of the deletion descent at a node: `none` exactly on an
absent key; on success the key is erased from the element sequence, the
node (whose top run may be left underfull) stays structurally sound, the
cached count drops by one, height and leaf-ness are preserved, and the
free count is exact. -/
theorem delGo_spec : ∀ (n : BPTreeNode) (k : Nat), WB n = true →
    (delGo n k = none ↔ k ∉ elems n) ∧
    (∀ n2 f, delGo n k = some (n2, f) →
      k ∈ elems n ∧
      elems n2 = (elems n).erase k ∧ WBa n2 = true ∧
      TreeCount n2 + 1 = TreeCount n ∧ heightOf n2 = heightOf n ∧
      IsLeaf n2 = IsLeaf n ∧ numNodes n2 + f = numNodes n)
  | .leaf ks, k, h => by
    rcases WB_leaf_iff.mp h with ⟨hs, h1, h2⟩
    constructor
    · rw [delGo]
      simp only [locate_found hs k, elems]
      by_cases hm : k ∈ ks <;> simp [hm]
    · intro n2 f hsome
      rw [delGo] at hsome
      simp only [locate_found hs k] at hsome
      by_cases hm : k ∈ ks
      · simp [hm] at hsome
        rcases hsome with ⟨rfl, rfl⟩
        have hrm : removeAt (locate k ks).1 ks = ks.erase k := by
          rw [locate_idx hs k]
          exact removeAt_countLt hs hm
        have hlen : (ks.erase k).length = ks.length - 1 :=
          List.length_erase_of_mem hm
        have hkpos : 1 ≤ ks.length := List.length_pos.mpr
          (List.ne_nil_of_mem hm)
        refine ⟨hm, by rw [elems, elems, hrm], ?_, ?_, rfl, rfl, ?_⟩
        · rw [hrm]
          refine WBa_leaf_iff.mpr ⟨sorted_erase hs k, ?_⟩
          omega
        · simp only [TreeCount, hrm, hlen]
          omega
        · simp [numNodes]
      · simp [hm] at hsome
  | .inner ks cs cnt, k, h => by
    rcases WB_inner_iff.mp h with ⟨hs, h1, h2, hlen, hcnt, hh, hkids⟩
    rw [minItems] at h1
    have hw := delWalk_spec k cs ks hlen hs hkids hh
    constructor
    · rw [delGo]
      rw [elems]
      rcases hq : delWalk k cs ks with _ | ⟨⟨cs2, ks2, f⟩⟩
      · simpa [hq] using hw.1
      · simp only [hq]
        constructor
        · intro hc
          exact Option.noConfusion hc
        · intro hnotmem
          have hcon := hw.1.mpr hnotmem
          rw [hq] at hcon
          exact Option.noConfusion hcon
    · intro n2 f hsome
      rw [delGo] at hsome
      rcases hq : delWalk k cs ks with _ | ⟨⟨cs2, ks2, f0⟩⟩
      · simp [hq] at hsome
      · simp only [hq] at hsome
        rcases hw.2 cs2 ks2 f0 hq with
          ⟨hmem, hel, hlen2, hkl, ⟨hd, tl, rfl, hhd, htl⟩, hdich, hhts, hsum2, hnn2⟩
        have hsorted2 : List.Pairwise (· < ·) (interleave (hd :: tl) ks2) := by
          rw [hel]
          exact sorted_erase hs k
        rcases hfx : fixHead (hd :: tl) ks2 with ⟨cs3, ks3, f1⟩
        rw [hfx] at hsome
        simp only [Option.some.injEq, Prod.mk.injEq] at hsome
        rcases hsome with ⟨rfl, rfl⟩
        have hleneq : ks.length + sumTC cs = cnt := by omega
        have hcommon : interleave cs3 ks3 = interleave (hd :: tl) ks2 ∧
            (∀ d ∈ cs3, WB d = true) ∧
            cs3.length = ks3.length + 1 ∧
            ks3.length ≤ ks2.length ∧
            ks3.length + sumTC cs3 = ks2.length + sumTC (hd :: tl) ∧
            (∀ d ∈ cs3, heightOf d = headHeight cs) ∧
            cs3 ≠ [] ∧
            numNodesL cs3 + f1 = numNodesL (hd :: tl) := by
          by_cases hok : minItems ≤ NumItems hd
          · have hnofix : fixHead (hd :: tl) ks2 = (hd :: tl, ks2, 0) := by
              cases tl with
              | nil => simp only [fixHead]
              | cons s rest =>
                cases ks2 with
                | nil =>
                  simp at hlen2
                | cons k0 ks2' =>
                  simp only [fixHead]
                  rw [if_pos hok]
            rw [hnofix] at hfx
            injection hfx with hfx1 hfx23
            injection hfx23 with hfx2 hfx3
            subst hfx1 hfx2 hfx3
            have hWBhd : WB hd = true := by
              rw [WB, Bool.and_eq_true]
              exact ⟨hhd, by simpa using hok⟩
            refine ⟨rfl, ?_, hlen2, le_refl _, rfl, hhts, List.cons_ne_nil _ _, ?_⟩
            · intro d hd2
              rcases List.mem_cons.mp hd2 with rfl | hd2
              · exact hWBhd
              · exact htl d hd2
            · omega
          · have hund : NumItems hd < minItems := by omega
            have htlne : tl ≠ [] := by
              intro hc0
              subst hc0
              rcases hdich with hcase | ⟨hlen3, hall⟩
              · have hcs2 : 2 ≤ cs.length := by omega
                rw [← hcase] at hcs2
                simp only [List.length_cons, List.length_nil] at hcs2
                omega
              · have hwbhd0 := hall hd (List.mem_cons_self _ _)
                rw [WB, Bool.and_eq_true] at hwbhd0
                have h5 := hwbhd0.2
                simp at h5
                omega
            obtain ⟨s, rest, rfl⟩ : ∃ s rest, tl = s :: rest := by
              cases tl with
              | nil => exact absurd rfl htlne
              | cons a b => exact ⟨a, b, rfl⟩
            obtain ⟨k0, ks2', rfl⟩ : ∃ k0 ks2', ks2 = k0 :: ks2' := by
              cases ks2 with
              | nil => simp at hlen2
              | cons a b => exact ⟨a, b, rfl⟩
            have hlen2' : rest.length = ks2'.length := by
              simpa using hlen2
            have hhall2 : ∀ d ∈ s :: rest, heightOf d = heightOf hd := by
              intro d hd2
              rw [hhts d (List.mem_cons_of_mem _ hd2),
                hhts hd (List.mem_cons_self _ _)]
            rcases fixHead_spec hhd hund (htl s (List.mem_cons_self _ _))
              (fun d hd2 => htl d (List.mem_cons_of_mem _ hd2)) hhall2
              hsorted2 hlen2' hfx with
              ⟨hf1, hf2, hf3, hf4, hf5, hf6, hf7, hf8⟩
            refine ⟨hf1, hf2, hf3,
              by rcases hf4 with h4 | h4 <;> simp only [List.length_cons] <;> omega,
              ?_, ?_, hf7, hf8⟩
            · simp only [List.length_cons] at hf5 ⊢
              omega
            · intro d hd2
              rw [hf6 d hd2, hhts hd (List.mem_cons_self _ _)]
        rcases hcommon with ⟨hc1, hc2, hc3, hc4, hc5, hc6, hc7, hc8⟩
        refine ⟨by rwa [elems], ?_, ?_, ?_, ?_, rfl, ?_⟩
        · rw [elems, elems, hc1, hel]
        · refine WBa_inner_iff.mpr ⟨?_, ?_, ?_, ?_, ?_, ?_⟩
          · rw [hc1, hel]
            exact sorted_erase hs k
          · rcases hkl with hk | hk <;> omega
          · exact hc3
          · simp only [List.length_cons, sumTC_cons] at hsum2 hc5
            omega
          · apply heightsEq_of_all (h := headHeight cs)
            exact hc6
          · exact hc2
        · simp only [TreeCount]
          omega
        · rw [heightOf, heightOf, headHeight_of_all hc7 hc6]
        · simp only [numNodes]
          omega
termination_by n k h => sizeOf n

/-- Correctness of the deletion walk over the separator/child runs of a
well-formed internal node: the key is erased, only the first node of the
run may be left underfull (and only when the run kept its width), totals
balance, heights are untouched, frees are exact. -/
theorem delWalk_spec : ∀ (k : Nat) (cs : List BPTreeNode) (ks : List Nat),
    cs.length = ks.length + 1 →
    List.Pairwise (· < ·) (interleave cs ks) →
    (∀ c ∈ cs, WB c = true) →
    heightsEq cs = true →
    (delWalk k cs ks = none ↔ k ∉ interleave cs ks) ∧
    (∀ cs2 ks2 f, delWalk k cs ks = some (cs2, ks2, f) →
      k ∈ interleave cs ks ∧
      interleave cs2 ks2 = (interleave cs ks).erase k ∧
      cs2.length = ks2.length + 1 ∧
      (ks2.length = ks.length ∨ ks2.length + 1 = ks.length) ∧
      (∃ hd tl, cs2 = hd :: tl ∧ WBa hd = true ∧ ∀ d ∈ tl, WB d = true) ∧
      (cs2.length = cs.length ∨
        (cs2.length + 1 = cs.length ∧ ∀ d ∈ cs2, WB d = true)) ∧
      (∀ d ∈ cs2, heightOf d = headHeight cs) ∧
      ks2.length + sumTC cs2 + 1 = ks.length + sumTC cs ∧
      numNodesL cs2 + f = numNodesL cs)
  | k, [c], ks, hlen, hs, hkids, hh => by
    have hks : ks = [] := by
      cases ks with
      | nil => rfl
      | cons a b => simp at hlen
    subst hks
    have hwc : WB c = true := hkids c (List.mem_cons_self c [])
    have hone := delGo_spec c k hwc
    rw [interleave_single] at hs ⊢
    constructor
    · rw [delWalk]
      rcases hq : delGo c k with _ | ⟨c2, f0⟩
      · simpa [hq] using hone.1
      · simp only [hq]
        constructor
        · intro hc
          exact Option.noConfusion hc
        · intro hnm
          have hcon := hone.1.mpr hnm
          rw [hq] at hcon
          exact Option.noConfusion hcon
    · intro cs2 ks2 f hsome
      rw [delWalk] at hsome
      rcases hq : delGo c k with _ | ⟨c2, f0⟩
      · simp [hq] at hsome
      · simp only [hq, Option.some.injEq, Prod.mk.injEq] at hsome
        rcases hsome with ⟨rfl, rfl, rfl⟩
        rcases hone.2 c2 f0 hq with ⟨hmem, hel, hwba, hct, hht, _, hnn⟩
        refine ⟨hmem, ?_, rfl, Or.inl rfl, ⟨c2, [], rfl, hwba, by simp⟩,
          Or.inl rfl, ?_, ?_, ?_⟩
        · rw [interleave_single, hel]
        · intro d hd
          rcases List.mem_cons.mp hd with rfl | hd
          · rw [headHeight_cons, hht]
          · cases hd
        · simp only [sumTC, List.map_cons, List.map_nil, List.sum_cons,
            List.sum_nil, List.length_cons, List.length_nil]
          omega
        · simp only [numNodesL]
          omega
  | k, c :: c1 :: cs', k0 :: ks', hlen, hs, hkids, hh => by
    have hlen' : (c1 :: cs').length = ks'.length + 1 := by simpa using hlen
    have hil : interleave (c :: c1 :: cs') (k0 :: ks') =
        elems c ++ k0 :: interleave (c1 :: cs') ks' := interleave_cons2 _ _ _ _ _
    rw [hil] at hs ⊢
    rcases sorted_seg hs with ⟨hsE, hsI, hEk0, hk0I, hEI⟩
    have hwc : WB c = true := hkids c (List.mem_cons_self _ _)
    have hone := delGo_spec c k hwc
    have hhcons := heightsEq_cons_iff.mp hh
    constructor
    · simp only [delWalk]
      by_cases hb1 : k < k0
      · rw [if_pos hb1]
        rw [mem_append_cons_of_lt hs hb1]
        rcases hq : delGo c k with _ | ⟨c2, f0⟩
        · simpa [hq] using hone.1
        · have hknot : k ∈ elems c := (hone.2 c2 f0 hq).1
          simp only [hq]
          simp [hknot]
      · by_cases hb2 : k0 < k
        · rw [if_neg hb1, if_pos hb2]
          rw [mem_append_cons_of_gt hs hb2]
          have ihw := delWalk_spec k (c1 :: cs') ks' hlen' hsI
            (fun d hd => hkids d (List.mem_cons_of_mem _ hd))
            (by
              apply heightsEq_of_all (h := heightOf c1)
              intro d hd
              rw [hhcons d hd, hhcons c1 (List.mem_cons_self _ _)])
          rcases hq : delWalk k (c1 :: cs') ks' with _ | ⟨⟨cs2', ks2', f'⟩⟩
          · simpa [hq] using ihw.1
          · simp only [hq]
            constructor
            · intro hcon
              exact Option.noConfusion hcon
            · intro hnm
              have hcon := ihw.1.mpr hnm
              rw [hq] at hcon
              exact Option.noConfusion hcon
        · have hk0 : k = k0 := by omega
          rw [if_neg hb1, if_neg hb2]
          subst hk0
          simp
    · intro cs2 ks2 f hsome
      simp only [delWalk] at hsome
      by_cases hb1 : k < k0
      · rw [if_pos hb1] at hsome
        rcases hq : delGo c k with _ | ⟨c2, f0⟩
        · simp [hq] at hsome
        · simp only [hq, Option.some.injEq, Prod.mk.injEq] at hsome
          rcases hsome with ⟨rfl, rfl, rfl⟩
          rcases hone.2 c2 f0 hq with ⟨hmem, hel, hwba, hct, hht, _, hnn⟩
          refine ⟨(mem_append_cons_of_lt hs hb1).mpr hmem, ?_,
            by simpa using hlen, Or.inl rfl,
            ⟨c2, c1 :: cs', rfl, hwba,
              fun d hd => hkids d (List.mem_cons_of_mem _ hd)⟩,
            Or.inl rfl, ?_, ?_, ?_⟩
          · rw [interleave_cons_of_ne _ _ _ _ (List.cons_ne_nil _ _), hel,
              erase_append_cons_lt hmem]
          · intro d hd
            rcases List.mem_cons.mp hd with rfl | hd
            · rw [headHeight_cons, hht]
            · rw [headHeight_cons]
              exact hhcons d hd
          · simp only [List.length_cons, sumTC_cons]
            omega
          · simp only [numNodesL]
            omega
      · by_cases hb2 : k0 < k
        · rw [if_neg hb1, if_pos hb2] at hsome
          have ihw := delWalk_spec k (c1 :: cs') ks' hlen' hsI
            (fun d hd => hkids d (List.mem_cons_of_mem _ hd))
            (by
              apply heightsEq_of_all (h := heightOf c1)
              intro d hd
              rw [hhcons d hd, hhcons c1 (List.mem_cons_self _ _)])
          rcases hq : delWalk k (c1 :: cs') ks' with _ | ⟨⟨cs2', ks2', f'⟩⟩
          · simp [hq] at hsome
          · simp only [hq] at hsome
            rcases ihw.2 cs2' ks2' f' hq with
              ⟨hmem, hel, hlen2, hkl, ⟨hd, tl, rfl, hhd, htl⟩, hdich,
                hhts, hsum2, hnn2⟩
            rcases hfx : fixMid c k0 (hd :: tl) ks2' with ⟨csF, ksF, f1⟩
            simp only [hfx, Option.some.injEq, Prod.mk.injEq] at hsome
            rcases hsome with ⟨rfl, rfl, rfl⟩
            have hsorted3 : List.Pairwise (· < ·)
                (elems c ++ k0 :: interleave (hd :: tl) ks2') := by
              rw [hel]
              refine hs.sublist ?_
              refine List.Sublist.append_left ?_ (elems c)
              exact List.cons_sublist_cons.mpr
                (List.erase_sublist k (interleave (c1 :: cs') ks'))
            have hhall3 : ∀ d ∈ hd :: tl, heightOf d = heightOf c := by
              intro d hd2
              rw [hhts d hd2, headHeight_cons,
                hhcons c1 (List.mem_cons_self _ _)]
            rcases fixMid_spec hwc hhd htl hhall3 hsorted3
              (by simp only [List.length_cons] at hlen2; omega) hfx with
              ⟨hf1, hf2, hf3, hf4, hf5, hf6, hf7, hf8⟩
            refine ⟨(mem_append_cons_of_gt hs hb2).mpr hmem, ?_, hf3, ?_,
              ?_, ?_, ?_, ?_, ?_⟩
            · rw [hf1, hel, erase_append_cons_gt hs hb2]
            · rcases hf4 with hf4 | ⟨hf4, hund⟩
              · rcases hkl with hk | hk
                · left
                  simp only [List.length_cons]
                  omega
                · right
                  simp only [List.length_cons]
                  omega
              · rcases hdich with hdc | ⟨hdc, hall⟩
                · rcases hkl with hk | hk
                  · right
                    simp only [List.length_cons]
                    omega
                  · exfalso
                    simp only [List.length_cons] at hdc hlen2 hlen'
                    omega
                · exfalso
                  have hwbhd := hall hd (List.mem_cons_self _ _)
                  rw [WB, Bool.and_eq_true] at hwbhd
                  have h5 := hwbhd.2
                  simp at h5
                  omega
            · obtain ⟨hdF, tlF, rfl⟩ : ∃ hdF tlF, csF = hdF :: tlF := by
                cases csF with
                | nil => exact absurd rfl hf7
                | cons a b => exact ⟨a, b, rfl⟩
              exact ⟨hdF, tlF, rfl, WBa_of_WB (hf2 hdF (List.mem_cons_self _ _)),
                fun d hd2 => hf2 d (List.mem_cons_of_mem _ hd2)⟩
            · rcases hf4 with hf4 | ⟨hf4, hund⟩
              · rcases hkl with hk | hk
                · left
                  simp only [List.length_cons] at hlen2 hlen' ⊢
                  omega
                · right
                  refine ⟨?_, hf2⟩
                  simp only [List.length_cons] at hlen2 hlen' ⊢
                  omega
              · right
                refine ⟨?_, hf2⟩
                rcases hdich with hdc | ⟨hdc, hall⟩
                · rcases hkl with hk | hk
                  · simp only [List.length_cons] at hlen2 hlen' ⊢
                    omega
                  · exfalso
                    simp only [List.length_cons] at hdc hlen2 hlen'
                    omega
                · exfalso
                  have hwbhd := hall hd (List.mem_cons_self _ _)
                  rw [WB, Bool.and_eq_true] at hwbhd
                  have h5 := hwbhd.2
                  simp at h5
                  omega
            · intro d hd2
              rw [hf6 d hd2, headHeight_cons]
            · simp only [List.length_cons, sumTC_cons] at hsum2 hf5 ⊢
              omega
            · simp only [numNodesL] at hnn2 hf8 ⊢
              omega
        · have hk0 : k = k0 := by omega
          subst hk0
          rw [if_neg hb1, if_neg hb2] at hsome
          have hp := subtreeMax_spec c hwc
          rcases hp with ⟨E, hE⟩
          have hpmem : subtreeMax c ∈ elems c := by
            rw [hE]
            simp
          rcases hq : delGo c (subtreeMax c) with _ | ⟨c2, f0⟩
          · exfalso
            have honeP := delGo_spec c (subtreeMax c) hwc
            exact (honeP.1.mp hq) hpmem
          · simp only [hq, Option.getD_some, Option.some.injEq,
              Prod.mk.injEq] at hsome
            rcases hsome with ⟨rfl, rfl, rfl⟩
            have honep := delGo_spec c (subtreeMax c) hwc
            rcases honep.2 c2 f0 hq with ⟨_, hel, hwba, hct, hht, _, hnn⟩
            have helc2 : elems c2 = E := by
              rw [hel, hE]
              exact erase_last (hE ▸ hsE)
            refine ⟨by simp, ?_, by simpa using hlen, Or.inl rfl,
              ⟨c2, c1 :: cs', rfl, hwba,
                fun d hd => hkids d (List.mem_cons_of_mem _ hd)⟩,
              Or.inl rfl, ?_, ?_, ?_⟩
            · rw [interleave_cons_of_ne _ _ _ _ (List.cons_ne_nil _ _), helc2,
                erase_append_cons_self hs, hE]
              simp
            · intro d hd
              rcases List.mem_cons.mp hd with rfl | hd
              · rw [headHeight_cons, hht]
              · rw [headHeight_cons]
                exact hhcons d hd
            · simp only [List.length_cons, sumTC_cons]
              omega
            · simp only [numNodesL]
              omega
  | k, [], ks, hlen, _, _, _ => by
    simp at hlen
  | k, c :: c1 :: cs', [], hlen, _, _, _ => by
    simp at hlen
termination_by k cs ks h1 h2 h3 h4 => sizeOf cs
end

end BPTreeNode

namespace BPTree

open BPTreeNode

/-- Tree-level deletion contract (spec section 4.3): success exactly on a
present key; failure mutates nothing; success removes the key and shrinks
the size by one; well-formedness of the tree and of all cached diagnostics
is preserved. -/
theorem Delete_spec {t : BPTree} (h : WFT t = true) (k : Nat) :
    ((Delete t k).1 = true ↔ k ∈ elemsT t) ∧
    ((Delete t k).1 = false → (Delete t k).2 = t) ∧
    ((Delete t k).1 = true →
      elemsT (Delete t k).2 = (elemsT t).erase k ∧
      Size (Delete t k).2 + 1 = Size t) ∧
    WFT (Delete t k).2 = true := by
  obtain ⟨root, size_, height_, count_, used_⟩ := t
  cases root with
  | none =>
    refine ⟨?_, fun _ => rfl, ?_, ?_⟩
    · simp [Delete, elemsT]
    · intro hc
      simp [Delete] at hc
    · exact h
  | some r =>
    rw [WFT] at h
    simp only [Bool.and_eq_true, beq_iff_eq] at h
    rcases h with ⟨⟨⟨⟨hwb, hsz⟩, hht⟩, hct⟩, hus⟩
    have hspec := delGo_spec r k hwb
    rcases hq : delGo r k with _ | ⟨r2, f⟩
    · have hnot : k ∉ elems r := hspec.1.mp hq
      have hdel : Delete ⟨some r, size_, height_, count_, used_⟩ k =
          (false, ⟨some r, size_, height_, count_, used_⟩) := by
        simp only [Delete, hq]
      rw [hdel]
      refine ⟨?_, fun _ => rfl, ?_, ?_⟩
      · simp only [elemsT]
        constructor
        · intro hc; cases hc
        · intro hc; exact absurd hc hnot
      · intro hc; cases hc
      · rw [WFT]
        simp only [Bool.and_eq_true, beq_iff_eq]
        exact ⟨⟨⟨⟨hwb, hsz⟩, hht⟩, hct⟩, hus⟩
    · rcases hspec.2 r2 f hq with ⟨hmem, hel, hwba, hct2, hhgt, _, hnn⟩
      cases r2 with
      | leaf ks2 =>
        cases ks2 with
        | nil =>
          have hdel : Delete ⟨some r, size_, height_, count_, used_⟩ k =
              (true, ⟨none, size_ - 1, 0, count_ - (f + 1),
                used_ - nodeSize * (f + 1)⟩) := by
            simp only [Delete, hq]
          have hct2' : 0 + 1 = TreeCount r := hct2
          have hnn' : 1 + f = numNodes r := hnn
          rw [hdel]
          refine ⟨?_, ?_, ?_, ?_⟩
          · simpa [elemsT] using hmem
          · intro hc
            cases hc
          · intro _
            constructor
            · simp only [elemsT]
              rw [← hel]
              rfl
            · simp only [Size]
              omega
          · rw [WFT]
            simp only [Bool.and_eq_true, beq_iff_eq]
            refine ⟨⟨⟨?_, ?_⟩, ?_⟩, ?_⟩
            · omega
            · trivial
            · omega
            · simp only [nodeSize] at hus ⊢
              omega
        | cons k1 ks2' =>
          have hdel : Delete ⟨some r, size_, height_, count_, used_⟩ k =
              (true, ⟨some (.leaf (k1 :: ks2')), size_ - 1, height_,
                count_ - f, used_ - nodeSize * f⟩) := by
            simp only [Delete, hq]
          rw [hdel]
          have hszpos : 1 ≤ size_ := by
            have : 1 ≤ TreeCount r := by omega
            omega
          refine ⟨?_, ?_, ?_, ?_⟩
          · simpa [elemsT] using hmem
          · intro hc
            cases hc
          · intro _
            exact ⟨by simpa [elemsT] using hel, by simp only [Size]; omega⟩
          · rw [WFT]
            simp only [Bool.and_eq_true, beq_iff_eq]
            refine ⟨⟨⟨⟨?_, ?_⟩, ?_⟩, ?_⟩, ?_⟩
            · rw [WB, Bool.and_eq_true]
              refine ⟨hwba, ?_⟩
              simp [NumItems, keys, minItems]
            · omega
            · omega
            · omega
            · simp only [nodeSize] at hus ⊢
              omega
      | inner ks2 cs2 cnt2 =>
        rcases WBa_inner_iff.mp hwba with ⟨hso2, _, hclen2, hcnt2, hhe2, hkid2⟩
        cases ks2 with
        | nil =>
          obtain ⟨c, rfl⟩ : ∃ c, cs2 = [c] := by
            cases cs2 with
            | nil => simp at hclen2
            | cons c cs' =>
              cases cs' with
              | nil => exact ⟨c, rfl⟩
              | cons d cs'' => simp at hclen2
          have hdel : Delete ⟨some r, size_, height_, count_, used_⟩ k =
              (true, ⟨some c, size_ - 1, height_ - 1,
                count_ - (f + 1), used_ - nodeSize * (f + 1)⟩) := by
            simp only [Delete, hq, List.headD_cons]
          rw [hdel]
          have hwc : WB c = true := hkid2 c (List.mem_cons_self _ _)
          have helc : elems (.inner ([] : List Nat) [c] cnt2) = elems c := by
            rw [elems, interleave_single]
          have hcntc : cnt2 = TreeCount c := by
            simp only [sumTC, List.map_cons, List.map_nil, List.sum_cons,
              List.sum_nil, List.length_nil] at hcnt2
            omega
          have hhc : heightOf (.inner ([] : List Nat) [c] cnt2) =
              1 + heightOf c := by
            rw [heightOf, headHeight_cons]
          have hnnc : numNodes (.inner ([] : List Nat) [c] cnt2) =
              1 + numNodes c := by
            simp only [numNodes, numNodesL]
            omega
          have hct2' : cnt2 + 1 = TreeCount r := hct2
          rw [hnnc] at hnn
          refine ⟨?_, ?_, ?_, ?_⟩
          · simpa [elemsT] using hmem
          · intro hc0
            cases hc0
          · intro _
            constructor
            · simp only [elemsT]
              rw [← hel, helc]
            · simp only [Size]
              omega
          · rw [WFT]
            simp only [Bool.and_eq_true, beq_iff_eq]
            refine ⟨⟨⟨⟨hwc, ?_⟩, ?_⟩, ?_⟩, ?_⟩
            · omega
            · rw [hhc] at hhgt
              omega
            · omega
            · simp only [nodeSize] at hus ⊢
              omega
        | cons k1 ks2' =>
          have hdel : Delete ⟨some r, size_, height_, count_, used_⟩ k =
              (true, ⟨some (.inner (k1 :: ks2') cs2 cnt2), size_ - 1, height_,
                count_ - f, used_ - nodeSize * f⟩) := by
            simp only [Delete, hq]
          rw [hdel]
          have hct2' : cnt2 + 1 = TreeCount r := hct2
          refine ⟨?_, ?_, ?_, ?_⟩
          · simpa [elemsT] using hmem
          · intro hc0
            cases hc0
          · intro _
            exact ⟨by simpa [elemsT] using hel, by simp only [Size]; omega⟩
          · rw [WFT]
            simp only [Bool.and_eq_true, beq_iff_eq]
            refine ⟨⟨⟨⟨?_, ?_⟩, ?_⟩, ?_⟩, ?_⟩
            · rw [WB, Bool.and_eq_true]
              refine ⟨hwba, ?_⟩
              simp [NumItems, keys, minItems]
            · show size_ - 1 = cnt2
              omega
            · omega
            · omega
            · simp only [nodeSize] at hus ⊢
              omega

end BPTree

namespace BPTreeNode

/-! ### The embedded structural checker accepts every well-formed subtree
whose keys respect the inherited bound -/

theorem uniform_leafness {cs : List BPTreeNode}
    (hkids : ∀ c ∈ cs, WB c = true) (hh : heightsEq cs = true) :
    (cs.any IsLeaf && cs.any fun c => !IsLeaf c) = false := by
  cases hany : cs.any IsLeaf with
  | false => rw [Bool.false_and]
  | true =>
    rw [Bool.true_and]
    rw [List.any_eq_true] at hany
    rcases hany with ⟨c0, hc0, hl0⟩
    have h1 : heightOf c0 = 1 :=
      (isLeaf_iff_heightOf_eq_one (WBa_of_WB (hkids c0 hc0))).mp hl0
    rw [List.any_eq_false]
    intro c hc
    have hch : heightOf c = 1 := by
      rw [all_of_heightsEq hh c hc, ← all_of_heightsEq hh c0 hc0, h1]
    have hisl : IsLeaf c = true :=
      (isLeaf_iff_heightOf_eq_one (WBa_of_WB (hkids c hc))).mpr hch
    simp [hisl]

theorem sublist_interleave : ∀ (cs : List BPTreeNode) (ks : List Nat),
    cs.length = ks.length + 1 → ks.Sublist (interleave cs ks)
  | [c], ks, hlen => by
    have hks : ks = [] := by
      cases ks with
      | nil => rfl
      | cons a b => simp at hlen
    subst hks
    exact List.nil_sublist _
  | c :: c1 :: cs', k0 :: ks', hlen => by
    rw [interleave_cons2]
    have ih := sublist_interleave (c1 :: cs') ks' (by simpa using hlen)
    exact List.Sublist.trans (List.Sublist.cons₂ k0 ih)
      (List.sublist_append_right _ _)
  | [], ks, hlen => by simp at hlen
  | c :: c1 :: cs', [], hlen => by simp at hlen

mutual
/-- The recursive checker embedded from `BPTreeSetTest::Validate` passes on
every well-formed subtree all of whose keys lie strictly below the
inherited upper bound. -/
theorem validate_of_WB : ∀ (n : BPTreeNode) (ub : Nat), WB n = true →
    (∀ x ∈ elems n, x < ub) → validate n ub = true
  | .leaf ks, ub, h, hub => by
    rcases WB_leaf_iff.mp h with ⟨hs, h1, h2⟩
    rw [minItems] at h1
    have hne : ks ≠ [] := by
      intro hc
      rw [hc] at h1
      simp at h1
    rw [validate, validateNode, Bool.and_eq_true]
    constructor
    · exact ascL_iff_pairwise.mpr hs
    · rw [getD_last_eq_getLast hne]
      exact decide_eq_true (hub _ (List.getLast_mem hne))
  | .inner ks cs cnt, ub, h, hub => by
    rcases WB_inner_iff.mp h with ⟨hs, h1, h2, hlen, hcnt, hh, hkids⟩
    rw [minItems] at h1
    have hkne : ks ≠ [] := by
      intro hc
      rw [hc] at h1
      simp at h1
    have hsub : ks.Sublist (interleave cs ks) := sublist_interleave cs ks hlen
    rw [validate, Bool.and_eq_true]
    constructor
    · rw [validateNode]
      simp only [Bool.and_eq_true]
      refine ⟨⟨⟨?_, ?_⟩, ?_⟩, ?_⟩
      · exact ascL_iff_pairwise.mpr (hs.sublist hsub)
      · rw [uniform_leafness hkids hh]
        rfl
      · simp only [beq_iff_eq]
        omega
      · rw [getD_last_eq_getLast hkne]
        exact decide_eq_true (hub _ (hsub.subset (List.getLast_mem hkne)))
    · exact validateKids_of cs ks ub hlen hs hkids hub
termination_by n ub h hub => sizeOf n

/-- Child-run form of `validate_of_WB`: every child checks against its
separator (the last one against the inherited bound). -/
theorem validateKids_of : ∀ (cs : List BPTreeNode) (ks : List Nat) (ub : Nat),
    cs.length = ks.length + 1 →
    List.Pairwise (· < ·) (interleave cs ks) →
    (∀ c ∈ cs, WB c = true) →
    (∀ x ∈ interleave cs ks, x < ub) →
    validateKids cs ks ub = true
  | [c], ks, ub, hlen, hs, hkids, hub => by
    simp only [validateKids]
    refine validate_of_WB c ub (hkids c (List.mem_cons_self _ _)) ?_
    intro x hx
    refine hub x ?_
    rw [interleave_single]
    exact hx
  | c :: c1 :: cs', k0 :: ks', ub, hlen, hs, hkids, hub => by
    rw [interleave_cons2] at hs hub
    rcases sorted_seg hs with ⟨hsE, hsI, hEk0, hk0I, hEI⟩
    simp only [validateKids]
    rw [Bool.and_eq_true]
    constructor
    · exact validate_of_WB c k0 (hkids c (List.mem_cons_self _ _)) hEk0
    · refine validateKids_of (c1 :: cs') ks' ub (by simpa using hlen) hsI
        (fun d hd => hkids d (List.mem_cons_of_mem _ hd)) ?_
      intro x hx
      exact hub x (List.mem_append.mpr (Or.inr (List.mem_cons_of_mem _ hx)))
  | [], ks, ub, hlen, _, _, _ => by simp at hlen
  | c :: c1 :: cs', [], ub, hlen, _, _, _ => by simp at hlen
termination_by cs ks ub h1 h2 h3 h4 => sizeOf cs
end

end BPTreeNode

namespace BPTree

open BPTreeNode

/-- The whole-tree checker passes on every well-formed tree whose elements
lie strictly below `UINT64_MAX`. -/
theorem ValidateTree_of_WFT {t : BPTree} (h : WFT t = true)
    (hub : ∀ x ∈ elemsT t, x < UINT64MAX) : ValidateTree t = true := by
  obtain ⟨root, size_, height_, count_, used_⟩ := t
  cases root with
  | none => rfl
  | some r =>
    rw [WFT] at h
    simp only [Bool.and_eq_true, beq_iff_eq] at h
    rcases h with ⟨⟨⟨⟨hwb, _⟩, _⟩, _⟩, _⟩
    rw [ValidateTree]
    refine validate_of_WB r UINT64MAX hwb ?_
    intro x hx
    exact hub x (by simpa [elemsT] using hx)

end BPTree

namespace BPTreeNode

/-! ### Rank correctness -/

mutual
/-- The rank descent counts exactly the elements strictly below `k`. -/
theorem rankGo_spec : ∀ (n : BPTreeNode) (k : Nat), WB n = true →
    rankGo n k = countLt k (elems n)
  | .leaf ks, k, h => by
    rcases WB_leaf_iff.mp h with ⟨hs, _, _⟩
    rw [rankGo, elems, locate_idx hs k]
  | .inner ks cs cnt, k, h => by
    rcases WB_inner_iff.mp h with ⟨hs, h1, h2, hlen, hcnt, hh, hkids⟩
    rw [rankGo, elems]
    exact rankWalk_spec k cs ks hlen hs hkids
termination_by n k h => sizeOf n

/-- Separator/child-run form of `rankGo_spec`. -/
theorem rankWalk_spec : ∀ (k : Nat) (cs : List BPTreeNode) (ks : List Nat),
    cs.length = ks.length + 1 →
    List.Pairwise (· < ·) (interleave cs ks) →
    (∀ c ∈ cs, WB c = true) →
    rankWalk k cs ks = countLt k (interleave cs ks)
  | k, [c], ks, hlen, hs, hkids => by
    rw [interleave_single] at hs ⊢
    rw [rankWalk]
    exact rankGo_spec c k (hkids c (List.mem_cons_self _ _))
  | k, c :: c1 :: cs', k0 :: ks', hlen, hs, hkids => by
    have hil := interleave_cons2 c c1 cs' k0 ks'
    rw [hil] at hs ⊢
    rcases sorted_seg hs with ⟨hsE, hsI, hEk0, hk0I, hEI⟩
    have hwc := hkids c (List.mem_cons_self _ _)
    have htc : TreeCount c = (elems c).length :=
      TreeCount_eq_length_elems (WBa_of_WB hwc)
    simp only [rankWalk]
    by_cases hb1 : k < k0
    · rw [if_pos hb1, rankGo_spec c k hwc]
      rw [countLt_append, countLt_cons]
      have h0 : countLt k (interleave (c1 :: cs') ks') = 0 :=
        countLt_eq_zero (fun x hx => by have := hk0I x hx; omega)
      rw [h0, if_neg (by omega)]
      omega
    · by_cases hb2 : k0 < k
      · rw [if_neg hb1, if_pos hb2]
        rw [rankWalk_spec k (c1 :: cs') ks' (by simpa using hlen) hsI
          (fun d hd => hkids d (List.mem_cons_of_mem _ hd))]
        rw [countLt_append, countLt_cons, if_pos hb2]
        have hE : countLt k (elems c) = (elems c).length :=
          countLt_eq_length (fun x hx => by have := hEk0 x hx; omega)
        rw [hE, htc]
        omega
      · have hk0 : k = k0 := by omega
        subst hk0
        rw [if_neg hb1, if_neg hb2]
        rw [countLt_append, countLt_cons, if_neg (by omega)]
        have h0 : countLt k (interleave (c1 :: cs') ks') = 0 :=
          countLt_eq_zero (fun x hx => by have := hk0I x hx; omega)
        have hE : countLt k (elems c) = (elems c).length :=
          countLt_eq_length hEk0
        rw [h0, hE, htc]
        omega
  | k, [], ks, hlen, _, _ => by simp at hlen
  | k, c :: c1 :: cs', [], hlen, _, _ => by simp at hlen
termination_by k cs ks h1 h2 h3 => sizeOf cs
end

end BPTreeNode

namespace BPTree

open BPTreeNode

/-- Tree-level rank (spec section 4.4): `GetRank(k)` is the number of
stored elements strictly below `k`, present or not. -/
theorem GetRank_spec {t : BPTree} (h : WFT t = true) (k : Nat) :
    GetRank t k = countLt k (elemsT t) := by
  obtain ⟨root, size_, height_, count_, used_⟩ := t
  cases root with
  | none => rfl
  | some r =>
    rw [WFT] at h
    simp only [Bool.and_eq_true, beq_iff_eq] at h
    rcases h with ⟨⟨⟨⟨hwb, _⟩, _⟩, _⟩, _⟩
    rw [GetRank]
    exact rankGo_spec r k hwb

end BPTree

namespace BPTreeNode

/-! ### Range traversal correctness -/

mutual
/-- The ascending traversal returns the window of `cnt` elements starting
at rank `lo` of the in-order sequence. -/
theorem iterGo_spec : ∀ (n : BPTreeNode) (lo cnt : Nat), WB n = true →
    iterGo n lo cnt = ((elems n).drop lo).take cnt
  | .leaf ks, lo, cnt, h => by
    rw [iterGo, elems]
  | .inner ks cs cnt0, lo, cnt, h => by
    rcases WB_inner_iff.mp h with ⟨_, _, _, hlen, _, _, hkids⟩
    rw [iterGo, elems]
    exact iterWalk_spec lo cnt cs ks hlen hkids
termination_by n lo cnt h => sizeOf n

/-- Separator/child-run form of `iterGo_spec`. -/
theorem iterWalk_spec : ∀ (lo cnt : Nat) (cs : List BPTreeNode) (ks : List Nat),
    cs.length = ks.length + 1 →
    (∀ c ∈ cs, WB c = true) →
    iterWalk lo cnt cs ks = ((interleave cs ks).drop lo).take cnt
  | lo, cnt, [c], ks, hlen, hkids => by
    rw [interleave_single]
    rw [iterWalk]
    exact iterGo_spec c lo cnt (hkids c (List.mem_cons_self _ _))
  | lo, cnt, c :: c1 :: cs', k0 :: ks', hlen, hkids => by
    have hwc := hkids c (List.mem_cons_self _ _)
    have htc : TreeCount c = (elems c).length :=
      TreeCount_eq_length_elems (WBa_of_WB hwc)
    have hgo := iterGo_spec c lo cnt hwc
    have hil := interleave_cons2 c c1 cs' k0 ks'
    rw [hil]
    simp only [iterWalk]
    by_cases hb1 : lo < TreeCount c
    · rw [if_pos hb1]
      by_cases hb2 : cnt ≤ TreeCount c - lo
      · rw [if_pos hb2, hgo]
        rw [List.drop_append_eq_append_drop]
        have hz : lo - (elems c).length = 0 := by omega
        rw [hz]
        rw [List.take_append_of_le_length]
        rw [List.length_drop]
        omega
      · rw [if_neg hb2, hgo]
        rw [iterWalk_spec 0 (cnt - (TreeCount c - lo) - 1) (c1 :: cs') ks'
          (by simpa using hlen) (fun d hd => hkids d (List.mem_cons_of_mem _ hd))]
        rw [List.drop_zero]
        rw [List.drop_append_eq_append_drop]
        have hz : lo - (elems c).length = 0 := by omega
        rw [hz, List.drop_zero]
        rw [List.take_append_eq_append_take]
        have h1 : ((elems c).drop lo).take cnt = (elems c).drop lo := by
          refine List.take_of_length_le ?_
          rw [List.length_drop]
          omega
        rw [h1]
        have h2 : cnt - ((elems c).drop lo).length =
            (cnt - (TreeCount c - lo) - 1) + 1 := by
          rw [List.length_drop]
          omega
        rw [h2, List.take_succ_cons]
    · rw [if_neg hb1]
      by_cases hb2 : lo = TreeCount c
      · rw [if_pos hb2]
        by_cases hb3 : cnt = 0
        · rw [if_pos hb3, hb3, List.take_zero]
        · rw [if_neg hb3]
          rw [iterWalk_spec 0 (cnt - 1) (c1 :: cs') ks'
            (by simpa using hlen) (fun d hd => hkids d (List.mem_cons_of_mem _ hd))]
          rw [List.drop_zero]
          rw [List.drop_append_eq_append_drop]
          have hz : (elems c).drop lo = [] := List.drop_eq_nil_of_le (by omega)
          have hz2 : lo - (elems c).length = 0 := by omega
          rw [hz, hz2, List.drop_zero, List.nil_append]
          obtain ⟨m, rfl⟩ : ∃ m, cnt = m + 1 := ⟨cnt - 1, by omega⟩
          rw [List.take_succ_cons]
          simp
      · have hb4 : TreeCount c < lo := by omega
        rw [if_neg hb2]
        rw [iterWalk_spec (lo - TreeCount c - 1) cnt (c1 :: cs') ks'
          (by simpa using hlen) (fun d hd => hkids d (List.mem_cons_of_mem _ hd))]
        rw [List.drop_append_eq_append_drop]
        have hz : (elems c).drop lo = [] := List.drop_eq_nil_of_le (by omega)
        rw [hz, List.nil_append]
        have h2 : lo - (elems c).length = (lo - TreeCount c - 1) + 1 := by omega
        rw [h2, List.drop_succ_cons]
  | lo, cnt, [], ks, hlen, _ => by simp at hlen
  | lo, cnt, c :: c1 :: cs', [], hlen, _ => by simp at hlen
termination_by lo cnt cs ks h1 h2 => sizeOf cs
end

mutual
/-- The descending traversal returns the window of `cnt` elements ending
at rank `hi` of the in-order sequence, reversed (rank `hi` first). -/
theorem riterGo_spec : ∀ (n : BPTreeNode) (hi cnt : Nat), WB n = true →
    hi < (elems n).length →
    riterGo n hi cnt = (((elems n).take (hi + 1)).reverse).take cnt
  | .leaf ks, hi, cnt, h, hhi => by
    rw [riterGo, elems]
  | .inner ks cs cnt0, hi, cnt, h, hhi => by
    rcases WB_inner_iff.mp h with ⟨_, _, _, hlen, _, _, hkids⟩
    rw [riterGo, elems]
    refine riterWalk_spec hi cnt cs ks hlen hkids ?_
    rw [elems] at hhi
    exact hhi
termination_by n hi cnt h hhi => sizeOf n

/-- Separator/child-run form of `riterGo_spec`. -/
theorem riterWalk_spec : ∀ (hi cnt : Nat) (cs : List BPTreeNode) (ks : List Nat),
    cs.length = ks.length + 1 →
    (∀ c ∈ cs, WB c = true) →
    hi < (interleave cs ks).length →
    riterWalk hi cnt cs ks = (((interleave cs ks).take (hi + 1)).reverse).take cnt
  | hi, cnt, [c], ks, hlen, hkids, hhi => by
    rw [interleave_single] at hhi ⊢
    rw [riterWalk]
    exact riterGo_spec c hi cnt (hkids c (List.mem_cons_self _ _)) hhi
  | hi, cnt, c :: c1 :: cs', k0 :: ks', hlen, hkids, hhi => by
    have hwc := hkids c (List.mem_cons_self _ _)
    have htc : TreeCount c = (elems c).length :=
      TreeCount_eq_length_elems (WBa_of_WB hwc)
    have hcne : elems c ≠ [] := elems_ne_nil hwc
    have hcpos : 1 ≤ (elems c).length := List.length_pos.mpr hcne
    have hil := interleave_cons2 c c1 cs' k0 ks'
    rw [hil] at hhi ⊢
    rw [List.length_append, List.length_cons] at hhi
    simp only [riterWalk]
    by_cases hb1 : hi < TreeCount c
    · rw [if_pos hb1]
      rw [riterGo_spec c hi cnt hwc (by omega)]
      rw [List.take_append_of_le_length (by omega)]
    · rw [if_neg hb1]
      by_cases hb2 : hi = TreeCount c
      · rw [if_pos hb2]
        by_cases hb3 : cnt = 0
        · rw [if_pos hb3, hb3, List.take_zero]
        · rw [if_neg hb3]
          rw [riterGo_spec c (TreeCount c - 1) (cnt - 1) hwc (by omega)]
          have h1 : TreeCount c - 1 + 1 = (elems c).length := by omega
          rw [h1, List.take_of_length_le (le_refl _)]
          have h2 : hi + 1 = (elems c).length + (0 + 1) := by omega
          rw [h2, List.take_append_eq_append_take,
            List.take_of_length_le (l := elems c) (by omega)]
          have h3 : (elems c).length + (0 + 1) - (elems c).length = 0 + 1 := by
            omega
          rw [h3, List.take_succ_cons, List.take_zero]
          simp only [List.reverse_append, List.reverse_cons, List.reverse_nil,
            List.nil_append, List.cons_append]
          obtain ⟨m, rfl⟩ : ∃ m, cnt = m + 1 := ⟨cnt - 1, by omega⟩
          rw [List.take_succ_cons]
          simp
      · have hb4 : TreeCount c < hi := by omega
        rw [if_neg hb2]
        rw [riterWalk_spec (hi - TreeCount c - 1) cnt (c1 :: cs') ks'
          (by simpa using hlen) (fun d hd => hkids d (List.mem_cons_of_mem _ hd))
          (by omega)]
        have h2 : hi + 1 = (elems c).length + ((hi - TreeCount c - 1 + 1) + 1) := by
          omega
        rw [h2, List.take_append_eq_append_take,
          List.take_of_length_le (l := elems c) (by omega)]
        have h3 : (elems c).length + ((hi - TreeCount c - 1 + 1) + 1) -
            (elems c).length = (hi - TreeCount c - 1 + 1) + 1 := by omega
        rw [h3, List.take_succ_cons]
        rw [List.reverse_append, List.reverse_cons]
        by_cases hb5 : cnt ≤ hi - TreeCount c
        · rw [if_pos hb5]
          rw [List.take_append_of_le_length, List.take_append_of_le_length]
          · simp only [List.length_append, List.length_reverse,
              List.length_take, List.length_cons, List.length_nil]
            omega
          · simp only [List.length_append, List.length_reverse,
              List.length_take, List.length_cons, List.length_nil]
            omega
        · rw [if_neg hb5]
          rw [riterGo_spec c (TreeCount c - 1) (cnt - (hi - TreeCount c) - 1)
            hwc (by omega)]
          have h1 : TreeCount c - 1 + 1 = (elems c).length := by omega
          rw [h1, List.take_of_length_le (le_refl _)]
          have ht1 : (((interleave (c1 :: cs') ks').take
                (hi - TreeCount c - 1 + 1)).reverse).take cnt
              = ((interleave (c1 :: cs') ks').take
                (hi - TreeCount c - 1 + 1)).reverse := by
            refine List.take_of_length_le ?_
            simp only [List.length_reverse, List.length_take]
            omega
          rw [ht1]
          rw [List.take_append_eq_append_take]
          rw [List.take_of_length_le
            (l := ((interleave (c1 :: cs') ks').take
              (hi - TreeCount c - 1 + 1)).reverse ++ [k0])]
          · have h4 : cnt - (((interleave (c1 :: cs') ks').take
                  (hi - TreeCount c - 1 + 1)).reverse ++ [k0]).length =
                cnt - (hi - TreeCount c) - 1 := by
              simp only [List.length_append, List.length_reverse,
                List.length_take, List.length_cons, List.length_nil]
              omega
            rw [h4]
            simp
          · simp only [List.length_append, List.length_reverse,
              List.length_take, List.length_cons, List.length_nil]
            omega
  | hi, cnt, [], ks, hlen, _, _ => by simp at hlen
  | hi, cnt, c :: c1 :: cs', [], hlen, _, _ => by simp at hlen
termination_by hi cnt cs ks h1 h2 h3 => sizeOf cs
end

end BPTreeNode

namespace BPTree

open BPTreeNode

/-- Tree-level ascending range traversal (spec section 4.4): the `visit`
sequence of `Iterate(lo, hi)` is the rank window `lo..hi` of the sorted
element sequence, in ascending order. -/
theorem Iterate_spec {t : BPTree} (h : WFT t = true) (lo hi : Nat) :
    Iterate t lo hi = ((elemsT t).drop lo).take (hi + 1 - lo) := by
  obtain ⟨root, size_, height_, count_, used_⟩ := t
  cases root with
  | none => simp [Iterate, elemsT]
  | some r =>
    rw [WFT] at h
    simp only [Bool.and_eq_true, beq_iff_eq] at h
    rcases h with ⟨⟨⟨⟨hwb, _⟩, _⟩, _⟩, _⟩
    rw [Iterate]
    exact iterGo_spec r lo (hi + 1 - lo) hwb

/-- Tree-level descending range traversal (spec section 4.4): the `visit`
sequence of `IterateReverse(lo, hi)` is the rank window `lo..hi` reversed
(rank `hi` first), provided `hi` is a valid rank. -/
theorem IterateReverse_spec {t : BPTree} (h : WFT t = true) {lo hi : Nat}
    (hhi : hi < Size t) :
    IterateReverse t lo hi = (((elemsT t).take (hi + 1)).reverse).take (hi + 1 - lo) := by
  obtain ⟨root, size_, height_, count_, used_⟩ := t
  cases root with
  | none =>
    rw [WFT] at h
    simp only [Bool.and_eq_true, beq_iff_eq] at h
    rcases h with ⟨⟨⟨h1, _⟩, _⟩, _⟩
    have hhi' : hi < size_ := hhi
    omega
  | some r =>
    rw [WFT] at h
    simp only [Bool.and_eq_true, beq_iff_eq] at h
    rcases h with ⟨⟨⟨⟨hwb, hsz⟩, _⟩, _⟩, _⟩
    rw [IterateReverse]
    refine riterGo_spec r hi (hi + 1 - lo) hwb ?_
    have hhi' : hi < size_ := hhi
    rw [← TreeCount_eq_length_elems (WBa_of_WB hwb)]
    omega

end BPTree

namespace BPTreeNode

theorem sIns_gt_all {k : Nat} {E : List Nat} (h : ∀ e ∈ E, e < k) :
    sIns k E = E ++ [k] := by
  have h2 := sIns_append_gt (R := ([] : List Nat)) h
  rw [List.append_nil] at h2
  exact h2

theorem sIns_lt_all {k : Nat} : ∀ {l : List Nat}, (∀ x ∈ l, k < x) →
    sIns k l = k :: l
  | [], _ => rfl
  | x :: xs, h => by
    rw [sIns, if_pos (h x (List.mem_cons_self _ _))]

end BPTreeNode

/-! ### Mutation sequences: preservation of well-formedness, size
accounting, key bounds, and runs of monotone insertions -/

namespace BPTree

open BPTreeNode

theorem applyOps_nil (t : BPTree) : applyOps t [] = t := rfl

theorem applyOps_cons (t : BPTree) (op : TreeOp) (ops : List TreeOp) :
    applyOps t (op :: ops) = applyOps (applyOp t op) ops := rfl

theorem applyOps_append (t : BPTree) (l1 l2 : List TreeOp) :
    applyOps t (l1 ++ l2) = applyOps (applyOps t l1) l2 :=
  List.foldl_append _ _ _ _

/-- An empty tree is well-formed with all diagnostics zero. -/
theorem WFT_empty : WFT BPTree.empty = true := rfl

theorem WFT_applyOp {t : BPTree} (h : WFT t = true) (op : TreeOp) :
    WFT (applyOp t op) = true := by
  cases op with
  | ins k => exact (Insert_spec h k).2.2.2
  | del k => exact (Delete_spec h k).2.2.2

theorem WFT_applyOps : ∀ (ops : List TreeOp) (t : BPTree), WFT t = true →
    WFT (applyOps t ops) = true
  | [], t, h => h
  | op :: ops, t, h => by
    rw [applyOps_cons]
    exact WFT_applyOps ops (applyOp t op) (WFT_applyOp h op)

/-- `Clear` releases every node and resets the tree to the freshly
constructed state: every diagnostic and the used-bytes counter at zero. -/
theorem Clear_spec {t : BPTree} (h : WFT t = true) : Clear t = BPTree.empty := by
  obtain ⟨root, size_, height_, count_, used_⟩ := t
  cases root with
  | none =>
    rw [WFT] at h
    simp only [Bool.and_eq_true, beq_iff_eq] at h
    have hu : used_ - nodeSize * 0 = 0 := by omega
    show (⟨none, 0, 0, 0, used_ - nodeSize * 0⟩ : BPTree) = BPTree.empty
    rw [hu]
    rfl
  | some r =>
    rw [WFT] at h
    simp only [Bool.and_eq_true, beq_iff_eq] at h
    rcases h with ⟨⟨⟨⟨_, _⟩, _⟩, _⟩, hus⟩
    have hu : used_ - nodeSize * numNodes r = 0 := by omega
    show (⟨none, 0, 0, 0, used_ - nodeSize * numNodes r⟩ : BPTree) = BPTree.empty
    rw [hu]
    rfl

/-- An element-free well-formed tree has all four diagnostics at zero. -/
theorem drained_of_empty {t : BPTree} (h : WFT t = true)
    (he : elemsT t = []) :
    Size t = 0 ∧ Height t = 0 ∧ NodeCount t = 0 ∧ used t = 0 := by
  obtain ⟨root, size_, height_, count_, used_⟩ := t
  cases root with
  | none =>
    rw [WFT] at h
    simp only [Bool.and_eq_true, beq_iff_eq] at h
    rcases h with ⟨⟨⟨h1, h2⟩, h3⟩, h4⟩
    exact ⟨h1, h2, h3, h4⟩
  | some r =>
    rw [WFT] at h
    simp only [Bool.and_eq_true, beq_iff_eq] at h
    rcases h with ⟨⟨⟨⟨hwb, _⟩, _⟩, _⟩, _⟩
    have : elems r = [] := he
    exact absurd this (elems_ne_nil hwb)

/-- Size bookkeeping along any run: final size plus successful deletes
equals initial size plus successful inserts. -/
theorem size_accounting : ∀ (ops : List TreeOp) (t : BPTree), WFT t = true →
    Size (applyOps t ops) + succDel t ops = Size t + succIns t ops
  | [], t, h => by rw [applyOps_nil, succIns, succDel]
  | op :: ops, t, h => by
    have hstep := WFT_applyOp h op
    have ih := size_accounting ops (applyOp t op) hstep
    rw [applyOps_cons]
    cases op with
    | ins k =>
      have hins := Insert_spec h k
      simp only [succIns, succDel]
      by_cases h1 : (Insert t k).1 = true
      · have hsz : Size (applyOp t (.ins k)) = Size t + 1 :=
          (hins.2.2.1 h1).2
        rw [if_pos h1]
        omega
      · have hunch : applyOp t (.ins k) = t :=
          hins.2.1 (Bool.not_eq_true _ ▸ h1)
        rw [if_neg h1, hunch]
        rw [hunch] at ih
        omega
    | del k =>
      have hdel := Delete_spec h k
      simp only [succIns, succDel]
      by_cases h1 : (Delete t k).1 = true
      · have hsz : Size (applyOp t (.del k)) + 1 = Size t :=
          (hdel.2.2.1 h1).2
        rw [if_pos h1]
        omega
      · have hunch : applyOp t (.del k) = t :=
          hdel.2.1 (Bool.not_eq_true _ ▸ h1)
        rw [if_neg h1, hunch]
        rw [hunch] at ih
        omega

/-- Every element of a tree built by mutations bounded below `B` stays
below `B`. -/
theorem elemsT_bound : ∀ (ops : List TreeOp) (t : BPTree) {B : Nat},
    WFT t = true → (∀ x ∈ elemsT t, x < B) → (∀ op ∈ ops, op.key < B) →
    ∀ x ∈ elemsT (applyOps t ops), x < B
  | [], t, B, hw, hel, hop => by
    rw [applyOps_nil]
    exact hel
  | op :: ops, t, B, hw, hel, hop => by
    rw [applyOps_cons]
    refine elemsT_bound ops (applyOp t op) (WFT_applyOp hw op) ?_
      (fun o ho => hop o (List.mem_cons_of_mem _ ho))
    cases op with
    | ins k =>
      have hins := Insert_spec hw k
      by_cases h1 : (Insert t k).1 = true
      · have hel2 := (hins.2.2.1 h1).1
        have hknot : k ∉ elemsT t := hins.1.mp h1
        intro x hx
        have hx2 : x ∈ sIns k (elemsT t) := by
          rw [← hel2]
          exact hx
        rcases (mem_sIns hknot).mp hx2 with rfl | hx3
        · first
          | exact hop (.ins x) (List.mem_cons_self _ _)
          | exact hop (.ins k) (List.mem_cons_self _ _)
        · exact hel x hx3
      · have hunch : (Insert t k).2 = t :=
          hins.2.1 (by revert h1; cases (Insert t k).1 <;> simp)
        intro x hx
        have happ : applyOp t (.ins k) = (Insert t k).2 := rfl
        rw [happ, hunch] at hx
        exact hel x hx
    | del k =>
      have hdel := Delete_spec hw k
      by_cases h1 : (Delete t k).1 = true
      · have hel2 := (hdel.2.2.1 h1).1
        intro x hx
        have hx2 : x ∈ (elemsT t).erase k := by
          rw [← hel2]
          exact hx
        exact hel x (((elemsT t).erase_sublist k).subset hx2)
      · have hunch : (Delete t k).2 = t :=
          hdel.2.1 (by revert h1; cases (Delete t k).1 <;> simp)
        intro x hx
        have happ : applyOp t (.del k) = (Delete t k).2 := rfl
        rw [happ, hunch] at hx
        exact hel x hx

/-- Inserting an ascending run of fresh keys appends them in order. -/
theorem elemsT_asc_run : ∀ (l : List Nat) (t : BPTree), WFT t = true →
    List.Pairwise (· < ·) (elemsT t ++ l) →
    elemsT (applyOps t (l.map TreeOp.ins)) = elemsT t ++ l ∧
    WFT (applyOps t (l.map TreeOp.ins)) = true
  | [], t, hw, hs => by
    rw [List.map_nil, applyOps_nil, List.append_nil]
    exact ⟨rfl, hw⟩
  | k :: l', t, hw, hs => by
    rcases sorted_seg hs with ⟨hsE, hsI, hEk, hkI, hEI⟩
    have hknot : k ∉ elemsT t := fun hm => absurd (hEk k hm) (lt_irrefl k)
    have hins := Insert_spec hw k
    have htrue : (Insert t k).1 = true := hins.1.mpr hknot
    have hstep2 : elemsT (applyOp t (.ins k)) = elemsT t ++ [k] := by
      show elemsT (Insert t k).2 = _
      rw [(hins.2.2.1 htrue).1, sIns_gt_all hEk]
    have hw2 : WFT (applyOp t (.ins k)) = true := hins.2.2.2
    have hs2 : List.Pairwise (· < ·) (elemsT (applyOp t (.ins k)) ++ l') := by
      rw [hstep2]
      have hassoc : (elemsT t ++ [k]) ++ l' = elemsT t ++ k :: l' := by simp
      rw [hassoc]
      exact hs
    have ih := elemsT_asc_run l' (applyOp t (.ins k)) hw2 hs2
    rw [List.map_cons, applyOps_cons]
    refine ⟨?_, ih.2⟩
    rw [ih.1, hstep2]
    simp

/-- Inserting a run of fresh keys in descending order prepends them: the
final contents are the ascending list. -/
theorem elemsT_desc_run : ∀ (l : List Nat) (t : BPTree), WFT t = true →
    List.Pairwise (· < ·) (l ++ elemsT t) →
    elemsT (applyOps t (l.reverse.map TreeOp.ins)) = l ++ elemsT t ∧
    WFT (applyOps t (l.reverse.map TreeOp.ins)) = true
  | [], t, hw, hs => by
    rw [List.reverse_nil, List.map_nil, applyOps_nil, List.nil_append]
    exact ⟨rfl, hw⟩
  | k :: l', t, hw, hs => by
    rcases List.pairwise_cons.mp hs with ⟨hklt, hrest⟩
    have ih := elemsT_desc_run l' t hw hrest
    rw [List.reverse_cons, List.map_append, applyOps_append]
    have hone : applyOps (applyOps t (l'.reverse.map TreeOp.ins))
        ([k].map TreeOp.ins) =
        applyOp (applyOps t (l'.reverse.map TreeOp.ins)) (.ins k) := rfl
    rw [hone]
    set T1 := applyOps t (l'.reverse.map TreeOp.ins) with hT1
    have hklt' : ∀ x ∈ l' ++ elemsT t, k < x := hklt
    have hfresh : k ∉ elemsT T1 := by
      rw [ih.1]
      intro hm
      exact absurd (hklt' k hm) (lt_irrefl k)
    have hins := Insert_spec ih.2 k
    have htrue : (Insert T1 k).1 = true := hins.1.mpr hfresh
    have hstep2 : elemsT (applyOp T1 (.ins k)) = k :: (l' ++ elemsT t) := by
      show elemsT (Insert T1 k).2 = _
      rw [(hins.2.2.1 htrue).1, ih.1, sIns_lt_all hklt']
    refine ⟨?_, hins.2.2.2⟩
    rw [hstep2]
    rfl

end BPTree

/-! ### Arithmetic of `range'` windows (for the numeric test instances) -/

theorem countLt_range' : ∀ (n s k : Nat),
    BPTreeNode.countLt k (List.range' s n) = min n (k - s)
  | 0, s, k => by
    rw [show List.range' s 0 = [] from rfl, BPTreeNode.countLt_nil]
    omega
  | n + 1, s, k => by
    rw [List.range'_succ s n 1, BPTreeNode.countLt_cons,
      countLt_range' n (s + 1) k]
    by_cases h : s < k
    · rw [if_pos h]
      omega
    · rw [if_neg h]
      omega

theorem range'_drop : ∀ (n s i : Nat),
    (List.range' s n).drop i = List.range' (s + i) (n - i)
  | 0, s, i => by
    rw [show List.range' s 0 = [] from rfl, List.drop_nil, Nat.zero_sub,
      show List.range' (s + i) 0 = [] from rfl]
  | n + 1, s, 0 => by
    rw [List.drop_zero]
    simp
  | n + 1, s, i + 1 => by
    rw [List.range'_succ s n 1, List.drop_succ_cons, range'_drop n (s + 1) i]
    have h1 : s + 1 + i = s + (i + 1) := by omega
    have h2 : n - i = n + 1 - (i + 1) := by omega
    rw [h1, h2]

theorem range'_take : ∀ (n s i : Nat),
    (List.range' s n).take i = List.range' s (min i n)
  | 0, s, i => by
    rw [show List.range' s 0 = [] from rfl, List.take_nil, Nat.min_zero,
      show List.range' s 0 = [] from rfl]
  | n + 1, s, 0 => by
    rw [List.take_zero, Nat.zero_min, show List.range' s 0 = [] from rfl]
  | n + 1, s, i + 1 => by
    rw [List.range'_succ s n 1, List.take_succ_cons, range'_take n (s + 1) i]
    have hm : min (i + 1) (n + 1) = (min i n) + 1 := by omega
    rw [hm, List.range'_succ s (min i n) 1]

theorem pairwise_lt_range'_one (s n : Nat) :
    List.Pairwise (· < ·) (List.range' s n) := by
  have := List.pairwise_lt_range' s n 1
  simpa using this

namespace BPTreeNode

/-! ### The embedded checker bounds every key it accepts -/

theorem mem_le_getLast : ∀ {l : List Nat}, List.Pairwise (· < ·) l →
    ∀ {x}, x ∈ l → ∀ (h : l ≠ []), x ≤ l.getLast h
  | [], _, x, hx, h => absurd rfl h
  | [a], _, x, hx, h => by
    rcases List.mem_singleton.mp hx with rfl
    rfl
  | a :: b :: t, hp, x, hx, h => by
    rcases List.pairwise_cons.mp hp with ⟨ha, hp'⟩
    rw [List.getLast_cons (List.cons_ne_nil b t)]
    rcases List.mem_cons.mp hx with hxa | hx'
    · have hb := mem_le_getLast hp' (List.mem_cons_self b t)
        (List.cons_ne_nil b t)
      have hab : a < b := ha b (List.mem_cons_self b t)
      omega
    · exact mem_le_getLast hp' hx' (List.cons_ne_nil b t)

mutual
/-- Every key of a subtree the checker accepts lies strictly below the
inherited upper bound. -/
theorem validate_bound : ∀ (n : BPTreeNode) (ub : Nat), validate n ub = true →
    ∀ x ∈ elems n, x < ub
  | .leaf ks, ub, h, x, hx => by
    rw [validate, validateNode, Bool.and_eq_true] at h
    rcases h with ⟨h1, h2⟩
    rw [decide_eq_true_eq] at h2
    have hs := ascL_iff_pairwise.mp h1
    rw [elems] at hx
    have hne : ks ≠ [] := List.ne_nil_of_mem hx
    rw [getD_last_eq_getLast hne] at h2
    have := mem_le_getLast hs hx hne
    omega
  | .inner ks cs cnt, ub, h, x, hx => by
    rw [validate, Bool.and_eq_true] at h
    rcases h with ⟨hn, hk⟩
    rw [validateNode] at hn
    simp only [Bool.and_eq_true, decide_eq_true_eq] at hn
    rcases hn with ⟨⟨⟨h1, _⟩, _⟩, h4⟩
    have hs := ascL_iff_pairwise.mp h1
    have hkub : ∀ j ∈ ks, j < ub := by
      intro j hj
      have hne : ks ≠ [] := List.ne_nil_of_mem hj
      rw [getD_last_eq_getLast hne] at h4
      have := mem_le_getLast hs hj hne
      omega
    rw [elems] at hx
    exact validateKids_bound cs ks ub hk hkub x hx
termination_by n ub h x hx => sizeOf n

/-- Child-run form of `validate_bound`. -/
theorem validateKids_bound : ∀ (cs : List BPTreeNode) (ks : List Nat)
    (ub : Nat), validateKids cs ks ub = true → (∀ j ∈ ks, j < ub) →
    ∀ x ∈ interleave cs ks, x < ub
  | [], ks, ub, h, hks, x, hx => by
    have hil : interleave ([] : List BPTreeNode) ks = [] := rfl
    rw [hil] at hx
    exact absurd hx (List.not_mem_nil x)
  | [c], ks, ub, h, hks, x, hx => by
    simp only [validateKids] at h
    rw [interleave_single] at hx
    exact validate_bound c ub h x hx
  | c :: c1 :: cs', ks, ub, h, hks, x, hx => by
    cases ks with
    | nil =>
      simp only [validateKids, Bool.and_eq_true] at h
      have hil : interleave (c :: c1 :: cs') ([] : List Nat) =
          elems c ++ interleave (c1 :: cs') [] := rfl
      rw [hil] at hx
      rcases List.mem_append.mp hx with hxe | hxr
      · exact validate_bound c ub h.1 x hxe
      · exact validateKids_bound (c1 :: cs') [] ub h.2
          (fun j hj => absurd hj (List.not_mem_nil j)) x hxr
    | cons k0 ks' =>
      simp only [validateKids, Bool.and_eq_true] at h
      rw [interleave_cons2] at hx
      rcases List.mem_append.mp hx with hxe | hxr
      · have hk0ub : k0 < ub := hks k0 (List.mem_cons_self _ _)
        have := validate_bound c k0 h.1 x hxe
        omega
      · rcases List.mem_cons.mp hxr with hxk | hxr'
        · rw [hxk]
          exact hks k0 (List.mem_cons_self _ _)
        · exact validateKids_bound (c1 :: cs') ks' ub h.2
            (fun j hj => hks j (List.mem_cons_of_mem _ hj)) x hxr'
termination_by cs ks ub h hks x hx => sizeOf cs
end

end BPTreeNode

namespace BPTree

open BPTreeNode

theorem WFT_root_none {t : BPTree} (h : WFT t = true) (hr : t.root = none) :
    Size t = 0 := by
  obtain ⟨root, size_, height_, count_, used_⟩ := t
  have hr' : root = none := hr
  subst hr'
  rw [WFT] at h
  simp only [Bool.and_eq_true, beq_iff_eq] at h
  exact h.1.1.1

theorem WFT_root_some {t : BPTree} (h : WFT t = true) {r : BPTreeNode}
    (hr : t.root = some r) : Size t = TreeCount r := by
  obtain ⟨root, size_, height_, count_, used_⟩ := t
  have hr' : root = some r := hr
  subst hr'
  rw [WFT] at h
  simp only [Bool.and_eq_true, beq_iff_eq] at h
  exact h.1.1.1.2

theorem Size_eq_length {t : BPTree} (h : WFT t = true) :
    Size t = (elemsT t).length := by
  obtain ⟨root, size_, height_, count_, used_⟩ := t
  cases root with
  | none =>
    rw [WFT] at h
    simp only [Bool.and_eq_true, beq_iff_eq] at h
    exact h.1.1.1
  | some r =>
    rw [WFT] at h
    simp only [Bool.and_eq_true, beq_iff_eq] at h
    rcases h with ⟨⟨⟨⟨hwb, hsz⟩, _⟩, _⟩, _⟩
    show size_ = (elems r).length
    rw [hsz]
    exact TreeCount_eq_length_elems (WBa_of_WB hwb)

theorem elemsT_empty : elemsT BPTree.empty = [] := rfl

/-- A tree containing `UINT64_MAX` can never pass the whole-tree checker:
the root is checked against the inherited bound `UINT64_MAX` itself. -/
theorem ValidateTree_false_of_mem_max {t : BPTree}
    (hm : UINT64MAX ∈ elemsT t) : ValidateTree t = false := by
  obtain ⟨root, size_, height_, count_, used_⟩ := t
  cases root with
  | none => exact absurd hm (List.not_mem_nil _)
  | some r =>
    rw [ValidateTree]
    cases hv : validate r UINT64MAX with
    | false => exact hv
    | true =>
      have := validate_bound r UINT64MAX hv UINT64MAX hm
      omega

end BPTree

/-! ## The claims -/

section Claims

open BPTree BPTreeNode

/-- C1 (counterexample to the claim as stated): a single public mutation —
inserting the key `UINT64_MAX` — produces a tree the recursive structural
checker rejects, because the root's maximum key is not strictly below the
inherited bound `UINT64_MAX`. -/
theorem c1_counterexample :
    ValidateTree (applyOps BPTree.empty [TreeOp.ins UINT64MAX]) = false := by
  decide

/-- C1 (amended): for arbitrary interleaved insert/delete sequences whose
keys all lie strictly below `UINT64_MAX`, the recursive structural checker
(key ordering, uniform child leaf-ness, cached-count correctness, bound
containment) passes after every mutation. -/
theorem c1_checker_after_mutations (ops : List TreeOp)
    (hkeys : ∀ op ∈ ops, op.key < UINT64MAX) :
    ValidateTree (applyOps BPTree.empty ops) = true := by
  refine ValidateTree_of_WFT (WFT_applyOps ops BPTree.empty WFT_empty) ?_
  refine elemsT_bound ops BPTree.empty WFT_empty ?_ hkeys
  intro x hx
  exact absurd hx (List.not_mem_nil x)

/-- Witness for C1: the checker passes after a concrete mixed sequence. -/
theorem c1_witness :
    ValidateTree (applyOps BPTree.empty
      [TreeOp.ins 3, TreeOp.del 3, TreeOp.ins 7]) = true :=
  c1_checker_after_mutations [TreeOp.ins 3, TreeOp.del 3, TreeOp.ins 7]
    (by decide)

/-- C2: `Insert(k)` returns `true` and grows `size()` by exactly one when
no equal key is present (the key joins the ordered contents); it returns
`false` with the tree completely unmutated when an equal key exists. -/
theorem c2_insert_contract {t : BPTree} (h : WFT t = true) (k : Nat) :
    ((Insert t k).1 = true ↔ k ∉ elemsT t) ∧
    ((Insert t k).1 = true →
      Size (Insert t k).2 = Size t + 1 ∧
      elemsT (Insert t k).2 = sIns k (elemsT t)) ∧
    ((Insert t k).1 = false → (Insert t k).2 = t) := by
  have hi := Insert_spec h k
  exact ⟨hi.1, fun h1 => ⟨(hi.2.2.1 h1).2, (hi.2.2.1 h1).1⟩, hi.2.1⟩

/-- Witness for C2: a fresh insert into the empty tree succeeds. -/
theorem c2_witness : (Insert BPTree.empty 7).1 = true :=
  (c2_insert_contract (t := BPTree.empty) rfl 7).1.mpr (by decide)

/-- C3: `Delete(k)` returns `true` and shrinks `size()` by exactly one
when `k` is present; it returns `false` leaving size and structure
unchanged when `k` is absent. -/
theorem c3_delete_contract {t : BPTree} (h : WFT t = true) (k : Nat) :
    ((Delete t k).1 = true ↔ k ∈ elemsT t) ∧
    ((Delete t k).1 = true →
      Size (Delete t k).2 + 1 = Size t ∧
      elemsT (Delete t k).2 = (elemsT t).erase k) ∧
    ((Delete t k).1 = false → (Delete t k).2 = t) := by
  have hd := Delete_spec h k
  exact ⟨hd.1, fun h1 => ⟨(hd.2.2.1 h1).2, (hd.2.2.1 h1).1⟩, hd.2.1⟩

/-- Witness for C3: deleting from the empty tree mutates nothing. -/
theorem c3_witness : (Delete BPTree.empty 5).2 = BPTree.empty :=
  (c3_delete_contract (t := BPTree.empty) rfl 5).2.2 rfl

/-- C4: `GetRank(k)` counts exactly the stored elements strictly below
`k`, present or not; concretely, after inserting `1..6999` ascending,
`GetRank(i) = i - 1` for every inserted `i`, and after inserting
`20000..2` descending, `GetRank(i) = i - 2` for every inserted `i`. -/
theorem c4_rank_counts_smaller :
    (∀ (t : BPTree), WFT t = true → ∀ k : Nat,
      GetRank t k = countLt k (elemsT t)) ∧
    (∀ i ∈ List.range' 1 6999,
      GetRank (applyOps BPTree.empty ((List.range' 1 6999).map TreeOp.ins)) i
        = i - 1) ∧
    (∀ i ∈ List.range' 2 19999,
      GetRank (applyOps BPTree.empty
        ((List.range' 2 19999).reverse.map TreeOp.ins)) i = i - 2) := by
  refine ⟨fun t h k => GetRank_spec h k, ?_, ?_⟩
  · have hrun := elemsT_asc_run (List.range' 1 6999) BPTree.empty WFT_empty
      (by rw [elemsT_empty, List.nil_append]; exact pairwise_lt_range'_one 1 6999)
    intro i hi
    rw [GetRank_spec hrun.2 i, hrun.1, elemsT_empty, List.nil_append,
      countLt_range']
    rw [List.mem_range'_1] at hi
    omega
  · have hrun := elemsT_desc_run (List.range' 2 19999) BPTree.empty WFT_empty
      (by rw [elemsT_empty, List.append_nil]; exact pairwise_lt_range'_one 2 19999)
    intro i hi
    rw [GetRank_spec hrun.2 i, hrun.1, elemsT_empty, List.append_nil,
      countLt_range']
    rw [List.mem_range'_1] at hi
    omega

/-- C5: after any mutation sequence from the empty tree, `size()` equals
the number of successful inserts minus the number of successful deletes,
and equals the root's cached aggregate subtree count (0 when empty). -/
theorem c5_size_is_successful_ops (ops : List TreeOp) :
    Size (applyOps BPTree.empty ops) + succDel BPTree.empty ops
      = succIns BPTree.empty ops ∧
    ((applyOps BPTree.empty ops).root = none →
      Size (applyOps BPTree.empty ops) = 0) ∧
    (∀ r, (applyOps BPTree.empty ops).root = some r →
      Size (applyOps BPTree.empty ops) = TreeCount r) := by
  have hwft := WFT_applyOps ops BPTree.empty WFT_empty
  refine ⟨?_, fun hr => WFT_root_none hwft hr, fun r hr => WFT_root_some hwft hr⟩
  have hacc := size_accounting ops BPTree.empty WFT_empty
  have hz : Size BPTree.empty = 0 := rfl
  omega

/-- C6: `Iterate(lo, hi)` visits exactly `hi - lo + 1` elements, in
ascending rank order, the element at each rank `lo..hi`; concretely, over
`{0, 2, ..., 13998}` the window `31..543` is the 513 values
`62, 64, ..., 1086`. -/
theorem c6_iterate_window :
    (∀ (t : BPTree), WFT t = true → ∀ lo hi : Nat, lo ≤ hi → hi < Size t →
      Iterate t lo hi = ((elemsT t).drop lo).take (hi + 1 - lo) ∧
      (Iterate t lo hi).length = hi - lo + 1) ∧
    Iterate (applyOps BPTree.empty
        (((List.range' 0 7000).map (fun j => 2 * j)).map TreeOp.ins)) 31 543
      = (List.range' 31 513).map (fun j => 2 * j) ∧
    ((List.range' 31 513).map (fun j => 2 * j)).length = 513 := by
  refine ⟨?_, ?_, ?_⟩
  · intro t h lo hi hlohi hhis
    have hit := Iterate_spec h lo hi
    refine ⟨hit, ?_⟩
    rw [hit, List.length_take, List.length_drop, ← Size_eq_length h]
    omega
  · have hpw : List.Pairwise (· < ·)
        ((List.range' 0 7000).map (fun j => 2 * j)) := by
      rw [List.pairwise_map]
      exact (pairwise_lt_range'_one 0 7000).imp (fun hab => by omega)
    have hrun := elemsT_asc_run ((List.range' 0 7000).map (fun j => 2 * j))
      BPTree.empty WFT_empty (by rw [elemsT_empty, List.nil_append]; exact hpw)
    have hel : elemsT (applyOps BPTree.empty
        (((List.range' 0 7000).map (fun j => 2 * j)).map TreeOp.ins))
        = (List.range' 0 7000).map (fun j => 2 * j) := by
      rw [hrun.1, elemsT_empty, List.nil_append]
    rw [Iterate_spec hrun.2 31 543, hel]
    have h1 : (543 : Nat) + 1 - 31 = 513 := by norm_num
    rw [h1, ← List.map_drop, range'_drop, ← List.map_take, range'_take]
    norm_num
  · simp

/-- C7: `IterateReverse(lo, hi)` visits the same rank window in descending
order, rank `hi` first; concretely, over `{0, 2, ..., 13998}` the window
`5845..6849` is visited as 1005 values starting at `13698`, descending
by 2. -/
theorem c7_iterate_reverse_window :
    (∀ (t : BPTree), WFT t = true → ∀ lo hi : Nat, lo ≤ hi → hi < Size t →
      IterateReverse t lo hi
        = (((elemsT t).take (hi + 1)).reverse).take (hi + 1 - lo) ∧
      (IterateReverse t lo hi).length = hi - lo + 1) ∧
    IterateReverse (applyOps BPTree.empty
        (((List.range' 0 7000).map (fun j => 2 * j)).map TreeOp.ins)) 5845 6849
      = ((List.range' 5845 1005).map (fun j => 2 * j)).reverse ∧
    (((List.range' 5845 1005).map (fun j => 2 * j)).reverse).length = 1005 ∧
    (((List.range' 5845 1005).map (fun j => 2 * j)).reverse).headD 0 = 13698 := by
  refine ⟨?_, ?_, ?_, ?_⟩
  · intro t h lo hi hlohi hhis
    have hit := @IterateReverse_spec t h lo hi hhis
    refine ⟨hit, ?_⟩
    rw [hit, List.length_take, List.length_reverse, List.length_take,
      ← Size_eq_length h]
    omega
  · have hpw : List.Pairwise (· < ·)
        ((List.range' 0 7000).map (fun j => 2 * j)) := by
      rw [List.pairwise_map]
      exact (pairwise_lt_range'_one 0 7000).imp (fun hab => by omega)
    have hrun := elemsT_asc_run ((List.range' 0 7000).map (fun j => 2 * j))
      BPTree.empty WFT_empty (by rw [elemsT_empty, List.nil_append]; exact hpw)
    have hel : elemsT (applyOps BPTree.empty
        (((List.range' 0 7000).map (fun j => 2 * j)).map TreeOp.ins))
        = (List.range' 0 7000).map (fun j => 2 * j) := by
      rw [hrun.1, elemsT_empty, List.nil_append]
    have hhis : (6849 : Nat) < Size (applyOps BPTree.empty
        (((List.range' 0 7000).map (fun j => 2 * j)).map TreeOp.ins)) := by
      rw [Size_eq_length hrun.2, hel, List.length_map]
      rw [List.length_range']
      norm_num
    rw [IterateReverse_spec hrun.2 hhis, hel]
    have h1 : (6849 : Nat) + 1 - 5845 = 1005 := by norm_num
    have h2 : (6849 : Nat) + 1 = 6850 := by norm_num
    rw [h1, h2, ← List.map_take, range'_take]
    have h3 : min (6850 : Nat) 7000 = 6850 := by norm_num
    rw [h3, ← List.map_reverse, ← List.map_reverse, ← List.map_take]
    refine congrArg (List.map (fun j => 2 * j)) ?_
    rw [List.take_reverse, List.length_range']
    have h4 : (6850 : Nat) - 1005 = 5845 := by norm_num
    rw [h4, range'_drop]
  · simp
  · rw [show (1005 : Nat) = 1004 + 1 from rfl, List.range'_1_concat]
    simp

/-- C8: an empty tree — reached by `Clear()` or by deleting every element
— reports `size() = 0`, `Height() = 0`, `NodeCount() = 0`, and has
returned every acquired byte to the memory resource. -/
theorem c8_empty_tree_releases_all :
    (∀ t : BPTree, WFT t = true →
      Size (Clear t) = 0 ∧ Height (Clear t) = 0 ∧ NodeCount (Clear t) = 0 ∧
      used (Clear t) = 0) ∧
    (∀ ops : List TreeOp,
      elemsT (applyOps BPTree.empty ops) = [] →
      Size (applyOps BPTree.empty ops) = 0 ∧
      Height (applyOps BPTree.empty ops) = 0 ∧
      NodeCount (applyOps BPTree.empty ops) = 0 ∧
      used (applyOps BPTree.empty ops) = 0) := by
  constructor
  · intro t h
    rw [Clear_spec h]
    exact ⟨rfl, rfl, rfl, rfl⟩
  · intro ops he
    exact drained_of_empty (WFT_applyOps ops BPTree.empty WFT_empty) he

/-- C9: a failing node allocation surfaces as `bad_alloc` propagated
unchanged to the caller — it happens exactly when the resource cannot
serve the operation's allocation need, so no partially mutated tree is
ever produced and the caller's tree is still the last consistent state;
with sufficient budget the operation equals the infallible one. -/
theorem c9_alloc_failure_safe {t : BPTree} (h : WFT t = true)
    (budget k : Nat) :
    (∀ e, InsertF t budget k = .error e →
      e = "bad_alloc" ∧ budget < insertAllocs t k ∧ WFT t = true) ∧
    (∀ r, InsertF t budget k = .ok r →
      r = Insert t k ∧ WFT r.2 = true) ∧
    (insertAllocs t k ≤ budget →
      InsertF t budget k = .ok (Insert t k)) := by
  refine ⟨?_, ?_, ?_⟩
  · intro e he
    rw [InsertF] at he
    by_cases hb : budget < insertAllocs t k
    · rw [if_pos hb] at he
      injection he with he1
      exact ⟨he1.symm, hb, h⟩
    · rw [if_neg hb] at he
      exact Except.noConfusion he
  · intro r hr
    rw [InsertF] at hr
    by_cases hb : budget < insertAllocs t k
    · rw [if_pos hb] at hr
      exact Except.noConfusion hr
    · rw [if_neg hb] at hr
      injection hr with hr1
      exact ⟨hr1.symm, hr1 ▸ (Insert_spec h k).2.2.2⟩
  · intro hle
    rw [InsertF, if_neg (by omega)]

/-- Witness for C9: with enough budget the fallible insert agrees with the
infallible one. -/
theorem c9_witness :
    InsertF BPTree.empty 5 1 = Except.ok (Insert BPTree.empty 1) :=
  (c9_alloc_failure_safe (t := BPTree.empty) rfl 5 1).2.2 (by decide)

/-- C10: the test suite's structural checker starts from the inherited
bound `UINT64_MAX` and requires every node's maximum key strictly below
its bound, so the full validation returns false for every tree containing
the key `UINT64_MAX` — the checker cannot accept trees over the full
uint64 key domain. -/
theorem c10_validate_rejects_uint64max {t : BPTree}
    (hm : UINT64MAX ∈ elemsT t) : ValidateTree t = false :=
  ValidateTree_false_of_mem_max hm

/-- Witness for C10: the tree holding exactly `UINT64_MAX` fails
validation. -/
theorem c10_witness :
    ValidateTree (Insert BPTree.empty UINT64MAX).2 = false :=
  c10_validate_rejects_uint64max (t := (Insert BPTree.empty UINT64MAX).2)
    (List.mem_singleton_self UINT64MAX)

end Claims

end BPTreeSpec
